import Mathlib

/-!
Verification development for the pycppqed Blitz-array codec and stream
splitter (src/pycppqed/io.py, src/pycppqed/data.py, src/data.py).

Python strings are modelled as `List Char`; the Python string operations
used by the code (`split`, `replace`, `find`, `rstrip`, slicing,
`splitlines`) are implemented below with Python semantics (leftmost,
non-overlapping occurrences; negative-slice clamping).  Numeric literals
(floats rendered by `"%s"` and re-parsed by `float`) are modelled by their
decimal renderings, i.e. a complex entry is the pair of the strings that
appear in its `(re,im)` token; this captures the structural content of the
codec exactly and abstracts only the float-to-string fidelity of the host
language.  Exceptions (IndexError, ValueError, AssertionError,
StopIteration) are modelled as `Option`/error results.
-/

namespace PQ

set_option maxRecDepth 4000
set_option linter.unusedVariables false

/-- Convenience: a Lean string literal as a list of characters. -/
def cs (s : String) : List Char := s.toList

/-- `leadsWith pat s` is true iff `pat` is an initial segment of `s`
(Python `s.startswith(pat)` at position 0). -/
def leadsWith : List Char → List Char → Bool
  | [], _ => true
  | _ :: _, [] => false
  | p :: ps, c :: rest => p == c && leadsWith ps rest

/-- Python `sep.join(parts)`. -/
def joinSep (sep : List Char) : List (List Char) → List Char
  | [] => []
  | [x] => x
  | x :: xs => x ++ sep ++ joinSep sep xs

/-- Worker for `pySplit`: scan for the (nonempty) separator `z :: zs`,
splitting at each leftmost non-overlapping occurrence.  The `Nat` argument
is computation fuel (any value at least the string length gives the scan's
result); it makes the recursion structural so that the kernel can evaluate
the function on concrete inputs. -/
def splitGo (z : Char) (zs : List Char) : Nat → List Char → List Char → List (List Char)
  | _, [], acc => [acc.reverse]
  | 0, s, acc => [acc.reverse ++ s]
  | f + 1, c :: rest, acc =>
    if z == c && leadsWith zs rest then
      acc.reverse :: splitGo z zs f (rest.drop zs.length) []
    else
      splitGo z zs f rest (c :: acc)

/-- Python `s.split(sep)` for a nonempty separator. -/
def pySplit (s sep : List Char) : List (List Char) :=
  match sep with
  | [] => [s]
  | z :: zs => splitGo z zs s.length s []

/-- Worker for `pyReplace` (fueled like `splitGo`). -/
def replGo (z : Char) (zs new : List Char) : Nat → List Char → List Char
  | _, [] => []
  | 0, s => s
  | f + 1, c :: rest =>
    if z == c && leadsWith zs rest then
      new ++ replGo z zs new f (rest.drop zs.length)
    else
      c :: replGo z zs new f rest

/-- Python `s.replace(pat, new)` for a nonempty pattern. -/
def pyReplace (s pat new : List Char) : List Char :=
  match pat with
  | [] => s
  | z :: zs => replGo z zs new s.length s

/-- Index of the first occurrence of `pat` in `s` (Python `s.find(pat)`,
with `none` for `-1`). -/
def findSub : List Char → List Char → Option Nat
  | [], pat => if leadsWith pat [] then some 0 else none
  | c :: rest, pat =>
    if leadsWith pat (c :: rest) then some 0
    else (findSub rest pat).map (· + 1)

/-- Python `s.find(pat, start)` (`none` for `-1`). -/
def findSubFrom (s pat : List Char) (start : Nat) : Option Nat :=
  (findSub (s.drop start) pat).map (· + start)

/-- Python `s.split("\n", 1)` when it yields two pieces: the text before the
first newline and everything after it; `none` when `s` has no newline (in
which case the two-way unpacking in the source raises). -/
def splitFirstNl : List Char → Option (List Char × List Char)
  | [] => none
  | c :: rest =>
    if c = '\n' then some ([], rest)
    else (splitFirstNl rest).map (fun p => (c :: p.1, p.2))

/-- Python `s.rstrip("\n")`. -/
def rstripNl (s : List Char) : List Char :=
  (s.reverse.dropWhile (fun c => c == '\n')).reverse

/-- Python `s.rstrip(" ")` (trailing spaces, used when modelling `eval`'s
tolerance of the trailing blank in dimension lines). -/
def rstripSp (s : List Char) : List Char :=
  (s.reverse.dropWhile (fun c => c == ' ')).reverse

/-- Python slice `s[3:-3]`. -/
def slice33 (s : List Char) : List Char :=
  (s.drop 3).take (s.length - 6)

/-- Python slice `s[:j]` for a possibly negative `j`. -/
def sliceTo (s : List Char) (j : Int) : List Char :=
  if j < 0 then s.take ((s.length : Int) + j).toNat else s.take j.toNat

/-- Python `s.splitlines()` for strings whose only line boundary is `'\n'`:
split at newlines, with no trailing empty line for a trailing newline. -/
def splitlines (s : List Char) : List (List Char) :=
  match s with
  | [] => []
  | _ =>
    let ps := pySplit s ['\n']
    if ps.getLast? = some [] then ps.dropLast else ps

/-- Count of a character in a string. -/
def countCh (c : Char) (s : List Char) : Nat :=
  s.countP (fun x => x == c)

/-- Python whitespace. -/
def isWs (c : Char) : Bool :=
  c == ' ' || c == '\t' || c == '\n' || c == '\r'

/-- Worker for `pySplitWs`. -/
def wsGo : List Char → List Char → List (List Char)
  | [], acc => if acc.isEmpty then [] else [acc.reverse]
  | c :: r, acc =>
    if isWs c then
      if acc.isEmpty then wsGo r [] else acc.reverse :: wsGo r []
    else wsGo r (c :: acc)

/-- Python `s.split()` (split on whitespace runs, dropping empty fields). -/
def pySplitWs (s : List Char) : List (List Char) :=
  wsGo s []

/-- Python `s.endswith(suf)`. -/
def endsWithL (s suf : List Char) : Bool :=
  leadsWith suf.reverse s.reverse

-- ## Basic facts about the primitives

theorem leadsWith_append_self (p r : List Char) : leadsWith p (p ++ r) = true := by
  induction p with
  | nil => simp [leadsWith]
  | cons c cstail ih => simp [leadsWith, ih]

theorem leadsWith_nil_false (p : List Char) (hp : p ≠ []) : leadsWith p [] = false := by
  cases p with
  | nil => exact absurd rfl hp
  | cons c r => simp [leadsWith]

theorem leadsWith_false_of_head_ne (w : Char) (ws s : List Char)
    (h : ∀ c0, s.head? = some c0 → c0 ≠ w) : leadsWith (w :: ws) s = false := by
  cases s with
  | nil => simp [leadsWith]
  | cons c r =>
    have : c ≠ w := h c rfl
    simp [leadsWith]
    intro hw
    exact absurd hw.symm this

theorem splitGo_nil (z : Char) (zs : List Char) (f : Nat) (acc : List Char) :
    splitGo z zs f [] acc = [acc.reverse] := by
  cases f <;> rfl

theorem splitGo_fuel_aux (z : Char) (zs : List Char) :
    ∀ (n : Nat) (s : List Char), s.length ≤ n → ∀ f1 f2 acc, s.length ≤ f1 → s.length ≤ f2 →
      splitGo z zs f1 s acc = splitGo z zs f2 s acc := by
  intro n
  induction n with
  | zero =>
    intro s hs f1 f2 acc h1 h2
    have : s = [] := List.length_eq_zero.mp (Nat.le_zero.mp hs)
    subst this
    rw [splitGo_nil, splitGo_nil]
  | succ n ih =>
    intro s hs f1 f2 acc h1 h2
    cases s with
    | nil => rw [splitGo_nil, splitGo_nil]
    | cons c rest =>
      simp only [List.length_cons] at hs h1 h2
      cases f1 with
      | zero => omega
      | succ f1a =>
        cases f2 with
        | zero => omega
        | succ f2a =>
          rw [splitGo, splitGo]
          by_cases hg : (z == c && leadsWith zs rest) = true
          · rw [if_pos hg, if_pos hg]
            have hd : (rest.drop zs.length).length ≤ rest.length := by
              simp [List.length_drop]
            rw [ih (rest.drop zs.length) (by omega) f1a f2a [] (by omega) (by omega)]
          · rw [if_neg hg, if_neg hg]
            exact ih rest (by omega) f1a f2a (c :: acc) (by omega) (by omega)

theorem splitGo_fuel (z : Char) (zs : List Char) (s : List Char) (f1 f2 : Nat)
    (acc : List Char) (h1 : s.length ≤ f1) (h2 : s.length ≤ f2) :
    splitGo z zs f1 s acc = splitGo z zs f2 s acc :=
  splitGo_fuel_aux z zs s.length s (Nat.le_refl _) f1 f2 acc h1 h2

theorem splitGo_no (z : Char) (zs : List Char) (c acc : List Char) (f : Nat)
    (hf : c.length ≤ f) (hc : z ∉ c) :
    splitGo z zs f c acc = [acc.reverse ++ c] := by
  induction c generalizing acc f with
  | nil => rw [splitGo_nil]; simp
  | cons x c2 ih =>
    simp only [List.length_cons] at hf
    cases f with
    | zero => omega
    | succ fa =>
      have hxz : ¬ (z == x && leadsWith zs c2) = true := by
        have : x ≠ z := fun h => hc (h ▸ List.mem_cons_self x c2)
        simp [beq_iff_eq]
        intro hzx
        exact absurd hzx.symm this
      rw [splitGo, if_neg hxz,
        ih (x :: acc) fa (by omega) (fun h => hc (List.mem_cons_of_mem x h))]
      simp

theorem splitGo_append (z : Char) (zs r acc : List Char) (c : List Char) (f : Nat)
    (hf : (c ++ (z :: zs) ++ r).length ≤ f) (hc : z ∉ c) :
    splitGo z zs f (c ++ (z :: zs) ++ r) acc
      = (acc.reverse ++ c) :: pySplit r (z :: zs) := by
  induction c generalizing acc f with
  | nil =>
    simp only [List.nil_append, List.length_append, List.length_cons] at hf ⊢
    cases f with
    | zero => omega
    | succ fa =>
      show splitGo z zs (fa + 1) (z :: (zs ++ r)) acc = (acc.reverse ++ []) :: pySplit r (z :: zs)
      rw [splitGo]
      have hguard : (z == z && leadsWith zs (zs ++ r)) = true := by
        simp [leadsWith_append_self]
      rw [if_pos hguard]
      have hdrop : (zs ++ r).drop zs.length = r := List.drop_left _ _
      rw [hdrop]
      have hfuel : splitGo z zs fa r [] = splitGo z zs r.length r [] := by
        apply splitGo_fuel
        · omega
        · exact Nat.le_refl _
      rw [hfuel]
      simp [pySplit]
  | cons x c2 ih =>
    simp only [List.cons_append, List.length_cons] at hf ⊢
    cases f with
    | zero => omega
    | succ fa =>
      have hxz : ¬ (z == x && leadsWith zs (c2 ++ (z :: zs) ++ r)) = true := by
        have : x ≠ z := fun h => hc (h ▸ List.mem_cons_self x c2)
        simp [beq_iff_eq]
        intro hzx
        exact absurd hzx.symm this
      show splitGo z zs (fa + 1) (x :: (c2 ++ (z :: zs) ++ r)) acc = _
      rw [splitGo, if_neg hxz,
        ih (x :: acc) fa (by simp at hf ⊢; omega) (fun h => hc (List.mem_cons_of_mem x h))]
      simp

theorem pySplit_single (z : Char) (zs : List Char) (c : List Char) (hc : z ∉ c) :
    pySplit c (z :: zs) = [c] := by
  rw [pySplit, splitGo_no z zs c [] c.length (Nat.le_refl _) hc]
  simp

theorem pySplit_cons (z : Char) (zs r : List Char) (c : List Char) (hc : z ∉ c) :
    pySplit (c ++ (z :: zs) ++ r) (z :: zs) = c :: pySplit r (z :: zs) := by
  rw [pySplit, splitGo_append z zs r [] c _ (Nat.le_refl _) hc]
  simp

theorem pySplit_joinSep (z : Char) (zs : List Char) (parts : List (List Char))
    (h : ∀ p ∈ parts, z ∉ p) (hne : parts ≠ []) :
    pySplit (joinSep (z :: zs) parts) (z :: zs) = parts := by
  induction parts with
  | nil => exact absurd rfl hne
  | cons p ps ih =>
    cases ps with
    | nil =>
      simp only [joinSep]
      exact pySplit_single z zs p (h p (List.mem_cons_self p []))
    | cons q qs =>
      have hjoin : joinSep (z :: zs) (p :: q :: qs) = p ++ (z :: zs) ++ joinSep (z :: zs) (q :: qs) := rfl
      rw [hjoin, pySplit_cons z zs _ p (h p (List.mem_cons_self p _))]
      rw [ih (fun x hx => h x (List.mem_cons_of_mem p hx)) (by simp)]

theorem replGo_nil (z : Char) (zs new : List Char) (f : Nat) :
    replGo z zs new f [] = [] := by
  cases f <;> rfl

theorem replGo_fuel_aux (z : Char) (zs new : List Char) :
    ∀ (n : Nat) (s : List Char), s.length ≤ n → ∀ f1 f2, s.length ≤ f1 → s.length ≤ f2 →
      replGo z zs new f1 s = replGo z zs new f2 s := by
  intro n
  induction n with
  | zero =>
    intro s hs f1 f2 h1 h2
    have : s = [] := List.length_eq_zero.mp (Nat.le_zero.mp hs)
    subst this
    rw [replGo_nil, replGo_nil]
  | succ n ih =>
    intro s hs f1 f2 h1 h2
    cases s with
    | nil => rw [replGo_nil, replGo_nil]
    | cons c rest =>
      simp only [List.length_cons] at hs h1 h2
      cases f1 with
      | zero => omega
      | succ f1a =>
        cases f2 with
        | zero => omega
        | succ f2a =>
          rw [replGo, replGo]
          by_cases hg : (z == c && leadsWith zs rest) = true
          · rw [if_pos hg, if_pos hg]
            have hd : (rest.drop zs.length).length ≤ rest.length := by
              simp [List.length_drop]
            rw [ih (rest.drop zs.length) (by omega) f1a f2a (by omega) (by omega)]
          · rw [if_neg hg, if_neg hg]
            rw [ih rest (by omega) f1a f2a (by omega) (by omega)]

theorem replGo_fuel (z : Char) (zs new : List Char) (s : List Char) (f1 f2 : Nat)
    (h1 : s.length ≤ f1) (h2 : s.length ≤ f2) :
    replGo z zs new f1 s = replGo z zs new f2 s :=
  replGo_fuel_aux z zs new s.length s (Nat.le_refl _) f1 f2 h1 h2

theorem replGo_none (z w : Char) (ws new : List Char) (hzw : w ≠ z) (s : List Char)
    (f : Nat) (hf : s.length ≤ f) (hs : w ∉ s) : replGo z (w :: ws) new f s = s := by
  induction s generalizing f with
  | nil => exact replGo_nil z (w :: ws) new f
  | cons x r ih =>
    simp only [List.length_cons] at hf
    cases f with
    | zero => omega
    | succ fa =>
      have hguard : ¬ (z == x && leadsWith (w :: ws) r) = true := by
        have hhead : leadsWith (w :: ws) r = false := by
          apply leadsWith_false_of_head_ne
          intro c0 hc0
          cases r with
          | nil => simp at hc0
          | cons y r2 =>
            simp at hc0
            subst hc0
            exact fun h => hs (h ▸ List.mem_cons_of_mem x (List.mem_cons_self y r2))
        simp [hhead]
      rw [replGo, if_neg hguard, ih fa (by omega) (fun h => hs (List.mem_cons_of_mem x h))]

theorem head_ne_of_not_mem_mid (w x : Char) (c2 tail : List Char) (hzw : ∀ c0, tail.head? = some c0 → c0 ≠ w)
    (hc : w ∉ x :: c2) : ∀ c0, (c2 ++ tail).head? = some c0 → c0 ≠ w := by
  intro c0 hc0
  cases c2 with
  | nil => exact hzw c0 (by simpa using hc0)
  | cons y c3 =>
    simp at hc0
    subst hc0
    exact fun h => hc (h ▸ List.mem_cons_of_mem x (List.mem_cons_self y c3))

theorem replGo_mid (z w : Char) (ws new : List Char) (hzw : w ≠ z) (c r : List Char)
    (f : Nat) (hf : (c ++ (z :: w :: ws) ++ r).length ≤ f) (hc : w ∉ c) :
    replGo z (w :: ws) new f (c ++ (z :: w :: ws) ++ r)
      = c ++ new ++ pyReplace r (z :: w :: ws) new := by
  induction c generalizing f with
  | nil =>
    simp only [List.nil_append, List.length_cons, List.length_append] at hf ⊢
    cases f with
    | zero => omega
    | succ fa =>
      show replGo z (w :: ws) new (fa + 1) (z :: ((w :: ws) ++ r))
        = new ++ pyReplace r (z :: w :: ws) new
      rw [replGo]
      have hguard : (z == z && leadsWith (w :: ws) ((w :: ws) ++ r)) = true := by
        simp only [beq_self_eq_true, Bool.true_and]
        exact leadsWith_append_self _ _
      rw [if_pos hguard]
      have hdrop : ((w :: ws) ++ r).drop (w :: ws).length = r := List.drop_left _ _
      rw [hdrop]
      have hfuel : replGo z (w :: ws) new fa r = replGo z (w :: ws) new r.length r := by
        apply replGo_fuel
        · omega
        · exact Nat.le_refl _
      rw [hfuel]
      rfl
  | cons x c2 ih =>
    simp only [List.cons_append, List.length_cons] at hf ⊢
    cases f with
    | zero => omega
    | succ fa =>
      have hhead : leadsWith (w :: ws) (c2 ++ (z :: w :: ws) ++ r) = false := by
        rw [List.append_assoc]
        apply leadsWith_false_of_head_ne
        apply head_ne_of_not_mem_mid w x c2 _ _ hc
        intro c0 h0
        simp at h0
        subst h0
        exact fun h => hzw h.symm
      show replGo z (w :: ws) new (fa + 1) (x :: (c2 ++ (z :: w :: ws) ++ r)) = _
      rw [replGo]
      have hguard : (z == x && leadsWith (w :: ws) (c2 ++ (z :: w :: ws) ++ r)) = false := by
        rw [hhead, Bool.and_false]
      rw [hguard, if_neg Bool.false_ne_true,
        ih fa (by simp at hf ⊢; omega) (fun h => hc (List.mem_cons_of_mem x h))]

theorem findSub_zero (pat s : List Char) (h : leadsWith pat s = true) :
    findSub s pat = some 0 := by
  cases s with
  | nil => rw [findSub, if_pos h]
  | cons c rest => rw [findSub, if_pos h]

theorem findSub_none_pair (z w : Char) (ws s : List Char) (hzw : w ≠ z) (hs : w ∉ s) :
    findSub s (z :: w :: ws) = none := by
  induction s with
  | nil => rw [findSub, if_neg (by simp [leadsWith])]
  | cons x r ih =>
    have hguard : leadsWith (z :: w :: ws) (x :: r) = false := by
      simp only [leadsWith]
      cases hzx : (z == x) with
      | false => simp
      | true =>
        simp only [Bool.true_and]
        apply leadsWith_false_of_head_ne
        intro c0 hc0
        cases r with
        | nil => simp at hc0
        | cons y r2 =>
          simp at hc0
          subst hc0
          exact fun h => hs (h ▸ List.mem_cons_of_mem x (List.mem_cons_self y r2))
    rw [findSub, hguard, if_neg Bool.false_ne_true,
      ih (fun h => hs (List.mem_cons_of_mem x h))]
    rfl

theorem findSub_mid_pair (z w : Char) (ws c r : List Char) (hzw : w ≠ z) (hc : w ∉ c) :
    findSub (c ++ (z :: w :: ws) ++ r) (z :: w :: ws) = some c.length := by
  induction c with
  | nil =>
    show findSub (z :: ((w :: ws) ++ r)) (z :: w :: ws) = some 0
    apply findSub_zero
    show leadsWith (z :: w :: ws) (z :: (w :: ws ++ r)) = true
    simp only [leadsWith, beq_self_eq_true, Bool.true_and]
    exact leadsWith_append_self _ _
  | cons x c2 ih =>
    have hhead : leadsWith (w :: ws) (c2 ++ (z :: w :: ws) ++ r) = false := by
      rw [List.append_assoc]
      apply leadsWith_false_of_head_ne
      apply head_ne_of_not_mem_mid w x c2 _ _ hc
      intro c0 h0
      simp at h0
      subst h0
      exact fun h => hzw h.symm
    have hguard : leadsWith (z :: w :: ws) (x :: (c2 ++ (z :: w :: ws) ++ r)) = false := by
      simp only [leadsWith, hhead, Bool.and_false]
    show findSub (x :: (c2 ++ (z :: w :: ws) ++ r)) (z :: w :: ws) = some (x :: c2).length
    rw [findSub, hguard, if_neg Bool.false_ne_true,
      ih (fun h => hc (List.mem_cons_of_mem x h))]
    simp

theorem findSub_none_single (h : Char) (s : List Char) (hs : h ∉ s) :
    findSub s [h] = none := by
  induction s with
  | nil => rw [findSub, if_neg (by simp [leadsWith])]
  | cons x r ih =>
    have hguard : leadsWith [h] (x :: r) = false := by
      simp only [leadsWith, Bool.and_true]
      simp only [beq_eq_false_iff_ne, ne_eq]
      exact fun hh => hs (hh ▸ List.mem_cons_self x r)
    rw [findSub, hguard, if_neg Bool.false_ne_true,
      ih (fun hm => hs (List.mem_cons_of_mem x hm))]
    rfl

theorem findSub_mid_single (h : Char) (c r : List Char) (hc : h ∉ c) :
    findSub (c ++ h :: r) [h] = some c.length := by
  induction c with
  | nil =>
    show findSub (h :: r) [h] = some 0
    apply findSub_zero
    simp [leadsWith]
  | cons x c2 ih =>
    have hguard : leadsWith [h] (x :: (c2 ++ h :: r)) = false := by
      simp only [leadsWith, Bool.and_true]
      simp only [beq_eq_false_iff_ne, ne_eq]
      exact fun hh => hc (hh ▸ List.mem_cons_self x c2)
    show findSub (x :: (c2 ++ h :: r)) [h] = some (x :: c2).length
    rw [findSub, hguard, if_neg Bool.false_ne_true,
      ih (fun hm => hc (List.mem_cons_of_mem x hm))]
    simp

theorem splitFirstNl_append (a b : List Char) (ha : '\n' ∉ a) :
    splitFirstNl (a ++ '\n' :: b) = some (a, b) := by
  induction a with
  | nil => simp [splitFirstNl]
  | cons x a2 ih =>
    have hx : ¬ x = '\n' := fun h => ha (h ▸ List.mem_cons_self x a2)
    show splitFirstNl (x :: (a2 ++ '\n' :: b)) = some (x :: a2, b)
    rw [splitFirstNl, if_neg hx, ih (fun h => ha (List.mem_cons_of_mem x h))]
    rfl

theorem rstripNl_of_ends (a : List Char) (k : Nat) (ha : a ≠ [])
    (hlast : a.getLast? ≠ some '\n') :
    rstripNl (a ++ List.replicate k '\n') = a := by
  unfold rstripNl
  rw [List.reverse_append, List.reverse_replicate]
  have hdropRep : ∀ m (t : List Char), List.dropWhile (fun c => c == '\n')
      (List.replicate m '\n' ++ t) = List.dropWhile (fun c => c == '\n') t := by
    intro m
    induction m with
    | zero => intro t; simp
    | succ n ih => intro t; simp [List.replicate_succ, List.dropWhile, ih]
  rw [hdropRep]
  have : List.dropWhile (fun c => c == '\n') a.reverse = a.reverse := by
    cases hrev : a.reverse with
    | nil => simp
    | cons x r =>
      have hx : a.getLast? = some x := by
        rw [List.getLast?_eq_head?_reverse, hrev]
        rfl
      have hxne : ¬ (x == '\n') = true := by
        simp
        intro hcontr
        exact hlast (by rw [hx, hcontr])
      simp [List.dropWhile, hxne]
  rw [this, List.reverse_reverse]

theorem rstripNl_no_nl (a : List Char) (hlast : a.getLast? ≠ some '\n') :
    rstripNl a = a := by
  by_cases hnil : a = []
  · rw [hnil]; rfl
  · have h2 := rstripNl_of_ends a 0 hnil hlast
    simpa using h2

theorem mem_joinSep (sep : List Char) (parts : List (List Char)) (x : Char)
    (hx : x ∈ joinSep sep parts) : x ∈ sep ∨ ∃ p ∈ parts, x ∈ p := by
  induction parts with
  | nil => simp [joinSep] at hx
  | cons p ps ih =>
    cases ps with
    | nil =>
      simp only [joinSep] at hx
      exact Or.inr ⟨p, List.mem_cons_self p [], hx⟩
    | cons q qs =>
      have hshape : joinSep sep (p :: q :: qs) = p ++ sep ++ joinSep sep (q :: qs) := rfl
      rw [hshape] at hx
      rcases List.mem_append.mp hx with hx1 | hx2
      · rcases List.mem_append.mp hx1 with hp | hsep
        · exact Or.inr ⟨p, List.mem_cons_self p _, hp⟩
        · exact Or.inl hsep
      · rcases ih hx2 with hsep | ⟨m, hm, hxm⟩
        · exact Or.inl hsep
        · exact Or.inr ⟨m, List.mem_cons_of_mem p hm, hxm⟩

theorem joinSep_cons2 (sep x : List Char) (y : List Char) (ys : List (List Char)) :
    joinSep sep (x :: y :: ys) = x ++ sep ++ joinSep sep (y :: ys) := rfl

theorem joinSep_append_one (sep : List Char) (xs : List (List Char)) (y : List Char)
    (hxs : xs ≠ []) : joinSep sep (xs ++ [y]) = joinSep sep xs ++ sep ++ y := by
  induction xs with
  | nil => exact absurd rfl hxs
  | cons x rest ih =>
    cases rest with
    | nil => simp [joinSep]
    | cons q qs =>
      have h1 : (x :: q :: qs) ++ [y] = x :: ((q :: qs) ++ [y]) := rfl
      rw [h1]
      have h2 : (q :: qs) ++ [y] = q :: (qs ++ [y]) := rfl
      rw [h2]
      have h3 : joinSep sep (x :: q :: (qs ++ [y])) = x ++ sep ++ joinSep sep (q :: (qs ++ [y])) := rfl
      rw [h3, ← h2, ih (by simp), joinSep_cons2]
      simp [List.append_assoc]

theorem joinSep_last_append (sep : List Char) (xs : List (List Char)) (y t : List Char)
    (hxs : True) : joinSep sep (xs ++ [y ++ t]) = joinSep sep (xs ++ [y]) ++ t := by
  cases hx : xs with
  | nil => simp [joinSep]
  | cons a rest =>
    rw [joinSep_append_one sep (a :: rest) (y ++ t) (by simp),
      joinSep_append_one sep (a :: rest) y (by simp)]
    simp [List.append_assoc]

/-- When every part lacks the distinguishing second character `w` of the
separator, replacing the full separator `z :: w :: ws` by `new` in a joined
string re-joins the parts with `new` (models `"s".replace(" x ", ",")` on a
dimension string). -/
theorem pyReplace_joinSep_full (z w : Char) (ws new : List Char) (hzw : w ≠ z)
    (parts : List (List Char)) (h : ∀ p ∈ parts, w ∉ p) :
    pyReplace (joinSep (z :: w :: ws) parts) (z :: w :: ws) new = joinSep new parts := by
  induction parts with
  | nil => rfl
  | cons x rest ih =>
    cases rest with
    | nil =>
      show replGo z (w :: ws) new (joinSep (z :: w :: ws) [x]).length
        (joinSep (z :: w :: ws) [x]) = joinSep new [x]
      simp only [joinSep]
      exact replGo_none z w ws new hzw x x.length (Nat.le_refl _)
        (h x (List.mem_cons_self x []))
    | cons q qs =>
      show replGo z (w :: ws) new (joinSep (z :: w :: ws) (x :: q :: qs)).length
        (joinSep (z :: w :: ws) (x :: q :: qs)) = joinSep new (x :: q :: qs)
      rw [joinSep_cons2]
      rw [replGo_mid z w ws new hzw x _ _ (Nat.le_refl _) (h x (List.mem_cons_self x _))]
      rw [ih (fun p hp => h p (List.mem_cons_of_mem x hp))]
      rw [joinSep_cons2]

theorem replGo_cons_safe (z w : Char) (ws new : List Char) (cc : Char) (t : List Char)
    (f : Nat) (hlead : leadsWith (w :: ws) t = false) :
    replGo z (w :: ws) new (f + 1) (cc :: t) = cc :: replGo z (w :: ws) new f t := by
  rw [replGo]
  have hguard : (z == cc && leadsWith (w :: ws) t) = false := by
    rw [hlead, Bool.and_false]
  rw [hguard, if_neg Bool.false_ne_true]

theorem joinSep_head_ne_nl (sepr : List Char) (rows : List (List Char))
    (h : ∀ p ∈ rows, '\n' ∉ p) :
    ∀ c0, (joinSep (' ' :: sepr) rows).head? = some c0 → c0 ≠ '\n' := by
  intro c0 hc0 hcontr
  subst hcontr
  cases rows with
  | nil => simp [joinSep] at hc0
  | cons x rest =>
    cases rest with
    | nil =>
      simp only [joinSep] at hc0
      cases x with
      | nil => simp at hc0
      | cons a x2 =>
        simp at hc0
        exact h (a :: x2) (List.mem_cons_self _ _) (by simp [hc0])
    | cons q qs =>
      rw [joinSep_cons2] at hc0
      cases x with
      | nil => simp at hc0
      | cons a x2 =>
        simp at hc0
        exact h (a :: x2) (List.mem_cons_self _ _) (by simp [hc0])

/-- `s.replace(" \n ", "")` turns the two-dimensional row separator
`" \n  "` into a single blank: joining rows with `" \n  "` and replacing
`" \n "` by the empty string joins the rows with `" "`. -/
theorem pyReplace_nlsep (rows : List (List Char))
    (h : ∀ p ∈ rows, '\n' ∉ p) :
    pyReplace (joinSep (' ' :: '\n' :: ' ' :: ' ' :: []) rows)
      (' ' :: '\n' :: ' ' :: []) [] = joinSep [' '] rows := by
  induction rows with
  | nil => rfl
  | cons x rest ih =>
    cases rest with
    | nil =>
      show replGo ' ' ('\n' :: ' ' :: []) []
        (joinSep (' ' :: '\n' :: ' ' :: ' ' :: []) [x]).length
        (joinSep (' ' :: '\n' :: ' ' :: ' ' :: []) [x]) = joinSep [' '] [x]
      simp only [joinSep]
      exact replGo_none ' ' '\n' [' '] [] (by decide) x x.length (Nat.le_refl _)
        (h x (List.mem_cons_self x []))
    | cons q qs =>
      show replGo ' ' ('\n' :: ' ' :: []) []
        (joinSep (' ' :: '\n' :: ' ' :: ' ' :: []) (x :: q :: qs)).length
        (joinSep (' ' :: '\n' :: ' ' :: ' ' :: []) (x :: q :: qs))
        = joinSep [' '] (x :: q :: qs)
      rw [joinSep_cons2]
      have hassoc : x ++ (' ' :: '\n' :: ' ' :: ' ' :: []) ++ joinSep (' ' :: '\n' :: ' ' :: ' ' :: []) (q :: qs)
          = x ++ (' ' :: '\n' :: ' ' :: []) ++ (' ' :: joinSep (' ' :: '\n' :: ' ' :: ' ' :: []) (q :: qs)) := by
        simp
      rw [hassoc]
      rw [replGo_mid ' ' '\n' [' '] [] (by decide) x _ _ (Nat.le_refl _)
        (h x (List.mem_cons_self x _))]
      have hlead : leadsWith ('\n' :: [' '])
          (joinSep (' ' :: '\n' :: ' ' :: ' ' :: []) (q :: qs)) = false := by
        apply leadsWith_false_of_head_ne
        intro c0 hc0
        exact joinSep_head_ne_nl _ (q :: qs) (fun p hp => h p (List.mem_cons_of_mem x hp)) c0 hc0
      have hcons : pyReplace (' ' :: joinSep (' ' :: '\n' :: ' ' :: ' ' :: []) (q :: qs))
          (' ' :: '\n' :: ' ' :: []) []
          = ' ' :: pyReplace (joinSep (' ' :: '\n' :: ' ' :: ' ' :: []) (q :: qs))
            (' ' :: '\n' :: ' ' :: []) [] := by
        show replGo ' ' ('\n' :: ' ' :: []) []
          ((joinSep (' ' :: '\n' :: ' ' :: ' ' :: []) (q :: qs)).length + 1)
          (' ' :: joinSep (' ' :: '\n' :: ' ' :: ' ' :: []) (q :: qs)) = _
        exact replGo_cons_safe ' ' '\n' [' '] [] ' ' _ _ hlead
      rw [hcons]
      rw [ih (fun p hp => h p (List.mem_cons_of_mem x hp))]
      rw [joinSep_cons2]
      simp

theorem pyReplace_absent (z w : Char) (ws new : List Char) (hzw : w ≠ z) (s : List Char)
    (hs : w ∉ s) : pyReplace s (z :: w :: ws) new = s := by
  show replGo z (w :: ws) new s.length s = s
  exact replGo_none z w ws new hzw s s.length (Nat.le_refl _) hs

-- ## splitlines lemmas

theorem pySplit_ne_nil (s sep : List Char) : pySplit s sep ≠ [] := by
  unfold pySplit
  cases sep with
  | nil => simp
  | cons z zs =>
    suffices h : ∀ (f : Nat) (t acc : List Char), splitGo z zs f t acc ≠ [] by
      exact h s.length s []
    intro f
    induction f with
    | zero =>
      intro t acc
      cases t with
      | nil => rw [splitGo_nil]; simp
      | cons c rest => show [acc.reverse ++ (c :: rest)] ≠ []; simp
    | succ fa ih =>
      intro t acc
      cases t with
      | nil => rw [splitGo_nil]; simp
      | cons c rest =>
        rw [splitGo]
        by_cases hg : (z == c && leadsWith zs rest) = true
        · rw [if_pos hg]; simp
        · rw [if_neg hg]; exact ih rest (c :: acc)

theorem splitlines_of_ne (s : List Char) (hs : s ≠ []) :
    splitlines s
      = (if (pySplit s ['\n']).getLast? = some [] then (pySplit s ['\n']).dropLast
         else pySplit s ['\n']) := by
  cases s with
  | nil => exact absurd rfl hs
  | cons c cr => rfl

theorem splitlines_joinSep (rows : List (List Char))
    (hne : ∀ p ∈ rows, p ≠ []) (hnl : ∀ p ∈ rows, '\n' ∉ p) :
    splitlines (joinSep ['\n'] rows) = rows := by
  cases rows with
  | nil => rfl
  | cons x rest =>
    have hx : x ≠ [] := hne x (List.mem_cons_self x _)
    have hsne : joinSep ['\n'] (x :: rest) ≠ [] := by
      cases rest with
      | nil =>
        simpa [joinSep] using hx
      | cons q qs =>
        rw [joinSep_cons2]
        cases x with
        | nil => exact absurd rfl hx
        | cons a x2 => simp
    have hsplit : pySplit (joinSep ['\n'] (x :: rest)) ['\n'] = x :: rest :=
      pySplit_joinSep '\n' [] (x :: rest) hnl (by simp)
    rw [splitlines_of_ne _ hsne, hsplit]
    have hlast : (x :: rest).getLast? ≠ some [] := by
      have hmem : (x :: rest).getLast? = some ((x :: rest).getLast (by simp)) :=
        List.getLast?_eq_getLast _ _
      rw [hmem]
      intro hcontr
      simp at hcontr
      exact hne _ (List.getLast_mem _) hcontr
    rw [if_neg hlast]

theorem splitlines_joinSep_nl (rows : List (List Char))
    (hne : ∀ p ∈ rows, p ≠ []) (hnl : ∀ p ∈ rows, '\n' ∉ p) (hrows : rows ≠ []) :
    splitlines (joinSep ['\n'] rows ++ ['\n']) = rows := by
  have hshape : joinSep ['\n'] rows ++ ['\n'] = joinSep ['\n'] (rows ++ [[]]) := by
    rw [joinSep_append_one ['\n'] rows [] hrows]
    simp
  rw [hshape]
  have hsplit : pySplit (joinSep ['\n'] (rows ++ [[]])) ['\n'] = rows ++ [[]] :=
    pySplit_joinSep '\n' [] (rows ++ [[]])
      (by
        intro p hp
        rcases List.mem_append.mp hp with h1 | h2
        · exact hnl p h1
        · simp at h2; subst h2; simp)
      (by simp)
  have hsne : joinSep ['\n'] (rows ++ [[]]) ≠ [] := by
    cases rows with
    | nil => exact absurd rfl hrows
    | cons x rest =>
      have h1 : (x :: rest) ++ [[]] = x :: (rest ++ [[]]) := rfl
      rw [h1]
      cases hrr : rest ++ ([[]] : List (List Char)) with
      | nil => simp at hrr
      | cons q qs =>
        rw [joinSep_cons2]
        cases x with
        | nil => simp
        | cons a x2 => simp
  rw [splitlines_of_ne _ hsne, hsplit]
  have hlast : (rows ++ [[]]).getLast? = some [] := by
    rw [List.getLast?_append_of_ne_nil]
    · rfl
    · simp
  rw [if_pos hlast]
  rw [List.dropLast_append_of_ne_nil]
  · simp
  · simp

-- ## Decimal rendering and parsing (Python `"%s" % n` and `int`/`eval` on
-- integer literals)

/-- The decimal digit character for `d < 10`. -/
def digitChar : Nat → Char
  | 0 => '0'
  | 1 => '1'
  | 2 => '2'
  | 3 => '3'
  | 4 => '4'
  | 5 => '5'
  | 6 => '6'
  | 7 => '7'
  | 8 => '8'
  | _ => '9'

/-- The value of a decimal digit character. -/
def digitVal (c : Char) : Option Nat :=
  if c = '0' then some 0 else if c = '1' then some 1 else if c = '2' then some 2
  else if c = '3' then some 3 else if c = '4' then some 4 else if c = '5' then some 5
  else if c = '6' then some 6 else if c = '7' then some 7 else if c = '8' then some 8
  else if c = '9' then some 9 else none

/-- Decimal rendering worker (fueled; fuel at least `n` suffices since the
quotient shrinks strictly). -/
def toDecF : Nat → Nat → List Char → List Char
  | 0, n, acc => digitChar n :: acc
  | f + 1, n, acc =>
    if n < 10 then digitChar n :: acc
    else toDecF f (n / 10) (digitChar (n % 10) :: acc)

/-- Decimal rendering of a natural number (Python `"%s" % n`). -/
def toDec (n : Nat) : List Char := toDecF n n []

/-- Decimal parsing worker. -/
def parseGo (acc : Nat) : List Char → Option Nat
  | [] => some acc
  | c :: r =>
    match digitVal c with
    | none => none
    | some d => parseGo (acc * 10 + d) r

/-- Strict decimal parsing of a nonempty digit string. -/
def parseDec : List Char → Option Nat
  | [] => none
  | c :: r => parseGo 0 (c :: r)

/-- Python `"%s" % z` for an integer. -/
def intRender (z : Int) : List Char :=
  if z < 0 then '-' :: toDec z.natAbs else toDec z.toNat

/-- Parsing of an integer literal (the fragment of `eval`'s integer grammar
reachable from dimension strings: optional minus sign, then digits). -/
def parseInt : List Char → Option Int
  | [] => none
  | c :: r =>
    if c = '-' then (parseDec r).map (fun n => -(n : Int))
    else (parseDec (c :: r)).map (fun n => (n : Int))

theorem toDecF_lt (f n : Nat) (acc : List Char) (h : n < 10) :
    toDecF f n acc = digitChar n :: acc := by
  cases f with
  | zero => rfl
  | succ fa => rw [toDecF, if_pos h]

theorem toDecF_fuel (n : Nat) : ∀ f, n ≤ f → ∀ acc, toDecF f n acc = toDecF n n acc := by
  induction n using Nat.strong_induction_on with
  | _ n ih =>
    intro f hf acc
    by_cases h : n < 10
    · rw [toDecF_lt f n acc h, toDecF_lt n n acc h]
    · have hlt : n / 10 < n := Nat.div_lt_self (by omega) (by omega)
      cases f with
      | zero => omega
      | succ fa =>
        rw [toDecF, if_neg h]
        cases hn : n with
        | zero => omega
        | succ nb =>
          rw [toDecF, if_neg (hn ▸ h)]
          rw [← hn]
          have h1 := ih (n / 10) hlt fa (by omega) (digitChar (n % 10) :: acc)
          have h2 := ih (n / 10) hlt nb (by omega) (digitChar (n % 10) :: acc)
          rw [h1, h2]

theorem toDecF_step (n : Nat) (acc : List Char) (h : ¬ n < 10) :
    toDecF n n acc = toDecF (n / 10) (n / 10) (digitChar (n % 10) :: acc) := by
  cases hn : n with
  | zero => omega
  | succ nb =>
    rw [toDecF, if_neg (hn ▸ h), ← hn]
    exact toDecF_fuel (n / 10) nb (by omega) _

theorem toDecF_acc (n : Nat) : ∀ acc, toDecF n n acc = toDecF n n [] ++ acc := by
  induction n using Nat.strong_induction_on with
  | _ n ih =>
    intro acc
    by_cases h : n < 10
    · rw [toDecF_lt n n acc h, toDecF_lt n n [] h]
      rfl
    · have hlt : n / 10 < n := Nat.div_lt_self (by omega) (by omega)
      rw [toDecF_step n acc h, toDecF_step n [] h]
      rw [ih (n / 10) hlt (digitChar (n % 10) :: acc), ih (n / 10) hlt [digitChar (n % 10)]]
      simp

theorem toDec_lt (n : Nat) (h : n < 10) : toDec n = [digitChar n] := toDecF_lt n n [] h

theorem toDec_ge (n : Nat) (h : ¬ n < 10) :
    toDec n = toDec (n / 10) ++ [digitChar (n % 10)] := by
  unfold toDec
  rw [toDecF_step n [] h, toDecF_acc]

theorem toDec_ne_nil (n : Nat) : toDec n ≠ [] := by
  by_cases h : n < 10
  · rw [toDec_lt n h]; simp
  · rw [toDec_ge n h]; simp

theorem toDec_mem (n : Nat) : ∀ c ∈ toDec n, ∃ d, d < 10 ∧ c = digitChar d := by
  induction n using Nat.strong_induction_on with
  | _ n ih =>
    by_cases h : n < 10
    · rw [toDec_lt n h]
      intro c hc
      simp at hc
      exact ⟨n, h, hc⟩
    · rw [toDec_ge n h]
      intro c hc
      rcases List.mem_append.mp hc with h1 | h2
      · exact ih (n / 10) (Nat.div_lt_self (by omega) (by omega)) c h1
      · simp at h2
        exact ⟨n % 10, Nat.mod_lt _ (by omega), h2⟩

theorem digitVal_digitChar (d : Nat) (h : d < 10) : digitVal (digitChar d) = some d := by
  interval_cases d <;> rfl

theorem parseGo_toDec (n : Nat) :
    ∀ a r, parseGo a (toDec n ++ r) = parseGo (a * 10 ^ (toDec n).length + n) r := by
  induction n using Nat.strong_induction_on with
  | _ n ih =>
    intro a r
    by_cases h : n < 10
    · rw [toDec_lt n h]
      show parseGo a (digitChar n :: r) = _
      rw [parseGo, digitVal_digitChar n h]
      simp
    · rw [toDec_ge n h]
      have hlt : n / 10 < n := Nat.div_lt_self (by omega) (by omega)
      have h1 : (toDec (n / 10) ++ [digitChar (n % 10)]) ++ r
          = toDec (n / 10) ++ ([digitChar (n % 10)] ++ r) := by simp
      rw [h1, ih (n / 10) hlt a ([digitChar (n % 10)] ++ r)]
      show parseGo _ (digitChar (n % 10) :: r) = _
      rw [parseGo, digitVal_digitChar (n % 10) (Nat.mod_lt _ (by omega))]
      have hexp : 10 ^ (toDec (n / 10) ++ [digitChar (n % 10)]).length
          = 10 ^ (toDec (n / 10)).length * 10 := by
        simp [pow_succ]
      have harith : (a * 10 ^ (toDec (n / 10)).length + n / 10) * 10 + n % 10
          = a * 10 ^ (toDec (n / 10) ++ [digitChar (n % 10)]).length + n := by
        rw [hexp]
        have hdm : n / 10 * 10 + n % 10 = n := by omega
        have hring : (a * 10 ^ (toDec (n / 10)).length + n / 10) * 10 + n % 10
            = a * (10 ^ (toDec (n / 10)).length * 10) + (n / 10 * 10 + n % 10) := by ring
        rw [hring, hdm]
      show parseGo ((a * 10 ^ (toDec (n / 10)).length + n / 10) * 10 + n % 10) r = _
      rw [harith]

theorem parseDec_toDec (n : Nat) : parseDec (toDec n) = some n := by
  have hne := toDec_ne_nil n
  have hmain := parseGo_toDec n 0 []
  rw [List.append_nil] at hmain
  simp only [Nat.zero_mul, Nat.zero_add, zero_mul, zero_add] at hmain
  cases ht : toDec n with
  | nil => exact absurd ht hne
  | cons c r =>
    rw [ht] at hmain
    rw [parseDec, hmain]
    rfl

theorem digitChar_ne_structural (d : Nat) (h : d < 10) :
    digitChar d ≠ '(' ∧ digitChar d ≠ ')' ∧ digitChar d ≠ ',' ∧ digitChar d ≠ ' '
      ∧ digitChar d ≠ '\n' ∧ digitChar d ≠ 'x' ∧ digitChar d ≠ '[' ∧ digitChar d ≠ ']'
      ∧ digitChar d ≠ '-' ∧ digitChar d ≠ '\t' ∧ digitChar d ≠ '#' := by
  interval_cases d <;> refine ⟨by decide, by decide, by decide, by decide, by decide,
    by decide, by decide, by decide, by decide, by decide, by decide⟩

theorem toDec_not_mem (n : Nat) (c : Char)
    (hc : c = '(' ∨ c = ')' ∨ c = ',' ∨ c = ' ' ∨ c = '\n' ∨ c = 'x' ∨ c = '['
      ∨ c = ']' ∨ c = '-' ∨ c = '\t' ∨ c = '#') : c ∉ toDec n := by
  intro hmem
  rcases toDec_mem n c hmem with ⟨d, hd, rfl⟩
  have hprop := digitChar_ne_structural d hd
  rcases hc with h | h | h | h | h | h | h | h | h | h | h <;> simp [h] at hprop

theorem parseInt_notdash (c : Char) (r : List Char) (h : c ≠ '-') :
    parseInt (c :: r) = (parseDec (c :: r)).map (fun n => (n : Int)) := by
  rw [parseInt, if_neg h]

theorem parseInt_intRender (z : Int) : parseInt (intRender z) = some z := by
  unfold intRender
  by_cases h : z < 0
  · rw [if_pos h]
    rw [parseInt, if_pos rfl, parseDec_toDec]
    show some (-(z.natAbs : Int)) = some z
    exact congrArg some (by omega)
  · rw [if_neg h]
    cases ht : toDec z.toNat with
    | nil => exact absurd ht (toDec_ne_nil _)
    | cons c r =>
      have hcm : c ∈ toDec z.toNat := by rw [ht]; simp
      rcases toDec_mem _ c hcm with ⟨d, hd, rfl⟩
      have hne : digitChar d ≠ '-' := (digitChar_ne_structural d hd).2.2.2.2.2.2.2.2.1
      rw [parseInt_notdash _ _ hne, ← ht, parseDec_toDec]
      show some ((z.toNat : Int)) = some z
      exact congrArg some (by omega)

-- ## Data model: nested dense arrays of complex entries
--
-- A complex entry is the pair of decimal renderings of its real and
-- imaginary parts (the strings `re`/`im` of its `(re,im)` token).

/-- Nested array: a complex scalar or a list of subarrays. -/
inductive Nd where
  | C (re im : List Char) : Nd
  | A (xs : List Nd) : Nd

/-- `array[i]` (Python indexing into the outermost axis). -/
def child : Nd → Nat → Nd
  | .A xs, i => xs.getD i (.A [])
  | .C _ _, _ => .A []

/-- A scalar rendering: nonempty, free of the structural characters of the
Blitz text format. -/
def numOk (s : List Char) : Bool :=
  !s.isEmpty && s.all (fun c =>
    !(c == '(' || c == ')' || c == ',' || c == ' ' || c == '\n' || c == 'x'
      || c == '[' || c == ']' || c == '\t' || c == '#'))

mutual

/-- Well-formedness of a nested array against a list of extents. -/
def WF : Nd → List Nat → Bool
  | .C re im, [] => numOk re && numOk im
  | .C _ _, _ :: _ => false
  | .A _, [] => false
  | .A xs, e :: rest => (xs.length == e) && WFl xs rest

/-- Well-formedness of a list of subarrays. -/
def WFl : List Nd → List Nat → Bool
  | [], _ => true
  | x :: xs, rest => WF x rest && WFl xs rest

end

mutual

/-- Row-major flattening into the entry list. -/
def ents : Nd → List (List Char × List Char)
  | .C re im => [(re, im)]
  | .A xs => entsL xs

/-- Row-major flattening of a list of subarrays. -/
def entsL : List Nd → List (List Char × List Char)
  | [] => []
  | x :: xs => ents x ++ entsL xs

end

mutual

/-- The rank-1 rows of a rank-`r` array, in row-major order. -/
def rowsOf : Nd → Nat → List Nd
  | _, 0 => []
  | x, 1 => [x]
  | .C _ _, _ + 2 => []
  | .A xs, r + 2 => rowsOfL xs (r + 1)

/-- Rows of a list of subarrays. -/
def rowsOfL : List Nd → Nat → List Nd
  | [], _ => []
  | x :: xs, r => rowsOf x r ++ rowsOfL xs r

end

-- ## Encoders

/-- The token `"(%s,%s)" % (re, im)`. -/
def tokStr (re im : List Char) : List Char :=
  '(' :: re ++ ',' :: im ++ [')']

/-- Token text of a scalar cell. -/
def cellTok : Nd → List Char
  | .C re im => tokStr re im
  | .A _ => []

/-- io.py `data1D`: blank-joined tokens of a rank-1 array. -/
def data1D : Nd → List Char
  | .A cells => joinSep [' '] (cells.map cellTok)
  | .C _ _ => []

/-- io.py / data.py `data2D`: rows joined by `" \n  "`. -/
def data2D : Nd → List Char
  | .A rows => joinSep (' ' :: '\n' :: ' ' :: ' ' :: []) (rows.map data1D)
  | .C _ _ => []

/-- Fueled worker for io.py `_numpy2blitz`'s `dataMD` (fuel at least the
number of axes suffices). -/
def dataMDioF : Nat → Nd → List (Int × Int) → List Char
  | _, _, [] => []
  | 0, _, _ :: _ => []
  | f + 1, x, d0 :: otherdims =>
    if otherdims.length > 2 then
      joinSep (' ' :: '\n' :: ' ' :: ' ' :: [])
        ((List.range (d0.2 - d0.1 + 1).toNat).map (fun i => dataMDioF f (child x i) otherdims))
    else if otherdims.length = 2 then
      joinSep (' ' :: '\n' :: ' ' :: ' ' :: [])
        ((List.range (d0.2 - d0.1 + 1).toNat).map (fun i => data2D (child x i)))
    else []

/-- io.py `_numpy2blitz`'s `dataMD`: every level joins `hi - lo + 1` blocks
with `" \n  "`. -/
def dataMDio (x : Nd) (dims : List (Int × Int)) : List Char :=
  dataMDioF dims.length x dims

/-- Fueled worker for pycppqed/data.py `BlitzArray._data2str`'s `dataMD`. -/
def dataMDpqF : Nat → Nd → List (Int × Int) → List Char
  | _, _, [] => []
  | 0, _, _ :: _ => []
  | f + 1, x, d0 :: otherdims =>
    if otherdims.length > 2 then
      joinSep ['\n']
        ((List.range (d0.2 - d0.1).toNat).map (fun i => dataMDpqF f (child x i) otherdims))
    else if otherdims.length = 2 then
      joinSep (' ' :: '\n' :: ' ' :: ' ' :: [])
        ((List.range (d0.2 - d0.1 + 1).toNat).map (fun i => data2D (child x i)))
    else []

/-- pycppqed/data.py `BlitzArray._data2str`'s `dataMD`: levels with more than
two remaining axes iterate `range(hi - lo)` and join with `"\n"`; the level
with exactly two remaining axes iterates `range(hi - lo + 1)` and joins with
`" \n  "`. -/
def dataMDpq (x : Nd) (dims : List (Int × Int)) : List Char :=
  dataMDpqF dims.length x dims

/-- Fueled worker for src/data.py `BlitzArray._data2str`'s `dataMD`. -/
def dataMDsrcF : Nat → Nd → List (Int × Int) → List Char
  | _, _, [] => []
  | 0, _, _ :: _ => []
  | f + 1, x, d0 :: otherdims =>
    if otherdims.length > 2 then
      joinSep ['\n']
        ((List.range (d0.2 - d0.1).toNat).map (fun i => dataMDsrcF f (child x i) otherdims))
    else if otherdims.length = 2 then
      joinSep (' ' :: '\n' :: ' ' :: ' ' :: [])
        ((List.range (d0.2 - d0.1).toNat).map (fun i => data2D (child x i)))
    else []

/-- src/data.py `BlitzArray._data2str`'s `dataMD`: both branches iterate
`range(hi - lo)`; joins are `"\n"` at levels with more than two remaining
axes and `" \n  "` at the two-remaining-axes level. -/
def dataMDsrc (x : Nd) (dims : List (Int × Int)) : List Char :=
  dataMDsrcF dims.length x dims

/-- pycppqed/data.py `BlitzArray._data2str` (rank 2 uses `data2D`, higher
ranks `dataMD`; rank 1 leaves `datastr` unbound in the source and is not
modelled). -/
def data2strPq (x : Nd) (dims : List (Int × Int)) : List Char :=
  let datastr := if dims.length = 2 then data2D x
    else if dims.length > 2 then dataMDpq x dims else []
  '[' :: ' ' :: (datastr ++ [' ', ']'])

/-- src/data.py `BlitzArray._data2str`. -/
def data2strSrc (x : Nd) (dims : List (Int × Int)) : List Char :=
  let datastr := if dims.length = 2 then data2D x
    else if dims.length > 2 then dataMDsrc x dims else []
  '[' :: ' ' :: (datastr ++ [' ', ']'])

/-- The dimension pair rendering `"(%s,%s)" % (lo, hi)`. -/
def dimPairStr (d : Int × Int) : List Char :=
  '(' :: intRender d.1 ++ ',' :: intRender d.2 ++ [')']

/-- The dimension string `" x ".join(...)`. -/
def dimStrOf (dims : List (Int × Int)) : List Char :=
  joinSep (' ' :: 'x' :: ' ' :: []) (dims.map dimPairStr)

/-- io.py `_numpy2blitz`: dimensions are re-derived from the shape as
`(0, dim - 1)` pairs, the body is produced by `data1D`/`data2D`/`dataMD`
according to the rank, and the result follows the template
`"%s \n[ %s ]\n\n"`. -/
def numpy2blitz (x : Nd) (shape : List Nat) : List Char :=
  let dims : List (Int × Int) := shape.map (fun (e : Nat) => ((0 : Int), (e : Int) - 1))
  let ndim := dims.length
  let datastr :=
    if ndim = 1 then data1D x
    else if ndim = 2 then data2D x
    else if ndim > 2 then dataMDio x dims
    else []
  dimStrOf dims ++ (' ' :: '\n' :: '[' :: ' ' :: []) ++ datastr
    ++ (' ' :: ']' :: '\n' :: '\n' :: [])

-- ## Decoder (io.py `_blitz2numpy`)

/-- Strip blanks from both ends (`eval`'s whitespace tolerance around an
integer literal). -/
def stripSp (s : List Char) : List Char :=
  rstripSp (s.dropWhile (fun c => c == ' '))

/-- Parse one `"(i1,...,ik)"` segment interior as a list of integers. -/
def parseSeg (seg : List Char) : Option (List Int) :=
  (pySplit seg [',']).mapM (fun piece => parseInt (stripSp piece))

/-- Model of `eval("(%s,)" % t)` on the tuple-of-integer-tuples grammar that
dimension strings can reach: strip trailing blanks, require an outer
`(...)`, split the interior on `"),("` and parse each segment's integers.
Inputs outside this grammar yield `none`, as `eval` raises on them. -/
def parseTuple (t : List Char) : Option (List (List Int)) :=
  let u := rstripSp t
  if u.head? = some '(' then
    if u.getLast? = some ')' then
      (pySplit ((u.drop 1).dropLast) (')' :: ',' :: '(' :: [])).mapM parseSeg
    else none
  else none

/-- `eval("(%s,)" % dimstr.replace(" x ", ","))` (data.py `_str2dim` and the
dimension parsing step of io.py `_blitz2numpy`). -/
def strToDim (s : List Char) : Option (List (List Int)) :=
  parseTuple (pyReplace s (' ' :: 'x' :: ' ' :: []) [','])

/-- Placeholder for the unspecified contents of `numpy.empty`. -/
def uninitEntry : List Char × List Char := (['?'], ['?'])

/-- Product of a list of naturals. -/
def prodL : List Nat → Nat
  | [] => 1
  | e :: r => e * prodL r

/-- `e` consecutive chunks of size `sz`. -/
def chunksN : Nat → Nat → List α → List (List α)
  | 0, _, _ => []
  | e + 1, sz, l => l.take sz :: chunksN e sz (l.drop sz)

/-- Fueled worker for `npReshape`. -/
def npReshapeF : Nat → List (List Char × List Char) → List Nat → Option Nd
  | _, _, [] => none
  | _, flat, [e] =>
    if flat.length = e then some (.A (flat.map (fun p => .C p.1 p.2))) else none
  | 0, _, _ :: _ :: _ => none
  | f + 1, flat, e :: rest =>
    if flat.length = e * prodL rest then
      ((chunksN e (prodL rest) flat).mapM (fun c => npReshapeF f c rest)).map .A
    else none

/-- `numpy.reshape` of a flat entry list to the given extents. -/
def npReshape (flat : List (List Char × List Char)) (dims : List Nat) : Option Nd :=
  npReshapeF dims.length flat dims

/-- Reshape with the (possibly negative) Python integer extents: negative
extents make `numpy` raise. -/
def npReshapeI (flat : List (List Char × List Char)) (extsI : List Int) : Option Nd :=
  if extsI.all (fun e => 0 ≤ e) then npReshape flat (extsI.map Int.toNat) else none

/-- One `(re,im)` token interior parsed by `re, im = entry.split(",")` and
`complex(float(re), float(im))`; the float parse is modelled as accepting
exactly the scalar renderings (`numOk`). -/
def parseEntry (tk : List Char) : Option (List Char × List Char) :=
  match pySplit tk [','] with
  | [re, im] => if numOk re && numOk im then some (re, im) else none
  | _ => none

/-- The extent `d[1] - d[0] + 1` of one parsed dimension pair (IndexError on
shorter tuples is `none`). -/
def extentOf : List Int → Option Int
  | a :: b :: _ => some (b - a + 1)
  | _ => none

/-- io.py `_blitz2numpy`: split off the dimension line, `eval` the dimension
string, compute extents `d[1] - d[0] + 1` and their product, then normalise
the body (`replace(" \n ", "")`, `rstrip("\n")`, `[3:-3]`), split it on
`") ("`, parse each token, fill a `numpy.empty` buffer (extra tokens raise
IndexError; missing tokens leave uninitialised entries), and reshape. -/
def blitz2numpy (blitzstr : List Char) : Option Nd :=
  match splitFirstNl blitzstr with
  | none => none
  | some (dimline, datastr) =>
    match strToDim dimline with
    | none => none
    | some dims =>
      match dims.mapM extentOf with
      | none => none
      | some extsI =>
        if extsI = [] then none
        else
          let lengthI : Int := extsI.foldl (· * ·) 1
          if lengthI < 0 then none
          else
            let body := slice33 (rstripNl (pyReplace datastr (' ' :: '\n' :: ' ' :: []) []))
            match (pySplit body (')' :: ' ' :: '(' :: [])).mapM parseEntry with
            | none => none
            | some entries =>
              if (entries.length : Int) > lengthI then none
              else
                let n := lengthI.toNat
                npReshapeI (entries ++ List.replicate (n - entries.length) uninitEntry) extsI

-- ## Stream splitter (pycppqed/data.py `CppqedOutputReader.read` and
-- `_parsedatastr`)
--
-- The `pos`-cursor loop of `_parsedatastr` only ever inspects `buf[pos:]`,
-- so it is modelled as recursion on the remaining suffix; handler calls are
-- modelled as the dispatched event sequence.

/-- A dispatch of `_parsedatastr`: a trajectory line handed to the row
handler, or an array-block string handed to the state-vector handler. -/
inductive Ev where
  | row (s : List Char) : Ev
  | blk (s : List Char) : Ev
deriving DecidableEq

/-- Fueled worker for `scanD` (fuel beyond the buffer length suffices since
each iteration advances the cursor by at least two characters). -/
def scanDF : Nat → List Char → Option (List Ev)
  | 0, _ => none
  | f + 1, buf =>
    match findSub buf ('\n' :: '(' :: []) with
    | none => some ((splitlines buf).map Ev.row)
    | some a =>
      match findSubFrom buf [']'] a with
      | none => none
      | some e =>
        (scanDF f (buf.drop (e + 2))).map (fun evs =>
          (splitlines (buf.take a)).map Ev.row
            ++ Ev.blk ((buf.drop (a + 1)).take (e + 1 - (a + 1))) :: evs)

/-- `CppqedOutputReader._parsedatastr` on the data section: repeatedly find
`"\n("`, dispatch the preceding lines to the row handler, find the next
`"]"` (the `assert` raises when there is none, modelled as `none`), dispatch
`buf[arraypos+1:arrayendpos+1]` to the block handler, and continue at
`arrayendpos+2`. -/
def scanD (buf : List Char) : Option (List Ev) :=
  scanDF (buf.length + 1) buf

/-- Fueled header-skipping loop of `CppqedOutputReader.read`: while
`buf[pos]` is `'\n'` or `'#'`, jump past the next `"\n\n"`; `find` returning
`-1` sets `pos = 1` (the source has no guard), so the loop can run forever —
fuel exhaustion models that divergence, and an out-of-range `buf[pos]`
models the IndexError. -/
def headerLoop (buf : List Char) : Nat → Nat → Option Nat
  | 0, _ => none
  | f + 1, pos =>
    match buf[pos]? with
    | none => none
    | some c =>
      if c = '\n' ∨ c = '#' then
        match findSubFrom buf ('\n' :: '\n' :: []) pos with
        | none => headerLoop buf f 1
        | some q => headerLoop buf f (q + 2)
      else some pos

/-- `CppqedOutputReader.read`: split the buffer into the comment section
`buf[:pos-2]` (a Python slice, negative-index semantics included) and the
data section `buf[pos:]`. -/
def readerRead (buf : List Char) : Option (List Char × List Char) :=
  (headerLoop buf (buf.length + 2) 0).map
    (fun (pos : Nat) => (sliceTo buf ((pos : Int) - 2), buf.drop pos))

/-- `read` followed by `_parsedatastr`: the spec's
`scan(buffer, on_row, on_block) -> header_text`. -/
def readerScan (buf : List Char) : Option (List Char × List Ev) :=
  match readerRead buf with
  | none => none
  | some (c, d) => (scanD d).map (fun evs => (c, evs))

-- ## Construction of well-formed buffers for the scan theorems

/-- The text of one array block as it appears in the file, from the opening
`'('` of the dimension line through the closing `']'`; `d` is the dimension
line after its leading `'('` and `inner` the body between `"[ "` and
`" ]"`. -/
def blockText (d inner : List Char) : List Char :=
  '(' :: (d ++ '\n' :: '[' :: ' ' :: (inner ++ [' ', ']']))

/-- Rows rendered as lines. -/
def rowsRender (rows : List (List Char)) : List Char :=
  (rows.map (· ++ ['\n'])).flatten

/-- A run of numeric rows followed by one array block. -/
structure Grp where
  rows : List (List Char)
  dim : List Char
  inner : List Char

/-- Render one group: its rows, then the block, then the newline that ends
the block's line. -/
def renderGroup (g : Grp) : List Char :=
  rowsRender g.rows ++ blockText g.dim g.inner ++ ['\n']

/-- A data section: groups followed by trailing rows. -/
def renderData (gs : List Grp) (tl : List (List Char)) : List Char :=
  (gs.map renderGroup).flatten ++ rowsRender tl

/-- The dispatches the scanner should produce for such a data section. -/
def eventsOf (gs : List Grp) (tl : List (List Char)) : List Ev :=
  (gs.map (fun g => g.rows.map Ev.row ++ [Ev.blk (blockText g.dim g.inner)])).flatten
    ++ tl.map Ev.row

/-- A numeric row: nonempty and free of newline, `'('` and `'#'`. -/
def rowOk (r : List Char) : Bool :=
  !r.isEmpty && r.all (fun c => !(c == '\n' || c == '(' || c == '#'))

/-- Number of row dispatches. -/
def evRows (evs : List Ev) : Nat :=
  evs.countP (fun e => match e with | .row _ => true | .blk _ => false)

/-- Number of block dispatches. -/
def evBlks (evs : List Ev) : Nat :=
  evs.countP (fun e => match e with | .row _ => false | .blk _ => true)

theorem evRows_append (a b : List Ev) : evRows (a ++ b) = evRows a + evRows b := by
  unfold evRows
  exact List.countP_append _ _ _

theorem evBlks_append (a b : List Ev) : evBlks (a ++ b) = evBlks a + evBlks b := by
  unfold evBlks
  exact List.countP_append _ _ _

theorem evRows_rowmap (rs : List (List Char)) : evRows (rs.map Ev.row) = rs.length := by
  induction rs with
  | nil => rfl
  | cons r rest ih => simp [evRows, List.countP_cons] at ih ⊢

theorem evBlks_rowmap (rs : List (List Char)) : evBlks (rs.map Ev.row) = 0 := by
  induction rs with
  | nil => rfl
  | cons r rest ih => simp [evBlks, List.countP_cons] at ih ⊢

theorem eventsOf_counts (gs : List Grp) (tl : List (List Char)) :
    evRows (eventsOf gs tl) = (gs.map (fun g => g.rows.length)).sum + tl.length
      ∧ evBlks (eventsOf gs tl) = gs.length := by
  induction gs with
  | nil =>
    unfold eventsOf
    simp [evRows_rowmap, evBlks_rowmap]
  | cons g gs2 ih =>
    have hshape : eventsOf (g :: gs2) tl
        = (g.rows.map Ev.row ++ [Ev.blk (blockText g.dim g.inner)]) ++ eventsOf gs2 tl := by
      unfold eventsOf
      simp
    rw [hshape, evRows_append, evBlks_append, evRows_append, evBlks_append,
      evRows_rowmap, evBlks_rowmap]
    have h1 : evRows [Ev.blk (blockText g.dim g.inner)] = 0 := rfl
    have h2 : evBlks [Ev.blk (blockText g.dim g.inner)] = 1 := rfl
    rw [h1, h2]
    obtain ⟨ihr, ihb⟩ := ih
    constructor
    · rw [ihr]; simp; omega
    · rw [ihb]; simp; omega

-- ## Scan lemmas

theorem findSub_some_lt (s pat : List Char) (i : Nat) (hpat : pat ≠ [])
    (h : findSub s pat = some i) : i < s.length := by
  induction s generalizing i with
  | nil =>
    rw [findSub, if_neg (by simp [leadsWith_nil_false pat hpat])] at h
    exact absurd h (by simp)
  | cons c rest ih =>
    rw [findSub] at h
    by_cases hl : leadsWith pat (c :: rest) = true
    · rw [if_pos hl] at h
      simp at h
      subst h
      simp
    · rw [if_neg hl] at h
      cases hr : findSub rest pat with
      | none => rw [hr] at h; exact absurd h (by simp)
      | some j =>
        rw [hr] at h
        simp at h
        subst h
        have := ih j hr
        simp
        omega

theorem scanDF_fuel_aux : ∀ (n : Nat) (buf : List Char), buf.length ≤ n →
    ∀ f1 f2, buf.length < f1 → buf.length < f2 → scanDF f1 buf = scanDF f2 buf := by
  intro n
  induction n with
  | zero =>
    intro buf hb f1 f2 h1 h2
    cases f1 with
    | zero => omega
    | succ f1a =>
      cases f2 with
      | zero => omega
      | succ f2a =>
        cases hfind : findSub buf ('\n' :: '(' :: []) with
        | none => simp only [scanDF, hfind]
        | some a =>
          have := findSub_some_lt buf _ a (by simp) hfind
          omega
  | succ n ih =>
    intro buf hb f1 f2 h1 h2
    cases f1 with
    | zero => omega
    | succ f1a =>
      cases f2 with
      | zero => omega
      | succ f2a =>
        cases hfind : findSub buf ('\n' :: '(' :: []) with
        | none => simp only [scanDF, hfind]
        | some a =>
          have ha := findSub_some_lt buf _ a (by simp) hfind
          cases he : findSubFrom buf [']'] a with
          | none => simp only [scanDF, hfind, he]
          | some e =>
            have hdlen : (buf.drop (e + 2)).length ≤ buf.length - 2 := by
              simp [List.length_drop]
              omega
            simp only [scanDF, hfind, he]
            rw [ih (buf.drop (e + 2)) (by omega) f1a f2a (by omega) (by omega)]

theorem scanD_no_marker (buf : List Char)
    (h : findSub buf ('\n' :: '(' :: []) = none) :
    scanD buf = some ((splitlines buf).map Ev.row) := by
  show scanDF (buf.length + 1) buf = _
  simp only [scanDF, h]

theorem scanD_no_close (buf : List Char) (a : Nat)
    (h1 : findSub buf ('\n' :: '(' :: []) = some a)
    (h2 : findSubFrom buf [']'] a = none) :
    scanD buf = none := by
  show scanDF (buf.length + 1) buf = _
  simp only [scanDF, h1, h2]

theorem scanD_found (buf : List Char) (a e : Nat)
    (h1 : findSub buf ('\n' :: '(' :: []) = some a)
    (h2 : findSubFrom buf [']'] a = some e) :
    scanD buf = (scanD (buf.drop (e + 2))).map (fun evs =>
      (splitlines (buf.take a)).map Ev.row
        ++ Ev.blk ((buf.drop (a + 1)).take (e + 1 - (a + 1))) :: evs) := by
  show scanDF (buf.length + 1) buf = _
  have ha := findSub_some_lt buf _ a (by simp) h1
  have hdlen : (buf.drop (e + 2)).length ≤ buf.length - 2 := by
    simp [List.length_drop]
    omega
  simp only [scanDF, h1, h2]
  show Option.map _ (scanDF buf.length (buf.drop (e + 2))) = _
  rw [scanDF_fuel_aux (buf.drop (e + 2)).length (buf.drop (e + 2)) (Nat.le_refl _)
    (buf.length) ((buf.drop (e + 2)).length + 1) (by omega) (by omega)]
  rfl

theorem mem_rowsRender (rows : List (List Char)) (x : Char)
    (hx : x ∈ rowsRender rows) : x = '\n' ∨ ∃ r ∈ rows, x ∈ r := by
  induction rows with
  | nil => simp [rowsRender] at hx
  | cons r rs ih =>
    unfold rowsRender at hx
    simp only [List.map_cons, List.flatten_cons] at hx
    rcases List.mem_append.mp hx with h1 | h2
    · rcases List.mem_append.mp h1 with ha | hb
      · exact Or.inr ⟨r, List.mem_cons_self r rs, ha⟩
      · simp at hb
        exact Or.inl hb
    · rcases ih h2 with ha | ⟨m, hm, hxm⟩
      · exact Or.inl ha
      · exact Or.inr ⟨m, List.mem_cons_of_mem r hm, hxm⟩

theorem rowsRender_eq (rows : List (List Char)) (h : rows ≠ []) :
    rowsRender rows = joinSep ['\n'] rows ++ ['\n'] := by
  induction rows with
  | nil => exact absurd rfl h
  | cons r rs ih =>
    cases rs with
    | nil => simp [rowsRender, joinSep]
    | cons q qs =>
      unfold rowsRender at ih ⊢
      simp only [List.map_cons, List.flatten_cons] at ih ⊢
      rw [ih (by simp), joinSep_cons2]
      simp

theorem rowOk_props (r : List Char) (h : rowOk r = true) :
    r ≠ [] ∧ '\n' ∉ r ∧ '(' ∉ r ∧ '#' ∉ r := by
  unfold rowOk at h
  simp only [Bool.and_eq_true, List.all_eq_true] at h
  obtain ⟨h1, h2⟩ := h
  refine ⟨by simpa using h1, ?_, ?_, ?_⟩
  · intro hm
    have := h2 '\n' hm
    simp at this
  · intro hm
    have := h2 '(' hm
    simp at this
  · intro hm
    have := h2 '#' hm
    simp at this

theorem scanD_rowsOnly (tl : List (List Char)) (hok : ∀ r ∈ tl, rowOk r = true) :
    scanD (rowsRender tl) = some (tl.map Ev.row) := by
  have hparen : '(' ∉ rowsRender tl := by
    intro hm
    rcases mem_rowsRender tl '(' hm with h1 | ⟨r, hr, hxr⟩
    · simp at h1
    · exact (rowOk_props r (hok r hr)).2.2.1 hxr
  rw [scanD_no_marker _ (findSub_none_pair '\n' '(' [] _ (by decide) hparen)]
  cases htl : tl with
  | nil => rfl
  | cons r rs =>
    rw [← htl]
    have hne : tl ≠ [] := by rw [htl]; simp
    rw [rowsRender_eq tl hne,
      splitlines_joinSep_nl tl (fun p hp => (rowOk_props p (hok p hp)).1)
        (fun p hp => (rowOk_props p (hok p hp)).2.1) hne]

theorem blockText_parts (d inner : List Char) :
    '\n' :: blockText d inner
      = ('\n' :: '(' :: []) ++ (d ++ '\n' :: '[' :: ' ' :: (inner ++ [' ', ']'])) := rfl

theorem scanD_step (rows : List (List Char)) (d inner rest : List Char)
    (hrows : rows ≠ []) (hok : ∀ r ∈ rows, rowOk r = true)
    (hd1 : '\n' ∉ d) (hd2 : ']' ∉ d) (hi : ']' ∉ inner) :
    scanD (rowsRender rows ++ blockText d inner ++ '\n' :: rest)
      = (scanD rest).map (fun evs =>
          rows.map Ev.row ++ Ev.blk (blockText d inner) :: evs) := by
  have hbuf : rowsRender rows ++ blockText d inner ++ '\n' :: rest
      = joinSep ['\n'] rows ++ ('\n' :: '(' :: [])
        ++ ((d ++ '\n' :: '[' :: ' ' :: (inner ++ [' '])) ++ ']' :: '\n' :: rest) := by
    rw [rowsRender_eq rows hrows]
    unfold blockText
    simp
  have hparen : '(' ∉ joinSep ['\n'] rows := by
    intro hm
    rcases mem_joinSep ['\n'] rows '(' hm with h1 | ⟨r, hr, hxr⟩
    · simp at h1
    · exact (rowOk_props r (hok r hr)).2.2.1 hxr
  have hfind : findSub (rowsRender rows ++ blockText d inner ++ '\n' :: rest)
      ('\n' :: '(' :: []) = some (joinSep ['\n'] rows).length := by
    rw [hbuf]
    exact findSub_mid_pair '\n' '(' [] _ _ (by decide) hparen
  set c := joinSep ['\n'] rows with hc
  set bt := blockText d inner with hbt
  set buf := rowsRender rows ++ bt ++ '\n' :: rest with hbufdef
  have hbuf2 : buf = (c ++ ['\n']) ++ (bt ++ '\n' :: rest) := by
    rw [hbufdef, rowsRender_eq rows hrows]
    simp
  -- the `]` search lands on the final `]` of the block
  have hc2 : buf.drop c.length
      = ('\n' :: '(' :: d ++ '\n' :: '[' :: ' ' :: (inner ++ [' '])) ++ ']' :: ('\n' :: rest) := by
    rw [hbuf2, List.append_assoc, List.append_assoc, List.drop_left]
    rw [hbt]
    unfold blockText
    simp
  have hnotbr : ']' ∉ ('\n' :: '(' :: d ++ '\n' :: '[' :: ' ' :: (inner ++ [' '])) := by
    intro hm
    rcases List.mem_cons.mp hm with h | hm2
    · exact absurd h (by decide)
    rcases List.mem_cons.mp hm2 with h | hm3
    · exact absurd h (by decide)
    rcases List.mem_append.mp hm3 with h | hm4
    · exact hd2 h
    rcases List.mem_cons.mp hm4 with h | hm5
    · exact absurd h (by decide)
    rcases List.mem_cons.mp hm5 with h | hm6
    · exact absurd h (by decide)
    rcases List.mem_cons.mp hm6 with h | hm7
    · exact absurd h (by decide)
    rcases List.mem_append.mp hm7 with h | h
    · exact hi h
    · simp at h
  have hfind2 : findSubFrom buf [']'] c.length
      = some (c.length + (2 + d.length + 3 + (inner.length + 1))) := by
    unfold findSubFrom
    rw [hc2, findSub_mid_single ']' _ _ hnotbr]
    simp
    ring
  rw [scanD_found buf c.length (c.length + (2 + d.length + 3 + (inner.length + 1))) hfind hfind2]
  have htake : buf.take c.length = c := by
    rw [hbuf2, List.append_assoc]
    exact List.take_left' rfl
  have hsplitrows : splitlines (buf.take c.length) = rows := by
    rw [htake, hc]
    exact splitlines_joinSep rows (fun p hp => (rowOk_props p (hok p hp)).1)
      (fun p hp => (rowOk_props p (hok p hp)).2.1)
  rw [hsplitrows]
  have hbtlen : bt.length = 2 + d.length + 3 + (inner.length + 1) := by
    rw [hbt]
    unfold blockText
    simp
    omega
  have hdrop1 : buf.drop (c.length + 1) = bt ++ '\n' :: rest := by
    rw [hbuf2]
    exact List.drop_left' (by simp)
  have hblock : (buf.drop (c.length + 1)).take
      (c.length + (2 + d.length + 3 + (inner.length + 1)) + 1 - (c.length + 1)) = bt := by
    rw [hdrop1]
    have harith : c.length + (2 + d.length + 3 + (inner.length + 1)) + 1 - (c.length + 1)
        = bt.length := by
      rw [hbtlen]
      omega
    rw [harith]
    exact List.take_left _ _
  rw [hblock]
  have hdrop2 : buf.drop (c.length + (2 + d.length + 3 + (inner.length + 1)) + 2) = rest := by
    have hshape : buf = ((c ++ ['\n']) ++ (bt ++ ['\n'])) ++ rest := by
      rw [hbuf2]
      simp
    rw [hshape]
    apply List.drop_left'
    simp [hbtlen]
    omega
  rw [hdrop2]

theorem findSub_nlnl (hdr data : List Char)
    (hnn : findSub (hdr ++ ['\n']) ('\n' :: '\n' :: []) = none) :
    findSub (hdr ++ '\n' :: '\n' :: data) ('\n' :: '\n' :: []) = some hdr.length := by
  induction hdr with
  | nil =>
    apply findSub_zero
    simp [leadsWith]
  | cons c h2 ih =>
    have hstep : findSub (c :: (h2 ++ ['\n'])) ('\n' :: '\n' :: []) = none := hnn
    have hfalse : leadsWith ('\n' :: '\n' :: []) (c :: (h2 ++ ['\n'])) = false := by
      by_cases hl : leadsWith ('\n' :: '\n' :: []) (c :: (h2 ++ ['\n'])) = true
      · rw [findSub, if_pos hl] at hstep
        exact absurd hstep (by simp)
      · simpa using hl
    have hnn2 : findSub (h2 ++ ['\n']) ('\n' :: '\n' :: []) = none := by
      rw [findSub, hfalse, if_neg Bool.false_ne_true] at hstep
      cases hfs : findSub (h2 ++ ['\n']) ('\n' :: '\n' :: []) with
      | none => rfl
      | some j => rw [hfs] at hstep; exact absurd hstep (by simp)
    have hlead : leadsWith ('\n' :: '\n' :: []) (c :: (h2 ++ '\n' :: '\n' :: data)) = false := by
      cases h2 with
      | nil =>
        simp only [List.nil_append, leadsWith, Bool.and_true] at hfalse ⊢
        simpa using hfalse
      | cons y h3 =>
        simp only [List.cons_append, leadsWith, Bool.and_true] at hfalse ⊢
        simpa using hfalse
    show findSub (c :: (h2 ++ '\n' :: '\n' :: data)) ('\n' :: '\n' :: []) = some (c :: h2).length
    rw [findSub, hlead, if_neg Bool.false_ne_true, ih hnn2]
    simp

theorem readerRead_split (hdr data : List Char)
    (hh : hdr.head? = some '#')
    (hnn : findSub (hdr ++ ['\n']) ('\n' :: '\n' :: []) = none)
    (hdne : data ≠ [])
    (hdh : ∀ c0, data.head? = some c0 → c0 ≠ '\n' ∧ c0 ≠ '#') :
    readerRead (hdr ++ '\n' :: '\n' :: data) = some (hdr, data) := by
  set buf := hdr ++ '\n' :: '\n' :: data with hbuf
  have hfind := findSub_nlnl hdr data hnn
  have hget0 : buf[0]? = some '#' := by
    rw [hbuf]
    cases hdr with
    | nil => simp at hh
    | cons c h2 =>
      simp at hh
      subst hh
      simp
  have hff : findSubFrom buf ('\n' :: '\n' :: []) 0 = some hdr.length := by
    unfold findSubFrom
    rw [List.drop_zero, hbuf, hfind]
    simp
  have hloop1 : ∀ f, headerLoop buf (f + 1 + 1) 0 = headerLoop buf (f + 1) (hdr.length + 2) := by
    intro f
    simp only [headerLoop, hget0, hff, or_true, if_true]
  have hgetd : buf[hdr.length + 2]? = data.head? := by
    have hshape : buf = (hdr ++ '\n' :: '\n' :: []) ++ data := by
      rw [hbuf]; simp
    rw [hshape, List.getElem?_append_right (by simp)]
    simp [List.head?_eq_getElem?]
  obtain ⟨c0, hc0⟩ : ∃ c0, data.head? = some c0 := by
    cases data with
    | nil => exact absurd rfl hdne
    | cons a b => exact ⟨a, rfl⟩
  have hstop : ∀ f, headerLoop buf (f + 1) (hdr.length + 2) = some (hdr.length + 2) := by
    intro f
    simp only [headerLoop, hgetd, hc0]
    rw [if_neg]
    intro habs
    rcases habs with h | h
    · exact (hdh c0 hc0).1 h
    · exact (hdh c0 hc0).2 h
  have hfuel : buf.length + 2 = buf.length + 1 + 1 := rfl
  unfold readerRead
  rw [hfuel, hloop1 buf.length, hstop buf.length]
  simp only [Option.map]
  congr 1
  have hslice : sliceTo buf ((hdr.length + 2 : Nat) - 2 : Int) = hdr := by
    unfold sliceTo
    have hnonneg : ¬ (((hdr.length + 2 : Nat) : Int) - 2 < 0) := by
      simp
    rw [if_neg hnonneg]
    have htn : (((hdr.length + 2 : Nat) : Int) - 2).toNat = hdr.length := by omega
    rw [htn, hbuf]
    exact List.take_left' rfl
  have hdrop : buf.drop (hdr.length + 2) = data := by
    have hshape : buf = (hdr ++ '\n' :: '\n' :: []) ++ data := by
      rw [hbuf]; simp
    rw [hshape]
    exact List.drop_left' (by simp)
  rw [hslice, hdrop]

theorem scanD_groups (gs : List Grp) (tl : List (List Char))
    (hg : ∀ g ∈ gs, g.rows ≠ [] ∧ (∀ r ∈ g.rows, rowOk r = true)
      ∧ '\n' ∉ g.dim ∧ ']' ∉ g.dim ∧ ']' ∉ g.inner)
    (htl : ∀ r ∈ tl, rowOk r = true) :
    scanD (renderData gs tl) = some (eventsOf gs tl) := by
  induction gs with
  | nil =>
    unfold renderData eventsOf
    simp only [List.map_nil, List.flatten_nil, List.nil_append]
    exact scanD_rowsOnly tl htl
  | cons g gs2 ih =>
    obtain ⟨h1, h2, h3, h4, h5⟩ := hg g (List.mem_cons_self g gs2)
    have hshape : renderData (g :: gs2) tl
        = rowsRender g.rows ++ blockText g.dim g.inner ++ '\n' :: renderData gs2 tl := by
      unfold renderData renderGroup
      simp
    rw [hshape, scanD_step g.rows g.dim g.inner _ h1 h2 h3 h4 h5]
    rw [ih (fun g2 hg2 => hg g2 (List.mem_cons_of_mem g hg2))]
    unfold eventsOf
    simp

-- ## Generic lemmas for the codec pipeline

theorem replGo_cons_ne (z : Char) (zs new : List Char) (cc : Char) (t : List Char)
    (f : Nat) (hne : cc ≠ z) :
    replGo z zs new (f + 1) (cc :: t) = cc :: replGo z zs new f t := by
  rw [replGo]
  have hguard : (z == cc && leadsWith zs t) = false := by
    have : (z == cc) = false := by
      simp [beq_eq_false_iff_ne]
      exact fun h => hne h.symm
    rw [this, Bool.false_and]
  rw [hguard, if_neg Bool.false_ne_true]

theorem leadsWith_eq_guard (z : Char) (zs : List Char) (c : Char) (t : List Char) :
    leadsWith (z :: zs) (c :: t) = (z == c && leadsWith zs t) := rfl

theorem replGo_of_findSub_none (z : Char) (zs new : List Char) (s : List Char)
    (h : findSub s (z :: zs) = none) (f : Nat) (hf : s.length ≤ f) :
    replGo z zs new f s = s := by
  induction s generalizing f with
  | nil => exact replGo_nil z zs new f
  | cons c rest ih =>
    simp only [List.length_cons] at hf
    cases f with
    | zero => omega
    | succ fa =>
      rw [findSub] at h
      by_cases hl : leadsWith (z :: zs) (c :: rest) = true
      · rw [if_pos hl] at h
        exact absurd h (by simp)
      · rw [if_neg hl] at h
        have hrest : findSub rest (z :: zs) = none := by
          cases hfs : findSub rest (z :: zs) with
          | none => rfl
          | some j => rw [hfs] at h; exact absurd h (by simp)
        have hguard : (z == c && leadsWith zs rest) = false := by
          rw [← leadsWith_eq_guard]
          simpa using hl
        rw [replGo, hguard, if_neg Bool.false_ne_true, ih hrest fa (by omega)]

theorem pyReplace_of_findSub_none (pat : List Char) (hpat : pat ≠ []) (s new : List Char)
    (h : findSub s pat = none) : pyReplace s pat new = s := by
  cases pat with
  | nil => exact absurd rfl hpat
  | cons z zs =>
    show replGo z zs new s.length s = s
    exact replGo_of_findSub_none z zs new s h s.length (Nat.le_refl _)

theorem findSub_append_none (z w : Char) (ws : List Char) (hzw : w ≠ z)
    (c tl : List Char) (hc : w ∉ c)
    (hhd : ∀ c0, tl.head? = some c0 → c0 ≠ w)
    (htail : findSub tl (z :: w :: ws) = none) :
    findSub (c ++ tl) (z :: w :: ws) = none := by
  induction c with
  | nil => simpa using htail
  | cons x c2 ih =>
    have hlead : leadsWith (z :: w :: ws) (x :: (c2 ++ tl)) = false := by
      rw [leadsWith_eq_guard]
      have hsecond : leadsWith (w :: ws) (c2 ++ tl) = false := by
        apply leadsWith_false_of_head_ne
        exact head_ne_of_not_mem_mid w x c2 tl hhd hc
      rw [hsecond, Bool.and_false]
    show findSub (x :: (c2 ++ tl)) (z :: w :: ws) = none
    rw [findSub, hlead, if_neg Bool.false_ne_true,
      ih (fun hm => hc (List.mem_cons_of_mem x hm))]
    rfl

/-- Replacing the full separator in a joined string with an untouched tail. -/
theorem pyReplace_joinSep_tail (z w : Char) (ws new : List Char) (hzw : w ≠ z)
    (parts : List (List Char)) (tl : List Char) (h : ∀ p ∈ parts, w ∉ p)
    (hhd : ∀ c0, tl.head? = some c0 → c0 ≠ w)
    (htail : findSub tl (z :: w :: ws) = none) :
    pyReplace (joinSep (z :: w :: ws) parts ++ tl) (z :: w :: ws) new
      = joinSep new parts ++ tl := by
  induction parts with
  | nil =>
    simp only [joinSep, List.nil_append]
    exact pyReplace_of_findSub_none _ (by simp) tl new htail
  | cons x rest ih =>
    cases rest with
    | nil =>
      simp only [joinSep]
      exact pyReplace_of_findSub_none _ (by simp) _ new
        (findSub_append_none z w ws hzw x tl (h x (List.mem_cons_self x [])) hhd htail)
    | cons q qs =>
      rw [joinSep_cons2]
      have hshape : (x ++ (z :: w :: ws) ++ joinSep (z :: w :: ws) (q :: qs)) ++ tl
          = x ++ (z :: w :: ws) ++ (joinSep (z :: w :: ws) (q :: qs) ++ tl) := by
        simp
      rw [hshape]
      show replGo z (w :: ws) new
        (x ++ (z :: w :: ws) ++ (joinSep (z :: w :: ws) (q :: qs) ++ tl)).length
        (x ++ (z :: w :: ws) ++ (joinSep (z :: w :: ws) (q :: qs) ++ tl)) = _
      rw [replGo_mid z w ws new hzw x _ _ (Nat.le_refl _) (h x (List.mem_cons_self x _))]
      rw [ih (fun p hp => h p (List.mem_cons_of_mem x hp))]
      rw [joinSep_cons2]
      simp

theorem joinSep_cons_head (sep y : List Char) (ys : List (List Char)) (hy : y ≠ []) :
    (joinSep sep (y :: ys)).head? = y.head? := by
  cases ys with
  | nil => rfl
  | cons q qs =>
    rw [joinSep_cons2]
    cases y with
    | nil => exact absurd rfl hy
    | cons a y2 => rfl

/-- Replacing `" \n "` in rows joined by `" \n  "` followed by an untouched
tail. -/
theorem pyReplace_nlsep_tail (rows : List (List Char)) (tl : List Char)
    (h : ∀ p ∈ rows, '\n' ∉ p) (hne : ∀ p ∈ rows, p ≠ [])
    (hhd : ∀ c0, tl.head? = some c0 → c0 ≠ '\n')
    (htail : findSub tl (' ' :: '\n' :: ' ' :: []) = none) :
    pyReplace (joinSep (' ' :: '\n' :: ' ' :: ' ' :: []) rows ++ tl)
      (' ' :: '\n' :: ' ' :: []) [] = joinSep [' '] rows ++ tl := by
  induction rows with
  | nil =>
    simp only [joinSep, List.nil_append]
    exact pyReplace_of_findSub_none _ (by simp) tl [] htail
  | cons x rest ih =>
    cases rest with
    | nil =>
      simp only [joinSep]
      exact pyReplace_of_findSub_none _ (by simp) _ []
        (findSub_append_none ' ' '\n' [' '] (by decide) x tl
          (h x (List.mem_cons_self x [])) hhd htail)
    | cons q qs =>
      rw [joinSep_cons2]
      have hshape : (x ++ (' ' :: '\n' :: ' ' :: ' ' :: []) ++ joinSep (' ' :: '\n' :: ' ' :: ' ' :: []) (q :: qs)) ++ tl
          = x ++ (' ' :: '\n' :: ' ' :: [])
            ++ (' ' :: (joinSep (' ' :: '\n' :: ' ' :: ' ' :: []) (q :: qs) ++ tl)) := by
        simp
      rw [hshape]
      show replGo ' ' ('\n' :: ' ' :: []) []
        (x ++ (' ' :: '\n' :: ' ' :: [])
          ++ (' ' :: (joinSep (' ' :: '\n' :: ' ' :: ' ' :: []) (q :: qs) ++ tl))).length
        (x ++ (' ' :: '\n' :: ' ' :: [])
          ++ (' ' :: (joinSep (' ' :: '\n' :: ' ' :: ' ' :: []) (q :: qs) ++ tl))) = _
      rw [replGo_mid ' ' '\n' [' '] [] (by decide) x _ _ (Nat.le_refl _)
        (h x (List.mem_cons_self x _))]
      have hq : q ≠ [] := hne q (List.mem_cons_of_mem x (List.mem_cons_self q qs))
      have hheadrest : leadsWith ('\n' :: ' ' :: [])
          (joinSep (' ' :: '\n' :: ' ' :: ' ' :: []) (q :: qs) ++ tl) = false := by
        apply leadsWith_false_of_head_ne
        intro c0 hc0
        have hJ : (joinSep (' ' :: '\n' :: ' ' :: ' ' :: []) (q :: qs)).head? = q.head? :=
          joinSep_cons_head _ q qs hq
        have hJne : joinSep (' ' :: '\n' :: ' ' :: ' ' :: []) (q :: qs) ≠ [] := by
          intro habs
          rw [habs] at hJ
          cases q with
          | nil => exact hq rfl
          | cons a q2 => simp at hJ
        rw [List.head?_append_of_ne_nil _ hJne] at hc0
        rw [hJ] at hc0
        cases q with
        | nil => exact absurd rfl hq
        | cons a q2 =>
          simp only [List.head?_cons, Option.some.injEq] at hc0
          intro habs
          apply h (a :: q2) (List.mem_cons_of_mem x (List.mem_cons_self _ _))
          rw [hc0, habs]
          exact List.mem_cons_self _ _
      have hcons : pyReplace
          (' ' :: (joinSep (' ' :: '\n' :: ' ' :: ' ' :: []) (q :: qs) ++ tl))
          (' ' :: '\n' :: ' ' :: []) []
          = ' ' :: pyReplace (joinSep (' ' :: '\n' :: ' ' :: ' ' :: []) (q :: qs) ++ tl)
            (' ' :: '\n' :: ' ' :: []) [] := by
        show replGo ' ' ('\n' :: ' ' :: []) []
          ((joinSep (' ' :: '\n' :: ' ' :: ' ' :: []) (q :: qs) ++ tl).length + 1)
          (' ' :: (joinSep (' ' :: '\n' :: ' ' :: ' ' :: []) (q :: qs) ++ tl)) = _
        exact replGo_cons_safe ' ' '\n' [' '] [] ' ' _ _ hheadrest
      rw [hcons]
      rw [ih (fun p hp => h p (List.mem_cons_of_mem x hp))
        (fun p hp => hne p (List.mem_cons_of_mem x hp))]
      rw [joinSep_cons2]
      simp

/-- Parenthesised items joined by `sep` expose the interior join on
`")" ++ sep ++ "("`. -/
theorem joinSep_parens (sep : List Char) (items : List (List Char)) (hne : items ≠ []) :
    joinSep sep (items.map (fun s => '(' :: (s ++ [')'])))
      = '(' :: (joinSep (')' :: (sep ++ ['('])) items ++ [')']) := by
  induction items with
  | nil => exact absurd rfl hne
  | cons x rest ih =>
    cases rest with
    | nil => rfl
    | cons q qs =>
      have ih2 := ih (by simp)
      simp only [List.map_cons] at ih2 ⊢
      rw [joinSep_cons2, ih2, joinSep_cons2]
      simp

theorem rstripSp_of_ends (a : List Char) (k : Nat) (ha : a ≠ [])
    (hlast : a.getLast? ≠ some ' ') :
    rstripSp (a ++ List.replicate k ' ') = a := by
  unfold rstripSp
  rw [List.reverse_append, List.reverse_replicate]
  have hdropRep : ∀ m (t : List Char), List.dropWhile (fun c => c == ' ')
      (List.replicate m ' ' ++ t) = List.dropWhile (fun c => c == ' ') t := by
    intro m
    induction m with
    | zero => intro t; simp
    | succ n ih => intro t; simp [List.replicate_succ, List.dropWhile, ih]
  rw [hdropRep]
  have : List.dropWhile (fun c => c == ' ') a.reverse = a.reverse := by
    cases hrev : a.reverse with
    | nil => simp
    | cons x r =>
      have hx : a.getLast? = some x := by
        rw [List.getLast?_eq_head?_reverse, hrev]
        rfl
      have hxne : ¬ (x == ' ') = true := by
        simp
        intro hcontr
        exact hlast (by rw [hx, hcontr])
      simp [List.dropWhile, hxne]
  rw [this, List.reverse_reverse]

theorem rstripSp_no_sp (a : List Char) (hlast : a.getLast? ≠ some ' ') :
    rstripSp a = a := by
  by_cases hnil : a = []
  · rw [hnil]; rfl
  · have h2 := rstripSp_of_ends a 0 hnil hlast
    simpa using h2

theorem stripSp_of_no_sp (s : List Char) (h : ' ' ∉ s) : stripSp s = s := by
  unfold stripSp
  have h1 : s.dropWhile (fun c => c == ' ') = s := by
    cases s with
    | nil => rfl
    | cons c r =>
      have : ¬ (c == ' ') = true := by
        simp
        exact fun habs => h (habs ▸ List.mem_cons_self c r)
      simp [List.dropWhile, this]
  rw [h1]
  apply rstripSp_no_sp
  intro habs
  cases hs : s with
  | nil => rw [hs] at habs; simp at habs
  | cons c r =>
    have : ' ' ∈ s := by
      cases hrev : s.reverse with
      | nil =>
        rw [List.getLast?_eq_head?_reverse, hrev] at habs
        simp at habs
      | cons x r2 =>
        rw [List.getLast?_eq_head?_reverse, hrev] at habs
        simp only [List.head?_cons, Option.some.injEq] at habs
        have hx : x ∈ s.reverse := by rw [hrev]; exact List.mem_cons_self x r2
        rw [List.mem_reverse] at hx
        rw [← habs]
        exact hx
    exact h this

theorem mapM_some_of_map {α β : Type} (f : α → Option β) (g : β → α) (l : List β)
    (h : ∀ b ∈ l, f (g b) = some b) : (l.map g).mapM f = some l := by
  induction l with
  | nil => rfl
  | cons b rest ih =>
    simp only [List.map_cons, List.mapM_cons, h b (List.mem_cons_self b rest),
      ih (fun b2 hb2 => h b2 (List.mem_cons_of_mem b hb2))]
    rfl

theorem mapM_isSome {α β : Type} (f : α → Option β) (l : List α)
    (h : ∀ a ∈ l, (f a).isSome = true) : (l.mapM f).isSome = true := by
  induction l with
  | nil => rfl
  | cons a rest ih =>
    cases hfa : f a with
    | none =>
      have := h a (List.mem_cons_self a rest)
      rw [hfa] at this
      simp at this
    | some b =>
      have hrest := ih (fun a2 ha2 => h a2 (List.mem_cons_of_mem a ha2))
      cases hrm : rest.mapM f with
      | none => rw [hrm] at hrest; simp at hrest
      | some bs =>
        show (List.mapM f (a :: rest)).isSome = true
        rw [List.mapM_cons, hfa, hrm]
        rfl

theorem mapM_congr_mem {α β : Type} (f g : α → Option β) (l : List α)
    (h : ∀ a ∈ l, f a = g a) : l.mapM f = l.mapM g := by
  induction l with
  | nil => rfl
  | cons a rest ih =>
    simp only [List.mapM_cons, h a (List.mem_cons_self a rest),
      ih (fun a2 ha2 => h a2 (List.mem_cons_of_mem a ha2))]

theorem joinSep_append_parts (sep : List Char) (xs L : List (List Char))
    (hxs : xs ≠ []) (hL : L ≠ []) :
    joinSep sep (xs ++ L) = joinSep sep xs ++ sep ++ joinSep sep L := by
  induction xs with
  | nil => exact absurd rfl hxs
  | cons x rest ih =>
    cases rest with
    | nil =>
      cases L with
      | nil => exact absurd rfl hL
      | cons q qs =>
        show joinSep sep (x :: q :: qs) = joinSep sep [x] ++ sep ++ joinSep sep (q :: qs)
        rw [joinSep_cons2]
        rfl
    | cons y ys =>
      have h1 : (x :: y :: ys) ++ L = x :: ((y :: ys) ++ L) := rfl
      rw [h1]
      have h2 : (y :: ys) ++ L = y :: (ys ++ L) := rfl
      have hcons : joinSep sep (x :: ((y :: ys) ++ L))
          = x ++ sep ++ joinSep sep ((y :: ys) ++ L) := by
        rw [h2]
        exact joinSep_cons2 sep x y (ys ++ L)
      rw [hcons, ih (by simp), joinSep_cons2]
      simp

theorem flatten_ne_nil_of_head {α : Type} (y : List α) (ys : List (List α)) (hy : y ≠ []) :
    (y :: ys).flatten ≠ [] := by
  simp only [List.flatten_cons]
  cases y with
  | nil => exact absurd rfl hy
  | cons a y2 => simp

theorem joinSep_flatten (sep : List Char) (xss : List (List (List Char)))
    (h : ∀ xs ∈ xss, xs ≠ []) :
    joinSep sep (xss.map (joinSep sep)) = joinSep sep xss.flatten := by
  induction xss with
  | nil => rfl
  | cons xs rest ih =>
    cases rest with
    | nil => simp [joinSep]
    | cons ys yss =>
      have ih2 := ih (fun a ha => h a (List.mem_cons_of_mem xs ha))
      simp only [List.map_cons] at ih2 ⊢
      rw [joinSep_cons2, ih2]
      have hflat : (xs :: ys :: yss).flatten = xs ++ (ys :: yss).flatten := by simp
      rw [hflat, joinSep_append_parts sep xs ((ys :: yss).flatten)
        (h xs (List.mem_cons_self xs _))
        (flatten_ne_nil_of_head ys yss (h ys (List.mem_cons_of_mem xs (List.mem_cons_self ys yss))))]

-- ## Data model lemmas

/-- The token text of an entry pair. -/
def tokOf (p : List Char × List Char) : List Char := tokStr p.1 p.2

theorem WFl_mem (rest : List Nat) : ∀ xs, WFl xs rest = true → ∀ x ∈ xs, WF x rest = true := by
  intro xs
  induction xs with
  | nil => intro _ x hx; simp at hx
  | cons y ys ih =>
    intro h x hx
    have h2 : (WF y rest && WFl ys rest) = true := h
    rw [Bool.and_eq_true] at h2
    rcases List.mem_cons.mp hx with rfl | hx2
    · exact h2.1
    · exact ih h2.2 x hx2

theorem entsL_eq_flatten : ∀ xs : List Nd, entsL xs = (xs.map ents).flatten := by
  intro xs
  induction xs with
  | nil => rfl
  | cons y ys ih =>
    show ents y ++ entsL ys = _
    rw [ih]
    simp

theorem rowsOf_one (x : Nd) : rowsOf x 1 = [x] := by
  cases x <;> rfl

theorem rowsOfL_one : ∀ xs : List Nd, rowsOfL xs 1 = xs := by
  intro xs
  induction xs with
  | nil => rfl
  | cons y ys ih =>
    show rowsOf y 1 ++ rowsOfL ys 1 = y :: ys
    rw [ih, rowsOf_one]
    rfl

theorem rowsOfL_eq_flatten (k : Nat) : ∀ xs : List Nd,
    rowsOfL xs k = (xs.map (fun x => rowsOf x k)).flatten := by
  intro xs
  induction xs with
  | nil => rfl
  | cons y ys ih =>
    show rowsOf y k ++ rowsOfL ys k = _
    rw [ih]
    simp

theorem mem_rowsOfL (k : Nat) : ∀ (xs : List Nd) (row : Nd), row ∈ rowsOfL xs k →
    ∃ y ∈ xs, row ∈ rowsOf y k := by
  intro xs
  induction xs with
  | nil => intro row h; exact absurd h (by simp [rowsOfL])
  | cons y ys ih =>
    intro row h
    rw [show rowsOfL (y :: ys) k = rowsOf y k ++ rowsOfL ys k from rfl, List.mem_append] at h
    rcases h with h | h
    · exact ⟨y, List.mem_cons_self y ys, h⟩
    · obtain ⟨z, hz, hr⟩ := ih row h
      exact ⟨z, List.mem_cons_of_mem y hz, hr⟩

theorem range_map_getD {α β : Type} (l : List α) (d : α) (f : α → β) :
    (List.range l.length).map (fun i => f (l.getD i d)) = l.map f := by
  induction l with
  | nil => rfl
  | cons a as ih =>
    rw [List.length_cons, List.range_succ_eq_map, List.map_cons, List.map_map]
    have hcomp : ((fun i => f ((a :: as).getD i d)) ∘ Nat.succ)
        = fun i => f (as.getD i d) := by
      funext i
      rfl
    rw [hcomp, ih]
    try rfl

theorem map_congr_mem {α β : Type} (f g : α → β) (l : List α)
    (h : ∀ a ∈ l, f a = g a) : l.map f = l.map g := by
  induction l with
  | nil => rfl
  | cons a rest ih =>
    rw [List.map_cons, List.map_cons, h a (List.mem_cons_self a rest),
      ih (fun a2 ha2 => h a2 (List.mem_cons_of_mem a ha2))]

theorem flatten_map_map {α β γ : Type} (f : β → γ) (F : α → List β) (xs : List α) :
    (xs.map (fun a => (F a).map f)).flatten = ((xs.map F).flatten).map f := by
  induction xs with
  | nil => rfl
  | cons a as ih => simp [ih]

theorem prodL_pos (dims : List Nat) (h : ∀ e ∈ dims, 1 ≤ e) : 1 ≤ prodL dims := by
  induction dims with
  | nil => exact Nat.le_refl 1
  | cons e rest ih =>
    show 1 ≤ e * prodL rest
    have h1 : 1 ≤ e := h e (List.mem_cons_self e rest)
    have h2 : 1 ≤ prodL rest := ih (fun e2 he2 => h e2 (List.mem_cons_of_mem e he2))
    exact Nat.one_le_iff_ne_zero.mpr (Nat.mul_ne_zero (by omega) (by omega))

theorem entsL_length_aux (rest : List Nat)
    (P : ∀ x, WF x rest = true → (ents x).length = prodL rest) :
    ∀ xs, WFl xs rest = true → (entsL xs).length = xs.length * prodL rest := by
  intro xs
  induction xs with
  | nil => intro _; simp [entsL]
  | cons y ys ih =>
    intro h
    have h2 : (WF y rest && WFl ys rest) = true := h
    rw [Bool.and_eq_true] at h2
    show (ents y ++ entsL ys).length = (y :: ys).length * prodL rest
    rw [List.length_append, P y h2.1, ih h2.2, List.length_cons]
    ring

theorem ents_length : ∀ (dims : List Nat) (x : Nd), WF x dims = true →
    (ents x).length = prodL dims := by
  intro dims
  induction dims with
  | nil =>
    intro x h
    cases x with
    | C re im => rfl
    | A xs => exact nomatch h
  | cons e rest ih =>
    intro x h
    cases x with
    | C re im => exact nomatch h
    | A xs =>
      have h2 : ((xs.length == e) && WFl xs rest) = true := h
      rw [Bool.and_eq_true, beq_iff_eq] at h2
      show (entsL xs).length = e * prodL rest
      rw [entsL_length_aux rest ih xs h2.2, h2.1]

theorem ents_ne_nil (dims : List Nat) (x : Nd) (hext : ∀ e ∈ dims, 1 ≤ e)
    (h : WF x dims = true) : ents x ≠ [] := by
  intro habs
  have hl := ents_length dims x h
  rw [habs] at hl
  have := prodL_pos dims hext
  simp at hl
  omega

theorem entsL_rowsL (k : Nat) : ∀ xs : List Nd,
    (∀ x ∈ xs, ents x = ((rowsOf x k).map ents).flatten) →
    entsL xs = ((rowsOfL xs k).map ents).flatten := by
  intro xs
  induction xs with
  | nil => intro _; rfl
  | cons y ys ih =>
    intro h
    show ents y ++ entsL ys = ((rowsOf y k ++ rowsOfL ys k).map ents).flatten
    rw [List.map_append, List.flatten_append, h y (List.mem_cons_self y ys),
      ih (fun x hx => h x (List.mem_cons_of_mem y hx))]

theorem ents_rows : ∀ (dims : List Nat) (x : Nd), dims ≠ [] → WF x dims = true →
    ents x = ((rowsOf x dims.length).map ents).flatten := by
  intro dims
  induction dims with
  | nil => intro x h; exact absurd rfl h
  | cons e rest ih =>
    intro x _ h
    cases rest with
    | nil =>
      rw [show (([e] : List Nat)).length = 1 from rfl, rowsOf_one]
      simp
    | cons e2 rest2 =>
      cases x with
      | C re im => exact nomatch h
      | A xs =>
        have h2 : ((xs.length == e) && WFl xs (e2 :: rest2)) = true := h
        rw [Bool.and_eq_true] at h2
        show entsL xs = ((rowsOf (.A xs) (rest2.length + 2)).map ents).flatten
        rw [show rowsOf (.A xs) (rest2.length + 2) = rowsOfL xs (rest2.length + 1) from rfl]
        apply entsL_rowsL
        intro x hx
        have hwf := WFl_mem (e2 :: rest2) xs h2.2 x hx
        have := ih x (by simp) hwf
        rw [show (e2 :: rest2).length = rest2.length + 1 from rfl] at this
        exact this

theorem rowsOf_ne_nil : ∀ (dims : List Nat) (x : Nd), dims ≠ [] →
    (∀ e ∈ dims, 1 ≤ e) → WF x dims = true → rowsOf x dims.length ≠ [] := by
  intro dims
  induction dims with
  | nil => intro x h; exact absurd rfl h
  | cons e rest ih =>
    intro x _ hext h
    cases rest with
    | nil =>
      rw [show (([e] : List Nat)).length = 1 from rfl, rowsOf_one]
      simp
    | cons e2 rest2 =>
      cases x with
      | C re im => exact nomatch h
      | A xs =>
        have h2 : ((xs.length == e) && WFl xs (e2 :: rest2)) = true := h
        rw [Bool.and_eq_true, beq_iff_eq] at h2
        cases xs with
        | nil =>
          have he : 1 ≤ e := hext e (List.mem_cons_self _ _)
          have : (0 : Nat) = e := h2.1
          omega
        | cons y ys =>
          show rowsOfL (y :: ys) (rest2.length + 1) ≠ []
          have hy : rowsOf y (e2 :: rest2).length ≠ [] :=
            ih y (by simp) (fun e' he' => hext e' (List.mem_cons_of_mem e he'))
              (WFl_mem (e2 :: rest2) (y :: ys) h2.2 y (List.mem_cons_self y ys))
          rw [show (e2 :: rest2).length = rest2.length + 1 from rfl] at hy
          intro habs
          rw [show rowsOfL (y :: ys) (rest2.length + 1)
            = rowsOf y (rest2.length + 1) ++ rowsOfL ys (rest2.length + 1) from rfl] at habs
          exact hy (List.append_eq_nil.mp habs).1

theorem rowsOf_WF : ∀ (front : List Nat) (e : Nat) (x : Nd),
    WF x (front ++ [e]) = true →
    ∀ row ∈ rowsOf x (front.length + 1), WF row [e] = true := by
  intro front
  induction front with
  | nil =>
    intro e x h row hrow
    rw [show ([] : List Nat).length + 1 = 1 from rfl, rowsOf_one] at hrow
    simp at hrow
    subst hrow
    simpa using h
  | cons d front2 ihf =>
    intro e x h row hrow
    cases x with
    | C re im => exact nomatch h
    | A xs =>
      have h2 : ((xs.length == d) && WFl xs (front2 ++ [e])) = true := h
      rw [Bool.and_eq_true] at h2
      rw [show (d :: front2).length + 1 = front2.length + 2 from rfl,
        show rowsOf (.A xs) (front2.length + 2) = rowsOfL xs (front2.length + 1) from rfl] at hrow
      obtain ⟨y, hy, hr⟩ := mem_rowsOfL (front2.length + 1) xs row hrow
      exact ihf e y (WFl_mem (front2 ++ [e]) xs h2.2 y hy) row hr

-- ## Characters of rendered tokens

theorem numOk_mem_ne (s : List Char) (h : numOk s = true) (c : Char) (hc : c ∈ s) :
    c ≠ '(' ∧ c ≠ ')' ∧ c ≠ ',' ∧ c ≠ ' ' ∧ c ≠ '\n' ∧ c ≠ 'x' ∧ c ≠ '[' ∧ c ≠ ']'
      ∧ c ≠ '\t' ∧ c ≠ '#' := by
  rw [numOk, Bool.and_eq_true, List.all_eq_true] at h
  have h3 := h.2 c hc
  simp only [Bool.not_eq_true', Bool.or_eq_false_iff, beq_eq_false_iff_ne] at h3
  tauto

theorem numOk_ne_nil (s : List Char) (h : numOk s = true) : s ≠ [] := by
  rw [numOk, Bool.and_eq_true] at h
  have := h.1
  cases s with
  | nil => simp [List.isEmpty] at this
  | cons a r => simp

theorem mem_tokStr (re im : List Char) (c : Char) (h : c ∈ tokStr re im) :
    c = '(' ∨ c = ')' ∨ c = ',' ∨ c ∈ re ∨ c ∈ im := by
  rw [tokStr] at h
  simp at h
  tauto

theorem tokStr_no_nl (re im : List Char) (hre : numOk re = true) (him : numOk im = true) :
    '\n' ∉ tokStr re im := by
  intro h
  rcases mem_tokStr re im '\n' h with h1 | h1 | h1 | h1 | h1
  · exact absurd h1 (by decide)
  · exact absurd h1 (by decide)
  · exact absurd h1 (by decide)
  · exact (numOk_mem_ne re hre '\n' h1).2.2.2.2.1 rfl
  · exact (numOk_mem_ne im him '\n' h1).2.2.2.2.1 rfl

theorem cells_toks : ∀ cells : List Nd, WFl cells [] = true →
    cells.map cellTok = (entsL cells).map tokOf := by
  intro cells
  induction cells with
  | nil => intro _; rfl
  | cons c cs ih =>
    intro h
    have h2 : (WF c [] && WFl cs []) = true := h
    rw [Bool.and_eq_true] at h2
    cases c with
    | A xs => exact nomatch h2.1
    | C re im =>
      show cellTok (.C re im) :: cs.map cellTok = ((re, im) :: entsL cs).map tokOf
      rw [List.map_cons, ih h2.2]
      rfl

theorem data1D_toks (e : Nat) (x : Nd) (h : WF x [e] = true) :
    data1D x = joinSep [' '] ((ents x).map tokOf) := by
  cases x with
  | C re im => exact nomatch h
  | A cells =>
    have h2 : ((cells.length == e) && WFl cells []) = true := h
    rw [Bool.and_eq_true] at h2
    show joinSep [' '] (cells.map cellTok) = joinSep [' '] ((entsL cells).map tokOf)
    rw [cells_toks cells h2.2]

theorem ents_numOk : ∀ (dims : List Nat) (x : Nd), WF x dims = true →
    ∀ p ∈ ents x, numOk p.1 = true ∧ numOk p.2 = true := by
  intro dims
  induction dims with
  | nil =>
    intro x h p hp
    cases x with
    | A xs => exact nomatch h
    | C re im =>
      have h2 : (numOk re && numOk im) = true := h
      rw [Bool.and_eq_true] at h2
      have : p = (re, im) := by simpa [ents] using hp
      rw [this]
      exact h2
  | cons e rest ih =>
    intro x h p hp
    cases x with
    | C re im => exact nomatch h
    | A xs =>
      have h2 : ((xs.length == e) && WFl xs rest) = true := h
      rw [Bool.and_eq_true] at h2
      rw [show ents (.A xs) = entsL xs from rfl, entsL_eq_flatten,
        List.mem_flatten] at hp
      obtain ⟨l, hl, hpl⟩ := hp
      rw [List.mem_map] at hl
      obtain ⟨y, hy, rfl⟩ := hl
      exact ih y (WFl_mem rest xs h2.2 y hy) p hpl

theorem data1D_no_nl (e : Nat) (x : Nd) (h : WF x [e] = true) : '\n' ∉ data1D x := by
  intro hmem
  rw [data1D_toks e x h] at hmem
  rcases mem_joinSep [' '] _ '\n' hmem with h1 | ⟨p, hp, hcp⟩
  · exact absurd h1 (by decide)
  · rw [List.mem_map] at hp
    obtain ⟨q, hq, rfl⟩ := hp
    have hnum := ents_numOk [e] x h q hq
    exact tokStr_no_nl q.1 q.2 hnum.1 hnum.2 hcp

theorem joinSep_ne_nil_of_head (sep y : List Char) (ys : List (List Char)) (hy : y ≠ []) :
    joinSep sep (y :: ys) ≠ [] := by
  intro habs
  have hh := joinSep_cons_head sep y ys hy
  rw [habs] at hh
  cases y with
  | nil => exact hy rfl
  | cons a y2 => simp at hh

theorem data1D_ne_nil (e : Nat) (x : Nd) (he : 1 ≤ e) (h : WF x [e] = true) :
    data1D x ≠ [] := by
  rw [data1D_toks e x h]
  have hne := ents_ne_nil [e] x (by intro e2 he2; simp at he2; omega) h
  cases hens : ents x with
  | nil => exact absurd hens hne
  | cons p ps =>
    rw [List.map_cons]
    apply joinSep_ne_nil_of_head
    have hnum := ents_numOk [e] x h p (by rw [hens]; exact List.mem_cons_self p ps)
    rw [tokOf, tokStr]
    simp

-- ## Encoder body characterisation

theorem joinSep_map_flatten {α : Type} (sep : List Char) (F : α → List (List Char))
    (xs : List α) (h : ∀ a ∈ xs, F a ≠ []) :
    joinSep sep (xs.map (fun a => joinSep sep (F a))) = joinSep sep ((xs.map F).flatten) := by
  induction xs with
  | nil => rfl
  | cons a as ih =>
    cases as with
    | nil => simp [joinSep]
    | cons b bs =>
      have ih2 := ih (fun y hy => h y (List.mem_cons_of_mem a hy))
      simp only [List.map_cons] at ih2 ⊢
      rw [joinSep_cons2, ih2,
        show (F a :: F b :: List.map F bs).flatten
          = F a ++ (F b :: List.map F bs).flatten from rfl,
        joinSep_append_parts sep (F a) ((F b :: List.map F bs).flatten)
          (h a (List.mem_cons_self a _))
          (flatten_ne_nil_of_head (F b) (List.map F bs)
            (h b (List.mem_cons_of_mem a (List.mem_cons_self b bs))))]

theorem joinLevel (xs : List Nd) (k : Nat) (G : Nd → List Char)
    (hG : ∀ sub ∈ xs, G sub
      = joinSep (' ' :: '\n' :: ' ' :: ' ' :: []) ((rowsOf sub k).map data1D))
    (hne : ∀ sub ∈ xs, rowsOf sub k ≠ []) :
    joinSep (' ' :: '\n' :: ' ' :: ' ' :: [])
        ((List.range xs.length).map (fun i => G (child (.A xs) i)))
      = joinSep (' ' :: '\n' :: ' ' :: ' ' :: []) ((rowsOfL xs k).map data1D) := by
  rw [map_congr_mem (fun i => G (child (.A xs) i)) (fun i => G (xs.getD i (.A [])))
      (List.range xs.length) (fun i _ => rfl),
    range_map_getD xs (.A []) G,
    map_congr_mem G
      (fun sub => joinSep (' ' :: '\n' :: ' ' :: ' ' :: []) ((rowsOf sub k).map data1D))
      xs hG,
    joinSep_map_flatten _ (fun sub => (rowsOf sub k).map data1D) xs
      (by
        intro a ha
        simp only [ne_eq, List.map_eq_nil_iff]
        exact hne a ha),
    rowsOfL_eq_flatten]
  rw [flatten_map_map data1D (fun sub => rowsOf sub k) xs]

theorem data2D_rows (e1 e2 : Nat) (x : Nd) (h : WF x [e1, e2] = true) :
    data2D x = joinSep (' ' :: '\n' :: ' ' :: ' ' :: []) ((rowsOf x 2).map data1D) := by
  cases x with
  | C _ _ => exact nomatch h
  | A rows =>
    show joinSep (' ' :: '\n' :: ' ' :: ' ' :: []) (rows.map data1D) = _
    rw [show rowsOf (.A rows) 2 = rowsOfL rows 1 from rfl, rowsOfL_one]

theorem dataMDio_rows : ∀ (n : Nat) (dims : List Nat) (x : Nd), dims.length = n + 3 →
    (∀ e ∈ dims, 1 ≤ e) → WF x dims = true →
    dataMDio x (dims.map (fun (e : Nat) => ((0 : Int), (e : Int) - 1)))
      = joinSep (' ' :: '\n' :: ' ' :: ' ' :: []) ((rowsOf x dims.length).map data1D) := by
  intro n
  induction n with
  | zero =>
    intro dims x hlen hext h
    cases dims with
    | nil => simp at hlen
    | cons e rest =>
      cases x with
      | C _ _ => exact nomatch h
      | A xs =>
        have h2 : ((xs.length == e) && WFl xs rest) = true := h
        rw [Bool.and_eq_true, beq_iff_eq] at h2
        have hr : rest.length = 2 := by
          simp only [List.length_cons] at hlen
          omega
        cases rest with
        | nil => simp at hr
        | cons e2 r2 =>
          cases r2 with
          | nil => simp at hr
          | cons e3 r3 =>
            cases r3 with
            | cons e4 r4 => simp at hr
            | nil =>
              have hstep : dataMDio (.A xs)
                  ([e, e2, e3].map (fun (e : Nat) => ((0 : Int), (e : Int) - 1)))
                  = joinSep (' ' :: '\n' :: ' ' :: ' ' :: [])
                    ((List.range ((e : Int) - 1 - 0 + 1).toNat).map
                      (fun i => data2D (child (.A xs) i))) := rfl
              rw [hstep]
              have hext1 : 1 ≤ e := hext e (List.mem_cons_self _ _)
              have htn : ((e : Int) - 1 - 0 + 1).toNat = e := by omega
              rw [htn, ← h2.1]
              have hG : ∀ sub ∈ xs, data2D sub
                  = joinSep (' ' :: '\n' :: ' ' :: ' ' :: [])
                    ((rowsOf sub 2).map data1D) := by
                intro sub hsub
                exact data2D_rows e2 e3 sub (WFl_mem [e2, e3] xs h2.2 sub hsub)
              have hne : ∀ sub ∈ xs, rowsOf sub 2 ≠ [] := by
                intro sub hsub
                have := rowsOf_ne_nil [e2, e3] sub (by simp)
                  (fun e' he' => hext e' (List.mem_cons_of_mem e he'))
                  (WFl_mem [e2, e3] xs h2.2 sub hsub)
                simpa using this
              rw [joinLevel xs 2 data2D hG hne]
              rfl
  | succ m ih =>
    intro dims x hlen hext h
    cases dims with
    | nil => simp at hlen
    | cons e rest =>
      cases x with
      | C _ _ => exact nomatch h
      | A xs =>
        have h2 : ((xs.length == e) && WFl xs rest) = true := h
        rw [Bool.and_eq_true, beq_iff_eq] at h2
        have hr : rest.length = m + 3 := by
          simp only [List.length_cons] at hlen
          omega
        have hplen : ((e :: rest).map (fun (e : Nat) => ((0 : Int), (e : Int) - 1))).length
            = m + 4 := by
          simp [hr]
        rw [show dataMDio (.A xs) ((e :: rest).map (fun (e : Nat) => ((0 : Int), (e : Int) - 1)))
            = dataMDioF ((e :: rest).map (fun (e : Nat) => ((0 : Int), (e : Int) - 1))).length (.A xs)
              ((e :: rest).map (fun (e : Nat) => ((0 : Int), (e : Int) - 1))) from rfl, hplen,
          List.map_cons]
        have hstep : dataMDioF (m + 4) (.A xs)
            (((0 : Int), (e : Int) - 1) :: rest.map (fun (e : Nat) => ((0 : Int), (e : Int) - 1)))
            = if (rest.map (fun (e : Nat) => ((0 : Int), (e : Int) - 1))).length > 2 then
                joinSep (' ' :: '\n' :: ' ' :: ' ' :: [])
                  ((List.range ((e : Int) - 1 - 0 + 1).toNat).map
                    (fun i => dataMDioF (m + 3) (child (.A xs) i)
                      (rest.map (fun (e : Nat) => ((0 : Int), (e : Int) - 1)))))
              else if (rest.map (fun (e : Nat) => ((0 : Int), (e : Int) - 1))).length = 2 then
                joinSep (' ' :: '\n' :: ' ' :: ' ' :: [])
                  ((List.range ((e : Int) - 1 - 0 + 1).toNat).map
                    (fun i => data2D (child (.A xs) i)))
              else [] := rfl
        rw [hstep, if_pos (by simp only [List.length_map, hr]; omega)]
        have hext1 : 1 ≤ e := hext e (List.mem_cons_self _ _)
        have htn : ((e : Int) - 1 - 0 + 1).toNat = e := by omega
        rw [htn, ← h2.1]
        have hG : ∀ sub ∈ xs,
            dataMDioF (m + 3) sub (rest.map (fun (e : Nat) => ((0 : Int), (e : Int) - 1)))
            = joinSep (' ' :: '\n' :: ' ' :: ' ' :: [])
              ((rowsOf sub (m + 3)).map data1D) := by
          intro sub hsub
          have hwf : WF sub rest = true := WFl_mem rest xs h2.2 sub hsub
          have hplen2 : (rest.map (fun (e : Nat) => ((0 : Int), (e : Int) - 1))).length = m + 3 := by
            simp [hr]
          have hih := ih rest sub hr
            (fun e' he' => hext e' (List.mem_cons_of_mem e he')) hwf
          rw [show dataMDio sub (rest.map (fun (e : Nat) => ((0 : Int), (e : Int) - 1)))
              = dataMDioF (rest.map (fun (e : Nat) => ((0 : Int), (e : Int) - 1))).length sub
                (rest.map (fun (e : Nat) => ((0 : Int), (e : Int) - 1))) from rfl,
            hplen2, hr] at hih
          exact hih
        have hne : ∀ sub ∈ xs, rowsOf sub (m + 3) ≠ [] := by
          intro sub hsub
          have hnn := rowsOf_ne_nil rest sub
            (by intro habs; rw [habs] at hr; simp at hr)
            (fun e' he' => hext e' (List.mem_cons_of_mem e he'))
            (WFl_mem rest xs h2.2 sub hsub)
          rw [hr] at hnn
          exact hnn
        rw [joinLevel xs (m + 3)
          (fun sub => dataMDioF (m + 3) sub
            (rest.map (fun (e : Nat) => ((0 : Int), (e : Int) - 1)))) hG hne]
        rw [show ((xs.length :: rest).length) = rest.length + 1 from rfl, hr]
        rfl

-- ## Dimension string round-trip

theorem intRender_not_mem (z : Int) (c : Char)
    (hc : c = '(' ∨ c = ')' ∨ c = ',' ∨ c = ' ' ∨ c = '\n' ∨ c = 'x' ∨ c = '['
      ∨ c = ']' ∨ c = '\t' ∨ c = '#') :
    c ∉ intRender z := by
  rw [intRender]
  by_cases h : z < 0
  · rw [if_pos h]
    intro hmem
    rcases List.mem_cons.mp hmem with h1 | h1
    · rcases hc with rfl | rfl | rfl | rfl | rfl | rfl | rfl | rfl | rfl | rfl <;>
        exact absurd h1 (by decide)
    · exact toDec_not_mem z.natAbs c (by tauto) h1
  · rw [if_neg h]
    exact toDec_not_mem z.toNat c (by tauto)

theorem dimPairStr_not_mem (d : Int × Int) (c : Char)
    (hc : c = ' ' ∨ c = '\n' ∨ c = 'x' ∨ c = '[' ∨ c = ']' ∨ c = '\t' ∨ c = '#') :
    c ∉ dimPairStr d := by
  intro hmem
  have hsplit : c = '(' ∨ c = ')' ∨ c = ',' ∨ c ∈ intRender d.1 ∨ c ∈ intRender d.2 := by
    rw [dimPairStr] at hmem
    simp at hmem
    tauto
  rcases hsplit with rfl | rfl | rfl | h | h
  · rcases hc with h2 | h2 | h2 | h2 | h2 | h2 | h2 <;> exact absurd h2 (by decide)
  · rcases hc with h2 | h2 | h2 | h2 | h2 | h2 | h2 <;> exact absurd h2 (by decide)
  · rcases hc with h2 | h2 | h2 | h2 | h2 | h2 | h2 <;> exact absurd h2 (by decide)
  · exact intRender_not_mem d.1 c (by tauto) h
  · exact intRender_not_mem d.2 c (by tauto) h

theorem parseSeg_render (a b : Int) :
    parseSeg (intRender a ++ ',' :: intRender b) = some [a, b] := by
  rw [parseSeg]
  have hsplit : pySplit (intRender a ++ ',' :: intRender b) [',']
      = [intRender a, intRender b] := by
    have h1 : intRender a ++ ',' :: intRender b
        = intRender a ++ ([','] ++ intRender b) := by simp
    rw [h1, ← List.append_assoc,
      pySplit_cons ',' [] (intRender b) (intRender a)
        (intRender_not_mem a ',' (by decide)),
      pySplit_single ',' [] (intRender b) (intRender_not_mem b ',' (by decide))]
  rw [hsplit]
  simp only [List.mapM_cons, List.mapM_nil]
  rw [stripSp_of_no_sp _ (intRender_not_mem a ' ' (by decide)),
    stripSp_of_no_sp _ (intRender_not_mem b ' ' (by decide)),
    parseInt_intRender, parseInt_intRender]
  rfl

theorem mapM_map_some {α β γ : Type} (f : α → Option γ) (g : β → α) (h2 : β → γ)
    (l : List β) (hp : ∀ b ∈ l, f (g b) = some (h2 b)) :
    (l.map g).mapM f = some (l.map h2) := by
  induction l with
  | nil => rfl
  | cons b rest ih =>
    simp only [List.map_cons, List.mapM_cons, hp b (List.mem_cons_self b rest),
      ih (fun b2 hb2 => hp b2 (List.mem_cons_of_mem b hb2))]
    rfl

theorem parseTuple_paren (items : List (List Char)) (k : Nat) (hne : items ≠ [])
    (hitems : ∀ p ∈ items, ')' ∉ p) :
    parseTuple (('(' :: (joinSep (')' :: ',' :: '(' :: []) items ++ [')']))
        ++ List.replicate k ' ')
      = items.mapM parseSeg := by
  have hstrip : rstripSp (('(' :: (joinSep (')' :: ',' :: '(' :: []) items ++ [')']))
      ++ List.replicate k ' ')
      = '(' :: (joinSep (')' :: ',' :: '(' :: []) items ++ [')']) := by
    apply rstripSp_of_ends _ k (by simp)
    rw [show ('(' :: (joinSep (')' :: ',' :: '(' :: []) items ++ [')']))
        = ('(' :: joinSep (')' :: ',' :: '(' :: []) items) ++ [')'] by simp,
      List.getLast?_concat]
    simp
  simp only [parseTuple]
  rw [hstrip]
  rw [if_pos (show ('(' :: (joinSep (')' :: ',' :: '(' :: []) items ++ [')'])).head?
    = some '(' from rfl)]
  rw [if_pos (show ('(' :: (joinSep (')' :: ',' :: '(' :: []) items ++ [')'])).getLast?
      = some ')' by
    rw [show ('(' :: (joinSep (')' :: ',' :: '(' :: []) items ++ [')']))
        = ('(' :: joinSep (')' :: ',' :: '(' :: []) items) ++ [')'] by simp,
      List.getLast?_concat])]
  rw [show (('(' :: (joinSep (')' :: ',' :: '(' :: []) items ++ [')'])).drop 1)
    = joinSep (')' :: ',' :: '(' :: []) items ++ [')'] from rfl]
  rw [List.dropLast_concat]
  rw [pySplit_joinSep ')' (',' :: '(' :: []) items hitems hne]

theorem strToDim_render (dims : List (Int × Int)) (hne : dims ≠ []) (k : Nat) :
    strToDim (dimStrOf dims ++ List.replicate k ' ')
      = some (dims.map (fun d => [d.1, d.2])) := by
  rw [strToDim, dimStrOf,
    pyReplace_joinSep_tail ' ' 'x' [' '] [','] (by decide) (dims.map dimPairStr)
      (List.replicate k ' ')
      (by
        intro p hp
        rw [List.mem_map] at hp
        obtain ⟨d, hd, rfl⟩ := hp
        exact dimPairStr_not_mem d 'x' (by tauto))
      (by
        intro c0 hc0
        cases k with
        | zero => simp at hc0
        | succ k2 =>
          rw [List.replicate_succ, List.head?_cons, Option.some.injEq] at hc0
          rw [← hc0]
          decide)
      (findSub_none_pair ' ' 'x' [' '] (List.replicate k ' ') (by decide)
        (by
          intro hmem
          have := List.eq_of_mem_replicate hmem
          exact absurd this (by decide)))]
  have h1 : dims.map dimPairStr
      = (dims.map (fun d => intRender d.1 ++ ',' :: intRender d.2)).map
          (fun s => '(' :: (s ++ [')'])) := by
    rw [List.map_map]
    apply map_congr_mem
    intro d _
    simp [Function.comp, dimPairStr]
  rw [h1, joinSep_parens [','] _ (by simpa using hne),
    show (')' :: ([','] ++ ['('])) = (')' :: ',' :: '(' :: []) from rfl,
    parseTuple_paren (dims.map (fun d => intRender d.1 ++ ',' :: intRender d.2)) k
      (by simpa using hne)
      (by
        intro p hp
        rw [List.mem_map] at hp
        obtain ⟨d, hd, rfl⟩ := hp
        intro hmem
        rcases List.mem_append.mp hmem with h2 | h2
        · exact intRender_not_mem d.1 ')' (by tauto) h2
        · rcases List.mem_cons.mp h2 with h3 | h3
          · exact absurd h3 (by decide)
          · exact intRender_not_mem d.2 ')' (by tauto) h3)]
  exact mapM_map_some parseSeg (fun d => intRender d.1 ++ ',' :: intRender d.2)
    (fun d => [d.1, d.2]) dims (fun d _ => parseSeg_render d.1 d.2)

theorem dimStr_no_nl (dims : List (Int × Int)) : '\n' ∉ dimStrOf dims ++ [' '] := by
  intro hmem
  rcases List.mem_append.mp hmem with h | h
  · rw [dimStrOf] at h
    rcases mem_joinSep _ _ _ h with h1 | ⟨p, hp, hcp⟩
    · exact absurd h1 (by decide)
    · rw [List.mem_map] at hp
      obtain ⟨d, hd, rfl⟩ := hp
      exact dimPairStr_not_mem d '\n' (by tauto) hcp
  · simp at h

theorem foldl_mul_int (l : List Nat) : ∀ (init : Int),
    (l.map (fun (e : Nat) => (e : Int))).foldl (· * ·) init = init * (prodL l : Int) := by
  induction l with
  | nil =>
    intro init
    show init = init * ((1 : Nat) : Int)
    simp
  | cons e rest ih =>
    intro init
    show (rest.map (fun (e : Nat) => (e : Int))).foldl (· * ·) (init * (e : Int))
      = init * ((e * prodL rest : Nat) : Int)
    rw [ih (init * (e : Int))]
    push_cast
    ring

-- ## Body pipeline

theorem toks_paren (l : List (List Char × List Char)) :
    l.map tokOf = (l.map (fun p => p.1 ++ ',' :: p.2)).map (fun s => '(' :: (s ++ [')'])) := by
  rw [List.map_map]
  apply map_congr_mem
  intro p _
  simp [Function.comp, tokOf, tokStr]

theorem joinSep_toks (l : List (List Char × List Char)) (hne : l ≠ []) :
    joinSep [' '] (l.map tokOf)
      = '(' :: (joinSep (')' :: ' ' :: '(' :: [])
          (l.map (fun p => p.1 ++ ',' :: p.2)) ++ [')']) := by
  rw [toks_paren, joinSep_parens [' '] _ (by simpa using hne)]
  rfl

theorem parseEntry_interior (p : List Char × List Char) (hre : numOk p.1 = true)
    (him : numOk p.2 = true) : parseEntry (p.1 ++ ',' :: p.2) = some p := by
  have hsplit : pySplit (p.1 ++ ',' :: p.2) [','] = [p.1, p.2] := by
    have h1 : p.1 ++ ',' :: p.2 = p.1 ++ ([','] ++ p.2) := by simp
    rw [h1, ← List.append_assoc,
      pySplit_cons ',' [] p.2 p.1 (fun hm => (numOk_mem_ne p.1 hre ',' hm).2.2.1 rfl),
      pySplit_single ',' [] p.2 (fun hm => (numOk_mem_ne p.2 him ',' hm).2.2.1 rfl)]
  simp only [parseEntry, hsplit, hre, him, Bool.and_self, if_true]

theorem mapM_entries (l : List (List Char × List Char))
    (h : ∀ p ∈ l, numOk p.1 = true ∧ numOk p.2 = true) :
    ((l.map (fun p => p.1 ++ ',' :: p.2)).mapM parseEntry) = some l := by
  apply mapM_some_of_map
  intro p hp
  exact parseEntry_interior p (h p hp).1 (h p hp).2

theorem interior_no_rp (p : List Char × List Char) (hre : numOk p.1 = true)
    (him : numOk p.2 = true) : ')' ∉ p.1 ++ ',' :: p.2 := by
  intro hmem
  rcases List.mem_append.mp hmem with h | h
  · exact (numOk_mem_ne p.1 hre ')' h).2.1 rfl
  · rcases List.mem_cons.mp h with h2 | h2
    · exact absurd h2 (by decide)
    · exact (numOk_mem_ne p.2 him ')' h2).2.1 rfl

theorem take_len_append {α : Type} (a b : List α) : (a ++ b).take a.length = a := by
  induction a with
  | nil => rfl
  | cons x a2 ih => simp [ih]

theorem drop_len_append {α : Type} (a b : List α) : (a ++ b).drop a.length = b := by
  induction a with
  | nil => rfl
  | cons x a2 ih => simp [ih]

theorem slice33_wrap (core : List Char) :
    slice33 ('[' :: ' ' :: '(' :: (core ++ [')', ' ', ']'])) = core := by
  rw [slice33,
    show ('[' :: ' ' :: '(' :: (core ++ [')', ' ', ']'])).drop 3
      = core ++ [')', ' ', ']'] from rfl,
    show ('[' :: ' ' :: '(' :: (core ++ [')', ' ', ']'])).length = core.length + 6 by
      simp only [List.length_cons, List.length_append, List.length_nil],
    show core.length + 6 - 6 = core.length by omega]
  exact take_len_append core [')', ' ', ']']

theorem pyReplace_wrap2 (t : List Char) (h : leadsWith ('\n' :: ' ' :: []) t = false) :
    pyReplace ('[' :: ' ' :: t) (' ' :: '\n' :: ' ' :: []) []
      = '[' :: ' ' :: pyReplace t (' ' :: '\n' :: ' ' :: []) [] := by
  show replGo ' ' ('\n' :: ' ' :: []) [] (t.length + 2) ('[' :: ' ' :: t) = _
  rw [replGo_cons_ne ' ' ('\n' :: ' ' :: []) [] '[' (' ' :: t) (t.length + 1) (by decide),
    replGo_cons_safe ' ' '\n' [' '] [] ' ' t t.length h]
  rfl

theorem leadsWith_nlsp_false (R : List (List Char)) (tl : List Char)
    (hnl : ∀ p ∈ R, '\n' ∉ p) (hne : ∀ p ∈ R, p ≠ [])
    (htl : ∀ c0, tl.head? = some c0 → c0 ≠ '\n') :
    leadsWith ('\n' :: ' ' :: [])
      (joinSep (' ' :: '\n' :: ' ' :: ' ' :: []) R ++ tl) = false := by
  apply leadsWith_false_of_head_ne
  intro c0 hc0
  cases R with
  | nil =>
    rw [show joinSep (' ' :: '\n' :: ' ' :: ' ' :: []) ([] : List (List Char))
      = [] from rfl, List.nil_append] at hc0
    exact htl c0 hc0
  | cons r0 rest =>
    have hr0 : r0 ≠ [] := hne r0 (List.mem_cons_self r0 rest)
    have hJne : joinSep (' ' :: '\n' :: ' ' :: ' ' :: []) (r0 :: rest) ≠ [] :=
      joinSep_ne_nil_of_head _ r0 rest hr0
    rw [List.head?_append_of_ne_nil _ hJne] at hc0
    exact joinSep_head_ne_nl ('\n' :: ' ' :: ' ' :: []) (r0 :: rest) hnl c0 hc0

theorem pyReplace_wrap_rows (R : List (List Char)) (hnl : ∀ p ∈ R, '\n' ∉ p)
    (hne : ∀ p ∈ R, p ≠ []) :
    pyReplace ('[' :: ' ' :: (joinSep (' ' :: '\n' :: ' ' :: ' ' :: []) R
        ++ (' ' :: ']' :: '\n' :: '\n' :: [])))
      (' ' :: '\n' :: ' ' :: []) []
      = '[' :: ' ' :: (joinSep [' '] R ++ (' ' :: ']' :: '\n' :: '\n' :: [])) := by
  rw [pyReplace_wrap2 _ (leadsWith_nlsp_false R (' ' :: ']' :: '\n' :: '\n' :: []) hnl hne
      (by
        intro c0 hc0
        rw [List.head?_cons, Option.some.injEq] at hc0
        rw [← hc0]
        decide)),
    pyReplace_nlsep_tail R (' ' :: ']' :: '\n' :: '\n' :: []) hnl hne
      (by
        intro c0 hc0
        rw [List.head?_cons, Option.some.injEq] at hc0
        rw [← hc0]
        decide)
      (by decide)]

/-- The body normalisation and token parse of `_blitz2numpy`, applied to a
data string whose `" \n "`-replacement collapses to blank-joined tokens. -/
theorem body_pipeline (x : Nd) (shape : List Nat) (hsh : shape ≠ [])
    (hext : ∀ e ∈ shape, 1 ≤ e) (hwf : WF x shape = true)
    (datastr : List Char)
    (hrep : pyReplace ('[' :: ' ' :: (datastr ++ (' ' :: ']' :: '\n' :: '\n' :: [])))
        (' ' :: '\n' :: ' ' :: []) []
      = '[' :: ' ' :: (joinSep [' '] ((ents x).map tokOf)
          ++ (' ' :: ']' :: '\n' :: '\n' :: []))) :
    ((pySplit (slice33 (rstripNl (pyReplace
        ('[' :: ' ' :: (datastr ++ (' ' :: ']' :: '\n' :: '\n' :: [])))
        (' ' :: '\n' :: ' ' :: []) [])))
      (')' :: ' ' :: '(' :: [])).mapM parseEntry) = some (ents x) := by
  rw [hrep]
  have hne := ents_ne_nil shape x hext hwf
  rw [joinSep_toks (ents x) hne]
  have hshape : ('[' :: ' ' :: (('(' :: (joinSep (')' :: ' ' :: '(' :: [])
        ((ents x).map (fun p => p.1 ++ ',' :: p.2)) ++ [')']))
      ++ (' ' :: ']' :: '\n' :: '\n' :: [])))
      = ('[' :: ' ' :: '(' :: (joinSep (')' :: ' ' :: '(' :: [])
          ((ents x).map (fun p => p.1 ++ ',' :: p.2)) ++ [')', ' ', ']']))
        ++ List.replicate 2 '\n' := by
    simp [List.replicate]
  rw [hshape, rstripNl_of_ends _ 2 (by simp)
    (by
      rw [show ('[' :: ' ' :: '(' :: (joinSep (')' :: ' ' :: '(' :: [])
            ((ents x).map (fun p => p.1 ++ ',' :: p.2)) ++ [')', ' ', ']']))
          = ('[' :: ' ' :: '(' :: (joinSep (')' :: ' ' :: '(' :: [])
            ((ents x).map (fun p => p.1 ++ ',' :: p.2)) ++ [')', ' '])) ++ [']'] by simp,
        List.getLast?_concat]
      simp),
    slice33_wrap,
    pySplit_joinSep ')' (' ' :: '(' :: []) ((ents x).map (fun p => p.1 ++ ',' :: p.2))
      (by
        intro p hp
        rw [List.mem_map] at hp
        obtain ⟨q, hq, rfl⟩ := hp
        have hnum := ents_numOk shape x hwf q hq
        exact interior_no_rp q hnum.1 hnum.2)
      (by simpa using hne)]
  exact mapM_entries (ents x) (ents_numOk shape x hwf)

-- ## Reshape round-trip

theorem chunksN_flatten {α : Type} (sz : Nat) : ∀ (bs : List (List α)),
    (∀ b ∈ bs, b.length = sz) → chunksN bs.length sz bs.flatten = bs := by
  intro bs
  induction bs with
  | nil => intro _; rfl
  | cons b r ih =>
    intro h
    show (b ++ r.flatten).take sz :: chunksN r.length sz ((b ++ r.flatten).drop sz)
      = b :: r
    have hb : b.length = sz := h b (List.mem_cons_self b r)
    rw [show (b ++ r.flatten).take sz = b by
        rw [← hb]; exact take_len_append b r.flatten,
      show (b ++ r.flatten).drop sz = r.flatten by
        rw [← hb]; exact drop_len_append b r.flatten,
      ih (fun b2 hb2 => h b2 (List.mem_cons_of_mem b hb2))]

theorem entsL_map_C : ∀ cells : List Nd, WFl cells [] = true →
    (entsL cells).map (fun p => Nd.C p.1 p.2) = cells := by
  intro cells
  induction cells with
  | nil => intro _; rfl
  | cons c cs ih =>
    intro h
    have h2 : (WF c [] && WFl cs []) = true := h
    rw [Bool.and_eq_true] at h2
    cases c with
    | A xs => exact nomatch h2.1
    | C re im =>
      show ((re, im) :: entsL cs).map (fun p => Nd.C p.1 p.2) = Nd.C re im :: cs
      rw [List.map_cons, ih h2.2]

theorem npReshape_ents : ∀ (dims : List Nat) (x : Nd), dims ≠ [] → WF x dims = true →
    npReshape (ents x) dims = some x := by
  intro dims
  induction dims with
  | nil => intro x h; exact absurd rfl h
  | cons e rest ih =>
    intro x _ h
    cases x with
    | C re im => exact nomatch h
    | A xs =>
      have h2 : ((xs.length == e) && WFl xs rest) = true := h
      rw [Bool.and_eq_true, beq_iff_eq] at h2
      cases rest with
      | nil =>
        show (if (entsL xs).length = e then
          some (Nd.A ((entsL xs).map (fun p => Nd.C p.1 p.2))) else none)
          = some (Nd.A xs)
        have hlen : (entsL xs).length = e := by
          have := ents_length [e] (.A xs) h
          rw [show prodL [e] = e * 1 from rfl, Nat.mul_one] at this
          exact this
        rw [if_pos hlen, entsL_map_C xs h2.2]
      | cons e2 rest2 =>
        show (if (entsL xs).length = e * prodL (e2 :: rest2) then
            ((chunksN e (prodL (e2 :: rest2)) (entsL xs)).mapM
              (fun c => npReshapeF (e2 :: rest2).length c (e2 :: rest2))).map Nd.A
          else none) = some (Nd.A xs)
        have hlen : (entsL xs).length = e * prodL (e2 :: rest2) := by
          have := ents_length (e :: e2 :: rest2) (.A xs) h
          exact this
        rw [if_pos hlen]
        have hchunks : chunksN e (prodL (e2 :: rest2)) (entsL xs) = xs.map ents := by
          rw [entsL_eq_flatten, ← h2.1,
            show xs.length = (xs.map ents).length by simp]
          apply chunksN_flatten
          intro b hb
          rw [List.mem_map] at hb
          obtain ⟨y, hy, rfl⟩ := hb
          exact ents_length (e2 :: rest2) y (WFl_mem (e2 :: rest2) xs h2.2 y hy)
        rw [hchunks,
          mapM_some_of_map (fun c => npReshapeF (e2 :: rest2).length c (e2 :: rest2))
            ents xs
            (fun y hy => ih y (by simp) (WFl_mem (e2 :: rest2) xs h2.2 y hy))]
        rfl

-- ## Decode of encode

theorem toks_no_nl (l : List (List Char × List Char))
    (h : ∀ p ∈ l, numOk p.1 = true ∧ numOk p.2 = true) :
    '\n' ∉ joinSep [' '] (l.map tokOf) := by
  intro hmem
  rcases mem_joinSep _ _ _ hmem with h1 | ⟨p, hp, hcp⟩
  · exact absurd h1 (by decide)
  · rw [List.mem_map] at hp
    obtain ⟨q, hq, rfl⟩ := hp
    exact tokStr_no_nl q.1 q.2 (h q hq).1 (h q hq).2 hcp

theorem mapM_extents (shape : List Nat) :
    (shape.map (fun (e : Nat) => [(0 : Int), (e : Int) - 1])).mapM extentOf
      = some (shape.map (fun (e : Nat) => (e : Int))) := by
  apply mapM_map_some
  intro e _
  show some ((e : Int) - 1 - 0 + 1) = some ((e : Int))
  exact congrArg some (by omega)

/-- Decoding the encoder's template succeeds whenever the `" \n "`-replacement
of the framed data string collapses to the blank-joined token list of the
array's entries. -/
theorem decode_encode_generic (x : Nd) (shape : List Nat) (datastr : List Char)
    (hsh : shape ≠ []) (hext : ∀ e ∈ shape, 1 ≤ e) (hwf : WF x shape = true)
    (hrep : pyReplace ('[' :: ' ' :: (datastr ++ (' ' :: ']' :: '\n' :: '\n' :: [])))
        (' ' :: '\n' :: ' ' :: []) []
      = '[' :: ' ' :: (joinSep [' '] ((ents x).map tokOf)
        ++ (' ' :: ']' :: '\n' :: '\n' :: []))) :
    blitz2numpy (dimStrOf (shape.map (fun (e : Nat) => ((0 : Int), (e : Int) - 1)))
        ++ (' ' :: '\n' :: '[' :: ' ' :: []) ++ datastr
        ++ (' ' :: ']' :: '\n' :: '\n' :: []))
      = some x := by
  have hsf : splitFirstNl (dimStrOf (shape.map (fun (e : Nat) => ((0 : Int), (e : Int) - 1)))
      ++ (' ' :: '\n' :: '[' :: ' ' :: []) ++ datastr ++ (' ' :: ']' :: '\n' :: '\n' :: []))
      = some (dimStrOf (shape.map (fun (e : Nat) => ((0 : Int), (e : Int) - 1))) ++ [' '],
          '[' :: ' ' :: (datastr ++ (' ' :: ']' :: '\n' :: '\n' :: []))) := by
    rw [show dimStrOf (shape.map (fun (e : Nat) => ((0 : Int), (e : Int) - 1)))
        ++ (' ' :: '\n' :: '[' :: ' ' :: []) ++ datastr ++ (' ' :: ']' :: '\n' :: '\n' :: [])
        = (dimStrOf (shape.map (fun (e : Nat) => ((0 : Int), (e : Int) - 1))) ++ [' '])
          ++ '\n' :: ('[' :: ' ' :: (datastr ++ (' ' :: ']' :: '\n' :: '\n' :: []))) by
      simp]
    exact splitFirstNl_append _ _ (dimStr_no_nl _)
  have hsd : strToDim (dimStrOf (shape.map (fun (e : Nat) => ((0 : Int), (e : Int) - 1)))
        ++ [' '])
      = some (shape.map (fun (e : Nat) => [(0 : Int), (e : Int) - 1])) := by
    rw [show ([' '] : List Char) = List.replicate 1 ' ' from rfl,
      strToDim_render _ (by simpa using hsh) 1, List.map_map]
    apply congrArg some
    apply map_congr_mem
    intro e _
    rfl
  simp only [blitz2numpy, hsf, hsd, mapM_extents shape]
  rw [if_neg (show ¬ (shape.map (fun (e : Nat) => (e : Int)) = []) by simpa using hsh)]
  rw [foldl_mul_int shape 1, one_mul]
  rw [if_neg (show ¬ ((prodL shape : Nat) : Int) < 0 by omega)]
  simp only [body_pipeline x shape hsh hext hwf datastr hrep]
  rw [ents_length shape x hwf]
  rw [if_neg (show ¬ ((prodL shape : Nat) : Int) > ((prodL shape : Nat) : Int) by omega)]
  rw [show ((prodL shape : Nat) : Int).toNat = prodL shape from Int.toNat_natCast _,
    Nat.sub_self, List.replicate_zero, List.append_nil]
  rw [npReshapeI]
  rw [if_pos (show (shape.map (fun (e : Nat) => (e : Int))).all (fun e => 0 ≤ e) = true by
    rw [List.all_eq_true]
    intro e he
    rw [List.mem_map] at he
    obtain ⟨e2, _, rfl⟩ := he
    simp)]
  rw [show (shape.map (fun (e : Nat) => (e : Int))).map Int.toNat = shape by
    rw [List.map_map]
    rw [map_congr_mem _ id shape (by
      intro e _
      simp [Function.comp])]
    exact List.map_id shape]
  exact npReshape_ents shape x hsh hwf

theorem joinSp_rows_toks (front : List Nat) (e : Nat) (x : Nd)
    (hwf : WF x (front ++ [e]) = true) (hext : ∀ t ∈ front ++ [e], 1 ≤ t) :
    joinSep [' '] ((rowsOf x (front.length + 1)).map data1D)
      = joinSep [' '] ((ents x).map tokOf) := by
  rw [map_congr_mem data1D (fun row => joinSep [' '] ((ents row).map tokOf)) _
      (fun row hrow => data1D_toks e row (rowsOf_WF front e x hwf row hrow)),
    joinSep_map_flatten [' '] (fun row => (ents row).map tokOf) _
      (fun row hrow => by
        simp only [ne_eq, List.map_eq_nil_iff]
        exact ents_ne_nil [e] row
          (by
            intro t ht
            rw [List.mem_singleton] at ht
            subst ht
            exact hext t (by simp))
          (rowsOf_WF front e x hwf row hrow)),
    flatten_map_map tokOf ents _]
  have h2 := ents_rows (front ++ [e]) x (by simp) hwf
  rw [show (front ++ [e]).length = front.length + 1 by simp] at h2
  rw [← h2]

theorem hrep_rows (x : Nd) (shape : List Nat) (hsh2 : 2 ≤ shape.length)
    (hext : ∀ e ∈ shape, 1 ≤ e) (hwf : WF x shape = true) :
    pyReplace ('[' :: ' ' :: (joinSep (' ' :: '\n' :: ' ' :: ' ' :: [])
          ((rowsOf x shape.length).map data1D)
        ++ (' ' :: ']' :: '\n' :: '\n' :: [])))
      (' ' :: '\n' :: ' ' :: []) []
      = '[' :: ' ' :: (joinSep [' '] ((ents x).map tokOf)
        ++ (' ' :: ']' :: '\n' :: '\n' :: [])) := by
  obtain ⟨front, t, rfl⟩ : ∃ front t, shape = front ++ [t] := by
    rcases List.eq_nil_or_concat shape with h | ⟨L, b, hLb⟩
    · rw [h] at hsh2; simp at hsh2
    · rw [List.concat_eq_append] at hLb
      exact ⟨L, b, hLb⟩
  have hlen : (front ++ [t]).length = front.length + 1 := by simp
  have hnl : ∀ p ∈ (rowsOf x (front ++ [t]).length).map data1D, '\n' ∉ p := by
    intro p hp
    rw [List.mem_map] at hp
    obtain ⟨row, hrow, rfl⟩ := hp
    rw [hlen] at hrow
    exact data1D_no_nl t row (rowsOf_WF front t x hwf row hrow)
  have hneR : ∀ p ∈ (rowsOf x (front ++ [t]).length).map data1D, p ≠ [] := by
    intro p hp
    rw [List.mem_map] at hp
    obtain ⟨row, hrow, rfl⟩ := hp
    rw [hlen] at hrow
    exact data1D_ne_nil t row (hext t (by simp)) (rowsOf_WF front t x hwf row hrow)
  rw [pyReplace_wrap_rows _ hnl hneR, hlen, joinSp_rows_toks front t x hwf hext]

/-- Round-trip of the io.py codec: decoding the encoding of any well-formed
dense complex array with positive extents recovers the array. -/
theorem blitz_roundtrip (shape : List Nat) (x : Nd) (hsh : shape ≠ [])
    (hext : ∀ e ∈ shape, 1 ≤ e) (hwf : WF x shape = true) :
    blitz2numpy (numpy2blitz x shape) = some x := by
  cases shape with
  | nil => exact absurd rfl hsh
  | cons e1 rest =>
    cases rest with
    | nil =>
      rw [show numpy2blitz x [e1]
          = dimStrOf ([e1].map (fun (e : Nat) => ((0 : Int), (e : Int) - 1)))
            ++ (' ' :: '\n' :: '[' :: ' ' :: []) ++ data1D x
            ++ (' ' :: ']' :: '\n' :: '\n' :: []) from rfl]
      apply decode_encode_generic x [e1] (data1D x) (by simp) hext hwf
      rw [data1D_toks e1 x hwf]
      apply pyReplace_of_findSub_none _ (by simp)
      rw [show ('[' :: ' ' :: (joinSep [' '] ((ents x).map tokOf)
            ++ (' ' :: ']' :: '\n' :: '\n' :: [])))
          = ('[' :: ' ' :: joinSep [' '] ((ents x).map tokOf))
            ++ (' ' :: ']' :: '\n' :: '\n' :: []) by simp]
      apply findSub_append_none ' ' '\n' [' '] (by decide)
      · intro hmem
        rcases List.mem_cons.mp hmem with h | h
        · exact absurd h (by decide)
        · rcases List.mem_cons.mp h with h2 | h2
          · exact absurd h2 (by decide)
          · exact toks_no_nl (ents x) (ents_numOk [e1] x hwf) h2
      · intro c0 hc0
        rw [List.head?_cons, Option.some.injEq] at hc0
        rw [← hc0]
        decide
      · decide
    | cons e2 rest2 =>
      cases rest2 with
      | nil =>
        rw [show numpy2blitz x [e1, e2]
            = dimStrOf ([e1, e2].map (fun (e : Nat) => ((0 : Int), (e : Int) - 1)))
              ++ (' ' :: '\n' :: '[' :: ' ' :: []) ++ data2D x
              ++ (' ' :: ']' :: '\n' :: '\n' :: []) from rfl]
        apply decode_encode_generic x [e1, e2] (data2D x) (by simp) hext hwf
        rw [data2D_rows e1 e2 x hwf]
        exact hrep_rows x [e1, e2] (by simp) hext hwf
      | cons e3 rest3 =>
        have henc : numpy2blitz x (e1 :: e2 :: e3 :: rest3)
            = dimStrOf ((e1 :: e2 :: e3 :: rest3).map
                (fun (e : Nat) => ((0 : Int), (e : Int) - 1)))
              ++ (' ' :: '\n' :: '[' :: ' ' :: [])
              ++ dataMDio x ((e1 :: e2 :: e3 :: rest3).map
                (fun (e : Nat) => ((0 : Int), (e : Int) - 1)))
              ++ (' ' :: ']' :: '\n' :: '\n' :: []) := by
          simp only [numpy2blitz]
          rw [if_neg (by simp only [List.length_map, List.length_cons]; omega),
            if_neg (by simp only [List.length_map, List.length_cons]; omega),
            if_pos (by simp only [List.length_map, List.length_cons]; omega)]
        rw [henc]
        apply decode_encode_generic x (e1 :: e2 :: e3 :: rest3)
          (dataMDio x ((e1 :: e2 :: e3 :: rest3).map
            (fun (e : Nat) => ((0 : Int), (e : Int) - 1)))) (by simp) hext hwf
        rw [dataMDio_rows rest3.length (e1 :: e2 :: e3 :: rest3) x
          (by simp only [List.length_cons]) hext hwf]
        exact hrep_rows x (e1 :: e2 :: e3 :: rest3)
          (by simp only [List.length_cons]; omega) hext hwf

-- ## Pairing of blocks with times (io.py `load_cppqed` handlers)

/-- `ev_handler`'s row parse: split on tabs, then each part on whitespace;
the float strings themselves stand for the parsed values. -/
def parseEvRow (s : List Char) : List (List Char) :=
  ((pySplit s ['\t']).map pySplitWs).flatten

/-- One handler dispatch of `load_cppqed`: a row appends its parsed fields
to `evs`; a block reads `t = evs[-1][0]` (IndexError on an empty list or an
empty row is `none`), decodes the block text and appends the pair. -/
def loadStep (st : List (List (List Char)) × List (Nd × List Char)) :
    Ev → Option (List (List (List Char)) × List (Nd × List Char))
  | .row s => some (st.1 ++ [parseEvRow s], st.2)
  | .blk s =>
    match st.1.getLast? with
    | none => none
    | some ev =>
      match ev.head? with
      | none => none
      | some t =>
        match blitz2numpy s with
        | none => none
        | some data => some (st.1, st.2 ++ [(data, t)])

/-- The event fold of `load_cppqed` over the scanner's dispatches. -/
def loadPairs (events : List Ev) :
    Option (List (List (List Char)) × List (Nd × List Char)) :=
  events.foldlM loadStep ([], [])

/-- The spec's pairing rule, stated on its own terms: each block is expected
to carry the first numeric field of the most recently dispatched numeric
row (`none` when there is none). -/
def specTimes : Option (List Char) → List Ev → List (Option (List Char))
  | _, [] => []
  | _, .row s :: rest => specTimes (parseEvRow s).head? rest
  | cur, .blk _ :: rest => cur :: specTimes cur rest

theorem loadGo_times : ∀ (events : List Ev) (evs0 : List (List (List Char)))
    (svs0 : List (Nd × List Char))
    (res : List (List (List Char)) × List (Nd × List Char)),
    List.foldlM loadStep (evs0, svs0) events = some res →
    res.2.map (fun p => some p.2)
      = svs0.map (fun p => some p.2)
        ++ specTimes (evs0.getLast?.bind List.head?) events := by
  intro events
  induction events with
  | nil =>
    intro evs0 svs0 res h
    have h2 : some (evs0, svs0) = some res := h
    have h3 : (evs0, svs0) = res := by injection h2
    subst h3
    rw [show specTimes (evs0.getLast?.bind List.head?) [] = [] from rfl, List.append_nil]
  | cons ev rest ih =>
    intro evs0 svs0 res h
    cases ev with
    | row s =>
      rw [List.foldlM_cons,
        show loadStep (evs0, svs0) (.row s) = some (evs0 ++ [parseEvRow s], svs0)
          from rfl] at h
      have h4 : List.foldlM loadStep (evs0 ++ [parseEvRow s], svs0) rest = some res := h
      have := ih (evs0 ++ [parseEvRow s]) svs0 res h4
      rw [List.getLast?_concat] at this
      rw [this]
      rfl
    | blk s =>
      rw [List.foldlM_cons] at h
      cases hLast : evs0.getLast? with
      | none =>
        simp only [loadStep, hLast] at h
        simp at h
      | some ev0 =>
        cases hHead : ev0.head? with
        | none =>
          simp only [loadStep, hLast, hHead] at h
          simp at h
        | some t =>
          cases hDec : blitz2numpy s with
          | none =>
            simp only [loadStep, hLast, hHead, hDec] at h
            simp at h
          | some data =>
            simp only [loadStep, hLast, hHead, hDec, Option.some_bind] at h
            have hih := ih evs0 (svs0 ++ [(data, t)]) res h
            rw [hLast] at hih
            rw [hih, List.map_append]
            rw [show specTimes ((some ev0).bind List.head?) (Ev.blk s :: rest)
              = ((some ev0).bind List.head?)
                :: specTimes ((some ev0).bind List.head?) rest from rfl]
            rw [show ((some ev0).bind List.head? : Option (List Char)) = some t from hHead]
            simp

-- ## Line-based splitter (io.py `_parse_cppqed` with `split_cppqed` handlers)

/-- Python `strip()` on a line (all whitespace removed from both ends). -/
def stripWsAll (s : List Char) : List Char :=
  ((s.dropWhile isWs).reverse.dropWhile isWs).reverse

/-- Python `strip(" \n")`. -/
def stripSpNl (s : List Char) : List Char :=
  ((s.dropWhile (fun c => c == ' ' || c == '\n')).reverse.dropWhile
    (fun c => c == ' ' || c == '\n')).reverse

/-- The header loop of `_parse_cppqed`: lines are consumed while blank after
`strip(" \n")` or starting with `'#'`; `f.next()` on an exhausted file
raises StopIteration out of the function (`none`). Returns the header
lines, the first data line and the remaining lines. -/
def headLines : List (List Char) → List (List Char)
    → Option (List (List Char) × List Char × List (List Char))
  | [], _ => none
  | l :: rest, acc =>
    if !(stripSpNl l).isEmpty && !(leadsWith ['#'] l) then some (acc.reverse, l, rest)
    else headLines rest (l :: acc)

/-- The inner block-collection loop: append lines until one ends with
`" ]\n"`; StopIteration on an exhausted file is `none`. -/
def collectBlock : List (List Char) → List Char → Option (List Char × List (List Char))
  | [], _ => none
  | l :: rest, acc =>
    if endsWithL l (' ' :: ']' :: '\n' :: []) then some (acc ++ l, rest)
    else collectBlock rest (acc ++ l)

/-- Ways `split_cppqed` can raise out of the data loop: the handlers'
ValueError, or an uncaught StopIteration from a truncated block. -/
inductive PErr where
  | valueError : PErr
  | stopIteration : PErr
deriving DecidableEq

/-- `ev[:ev.find(" ")]` — Python `find` returning `-1` makes the slice drop
the final character. -/
def tfield (ev : List Char) : List Char :=
  match findSub ev [' '] with
  | some i => ev.take i
  | none => ev.dropLast

/-- State of `split_cppqed`: raw rows dispatched so far and the timestamps
of the state-vector files written so far. -/
structure SplitSt where
  evs : List (List Char)
  writes : List (List Char)
deriving DecidableEq

/-- The data loop of `_parse_cppqed` with `split_cppqed`'s handlers:
dispatch the current line, then fetch the next one (StopIteration here ends
the loop normally). Any fuel above the line count behaves like the
source. -/
def splitLoop : Nat → List Char → List (List Char) → SplitSt → SplitSt × Option PErr
  | 0, _, _, st => (st, some PErr.stopIteration)
  | f + 1, line, rest, st =>
    if (stripWsAll line).isEmpty then
      match rest with
      | [] => (st, none)
      | l2 :: r2 => splitLoop f l2 r2 st
    else if leadsWith ('#' :: ' ' :: 'B' :: 'A' :: 'S' :: 'I' :: 'S' :: []) line then
      match collectBlock rest [] with
      | none => (st, some PErr.stopIteration)
      | some (_, rest2) =>
        match st.evs.getLast? with
        | none => (st, some PErr.valueError)
        | some ev =>
          match rest2 with
          | [] => (⟨st.evs, st.writes ++ [tfield ev]⟩, none)
          | l2 :: r2 => splitLoop f l2 r2 ⟨st.evs, st.writes ++ [tfield ev]⟩
    else if leadsWith ['#'] line then
      match rest with
      | [] => (st, none)
      | l2 :: r2 => splitLoop f l2 r2 st
    else if leadsWith ['('] line then
      match collectBlock rest line with
      | none => (st, some PErr.stopIteration)
      | some (_, rest2) =>
        match st.evs.getLast? with
        | none => (st, some PErr.valueError)
        | some ev =>
          match rest2 with
          | [] => (⟨st.evs, st.writes ++ [tfield ev]⟩, none)
          | l2 :: r2 => splitLoop f l2 r2 ⟨st.evs, st.writes ++ [tfield ev]⟩
    else
      match rest with
      | [] => (⟨st.evs ++ [line], st.writes⟩, none)
      | l2 :: r2 => splitLoop f l2 r2 ⟨st.evs ++ [line], st.writes⟩

/-- `split_cppqed`'s parse of a file given as its list of lines. -/
def splitCpq (lines : List (List Char)) : SplitSt × Option PErr :=
  match headLines lines [] with
  | none => (⟨[], []⟩, some PErr.stopIteration)
  | some (_, line, rest) => splitLoop (lines.length + 1) line rest ⟨[], []⟩

theorem mem_dropWhile_of_not {α : Type} (p : α → Bool) :
    ∀ (s : List α) (c : α), c ∈ s → p c = false → c ∈ s.dropWhile p := by
  intro s
  induction s with
  | nil => intro c hc; simp at hc
  | cons a r ih =>
    intro c hc hp
    by_cases hpa : p a = true
    · rw [List.dropWhile_cons_of_pos hpa]
      rcases List.mem_cons.mp hc with rfl | hc2
      · rw [hp] at hpa
        exact absurd hpa (by simp)
      · exact ih c hc2 hp
    · rw [List.dropWhile_cons_of_neg hpa]
      exact hc

theorem stripWsAll_ne_nil (s : List Char) (c : Char) (hc : c ∈ s) (hw : isWs c = false) :
    stripWsAll s ≠ [] := by
  intro habs
  rw [stripWsAll, List.reverse_eq_nil_iff, List.dropWhile_eq_nil_iff] at habs
  have h1 : c ∈ (s.dropWhile isWs).reverse := by
    rw [List.mem_reverse]
    exact mem_dropWhile_of_not isWs s c hc hw
  have := habs c h1
  rw [hw] at this
  exact absurd this (by simp)

theorem stripWsAll_isEmpty_false (s : List Char) (c : Char) (hc : c ∈ s)
    (hw : isWs c = false) : (stripWsAll s).isEmpty = false := by
  have hne := stripWsAll_ne_nil s c hc hw
  cases h : stripWsAll s with
  | nil => exact absurd h hne
  | cons a r => rfl

/-- `split_cppqed` on a file whose first data line opens an array block:
provided the block's lines are all present, the state-vector handler hits
its empty-`evs` check and raises ValueError with no file written. -/
theorem splitCpq_early_block (lines hdr : List (List Char)) (line : List Char)
    (rest : List (List Char)) (blk : List Char) (rest2 : List (List Char))
    (hhead : headLines lines [] = some (hdr, line, rest))
    (hpar : leadsWith ['('] line = true)
    (hcol : collectBlock rest line = some (blk, rest2)) :
    splitCpq lines = (⟨[], []⟩, some PErr.valueError) := by
  cases line with
  | nil => simp [leadsWith] at hpar
  | cons c0 lr =>
    have hc0 : c0 = '(' := by
      have hp2 := hpar
      rw [leadsWith_eq_guard, Bool.and_eq_true] at hp2
      exact (beq_iff_eq.mp hp2.1).symm
    subst hc0
    simp only [splitCpq, hhead]
    simp only [splitLoop]
    have hstripF : (stripWsAll ('(' :: lr)).isEmpty = false :=
      stripWsAll_isEmpty_false _ '(' (List.mem_cons_self _ _) (by decide)
    rw [if_neg (by rw [hstripF]; exact Bool.false_ne_true)]
    rw [if_neg (show ¬ leadsWith ('#' :: ' ' :: 'B' :: 'A' :: 'S' :: 'I' :: 'S' :: [])
        ('(' :: lr) = true by
      rw [leadsWith_eq_guard, show ('#' == '(') = false from rfl, Bool.false_and]
      exact Bool.false_ne_true)]
    rw [if_neg (show ¬ leadsWith ['#'] ('(' :: lr) = true by
      rw [leadsWith_eq_guard, show ('#' == '(') = false from rfl, Bool.false_and]
      exact Bool.false_ne_true)]
    rw [if_pos hpar]
    simp only [hcol, List.getLast?_nil]

-- ## Token-count behaviour of the decoder

theorem interiors_no_nl (l : List (List Char × List Char))
    (hnum : ∀ p ∈ l, numOk p.1 = true ∧ numOk p.2 = true) :
    '\n' ∉ joinSep (')' :: ' ' :: '(' :: []) (l.map (fun p => p.1 ++ ',' :: p.2)) := by
  intro hm
  rcases mem_joinSep _ _ _ hm with h | ⟨p, hp, hcp⟩
  · exact absurd h (by decide)
  · rw [List.mem_map] at hp
    obtain ⟨q, hq, rfl⟩ := hp
    rcases List.mem_append.mp hcp with h2 | h2
    · exact (numOk_mem_ne q.1 (hnum q hq).1 '\n' h2).2.2.2.2.1 rfl
    · rcases List.mem_cons.mp h2 with h3 | h3
      · exact absurd h3 (by decide)
      · exact (numOk_mem_ne q.2 (hnum q hq).2 '\n' h3).2.2.2.2.1 rfl

/-- The body pipeline on a bare (no trailing blank line) data string of
arbitrary tokens. -/
theorem tokens_pipeline_noNl (l : List (List Char × List Char)) (hne : l ≠ [])
    (hnum : ∀ p ∈ l, numOk p.1 = true ∧ numOk p.2 = true) :
    ((pySplit (slice33 (rstripNl (pyReplace
        ('[' :: ' ' :: (joinSep [' '] (l.map tokOf) ++ [' ', ']']))
        (' ' :: '\n' :: ' ' :: []) [])))
      (')' :: ' ' :: '(' :: [])).mapM parseEntry) = some l := by
  rw [joinSep_toks l hne]
  rw [show ('[' :: ' ' :: (('(' :: (joinSep (')' :: ' ' :: '(' :: [])
        (l.map (fun p => p.1 ++ ',' :: p.2)) ++ [')'])) ++ [' ', ']']))
      = '[' :: ' ' :: '(' :: (joinSep (')' :: ' ' :: '(' :: [])
        (l.map (fun p => p.1 ++ ',' :: p.2)) ++ [')', ' ', ']']) by simp]
  rw [pyReplace_absent ' ' '\n' [' '] [] (by decide) _
    (by
      intro hmem
      rcases List.mem_cons.mp hmem with h | h
      · exact absurd h (by decide)
      · rcases List.mem_cons.mp h with h2 | h2
        · exact absurd h2 (by decide)
        · rcases List.mem_cons.mp h2 with h3 | h3
          · exact absurd h3 (by decide)
          · rcases List.mem_append.mp h3 with h4 | h4
            · exact interiors_no_nl l hnum h4
            · simp at h4)]
  rw [rstripNl_no_nl _
    (by
      rw [show ('[' :: ' ' :: '(' :: (joinSep (')' :: ' ' :: '(' :: [])
            (l.map (fun p => p.1 ++ ',' :: p.2)) ++ [')', ' ', ']']))
          = ('[' :: ' ' :: '(' :: (joinSep (')' :: ' ' :: '(' :: [])
            (l.map (fun p => p.1 ++ ',' :: p.2)) ++ [')', ' '])) ++ [']'] by simp,
        List.getLast?_concat]
      simp)]
  rw [slice33_wrap,
    pySplit_joinSep ')' (' ' :: '(' :: []) (l.map (fun p => p.1 ++ ',' :: p.2))
      (by
        intro p hp
        rw [List.mem_map] at hp
        obtain ⟨q, hq, rfl⟩ := hp
        exact interior_no_rp q (hnum q hq).1 (hnum q hq).2)
      (by simpa using hne)]
  exact mapM_entries l hnum

/-- A rendered Blitz string with a dimension line for `shape` but an
arbitrary token list as the body. -/
def mkBlitz (shape : List Nat) (toks : List (List Char × List Char)) : List Char :=
  dimStrOf (shape.map (fun (e : Nat) => ((0 : Int), (e : Int) - 1)))
    ++ [' '] ++ '\n' :: ('[' :: ' ' :: (joinSep [' '] (toks.map tokOf) ++ [' ', ']']))

theorem chunksN_len {α : Type} (sz : Nat) : ∀ (e : Nat) (flat : List α),
    flat.length = e * sz → ∀ c ∈ chunksN e sz flat, c.length = sz := by
  intro e
  induction e with
  | zero => intro flat _ c hc; simp [chunksN] at hc
  | succ e2 ih =>
    intro flat hlen c hc
    have hge : sz ≤ flat.length := by
      rw [hlen, Nat.succ_mul]
      exact Nat.le_add_left sz (e2 * sz)
    rw [show chunksN (e2 + 1) sz flat
      = flat.take sz :: chunksN e2 sz (flat.drop sz) from rfl] at hc
    rcases List.mem_cons.mp hc with hc1 | hmem
    · rw [hc1, List.length_take]
      omega
    · exact ih (flat.drop sz)
        (by
          rw [List.length_drop, hlen, Nat.succ_mul]
          omega) c hmem

theorem npReshape_isSome : ∀ (dims : List Nat) (flat : List (List Char × List Char)),
    dims ≠ [] → flat.length = prodL dims → (npReshape flat dims).isSome = true := by
  intro dims
  induction dims with
  | nil => intro flat h; exact absurd rfl h
  | cons e rest ih =>
    intro flat _ hlen
    cases rest with
    | nil =>
      show (if flat.length = e then
        some (Nd.A (flat.map (fun p => Nd.C p.1 p.2))) else none).isSome = true
      rw [if_pos (by
        rw [hlen]
        show e * prodL [] = e
        exact Nat.mul_one e)]
      rfl
    | cons e2 rest2 =>
      show ((if flat.length = e * prodL (e2 :: rest2) then
          ((chunksN e (prodL (e2 :: rest2)) flat).mapM
            (fun c => npReshapeF (e2 :: rest2).length c (e2 :: rest2))).map Nd.A
        else none)).isSome = true
      rw [if_pos (show flat.length = e * prodL (e2 :: rest2) from hlen)]
      have hsome := mapM_isSome (fun c => npReshapeF (e2 :: rest2).length c (e2 :: rest2))
        (chunksN e (prodL (e2 :: rest2)) flat)
        (fun c hc => ih c (by simp) (chunksN_len (prodL (e2 :: rest2)) e flat hlen c hc))
      cases hm : (chunksN e (prodL (e2 :: rest2)) flat).mapM
          (fun c => npReshapeF (e2 :: rest2).length c (e2 :: rest2)) with
      | none => rw [hm] at hsome; simp at hsome
      | some xs => rfl

/-- The decoder on `mkBlitz`: everything up to the count check succeeds; the
result is `none` exactly on too many tokens, and otherwise a reshape of the
tokens padded with uninitialised entries. -/
theorem blitz_count_main (shape : List Nat) (toks : List (List Char × List Char))
    (hsh : shape ≠ []) (hne : toks ≠ [])
    (hnum : ∀ p ∈ toks, numOk p.1 = true ∧ numOk p.2 = true) :
    blitz2numpy (mkBlitz shape toks)
      = if ((toks.length : Int) > ((prodL shape : Nat) : Int)) then none
        else npReshapeI (toks ++ List.replicate (prodL shape - toks.length) uninitEntry)
          (shape.map (fun (e : Nat) => (e : Int))) := by
  have hsf : splitFirstNl (mkBlitz shape toks)
      = some (dimStrOf (shape.map (fun (e : Nat) => ((0 : Int), (e : Int) - 1))) ++ [' '],
          '[' :: ' ' :: (joinSep [' '] (toks.map tokOf) ++ [' ', ']'])) := by
    rw [show mkBlitz shape toks
        = (dimStrOf (shape.map (fun (e : Nat) => ((0 : Int), (e : Int) - 1))) ++ [' '])
          ++ '\n' :: ('[' :: ' ' :: (joinSep [' '] (toks.map tokOf) ++ [' ', ']'])) by
      rw [mkBlitz]]
    exact splitFirstNl_append _ _ (dimStr_no_nl _)
  have hsd : strToDim (dimStrOf (shape.map (fun (e : Nat) => ((0 : Int), (e : Int) - 1)))
        ++ [' '])
      = some (shape.map (fun (e : Nat) => [(0 : Int), (e : Int) - 1])) := by
    rw [show ([' '] : List Char) = List.replicate 1 ' ' from rfl,
      strToDim_render _ (by simpa using hsh) 1, List.map_map]
    apply congrArg some
    apply map_congr_mem
    intro e _
    rfl
  simp only [blitz2numpy, hsf, hsd, mapM_extents shape]
  rw [if_neg (show ¬ (shape.map (fun (e : Nat) => (e : Int)) = []) by simpa using hsh)]
  rw [foldl_mul_int shape 1, one_mul]
  rw [if_neg (show ¬ ((prodL shape : Nat) : Int) < 0 by omega)]
  simp only [tokens_pipeline_noNl toks hne hnum]
  rw [show ((prodL shape : Nat) : Int).toNat = prodL shape from Int.toNat_natCast _]

theorem npReshapeI_pad_isSome (shape : List Nat) (toks : List (List Char × List Char))
    (hsh : shape ≠ []) (hle : toks.length ≤ prodL shape) :
    (npReshapeI (toks ++ List.replicate (prodL shape - toks.length) uninitEntry)
      (shape.map (fun (e : Nat) => (e : Int)))).isSome = true := by
  rw [npReshapeI,
    if_pos (show (shape.map (fun (e : Nat) => (e : Int))).all (fun e => 0 ≤ e) = true by
      rw [List.all_eq_true]
      intro e he
      rw [List.mem_map] at he
      obtain ⟨e2, _, rfl⟩ := he
      simp),
    show (shape.map (fun (e : Nat) => (e : Int))).map Int.toNat = shape by
      rw [List.map_map]
      rw [map_congr_mem _ id shape (by
        intro e _
        simp [Function.comp])]
      exact List.map_id shape]
  apply npReshape_isSome shape _ hsh
  rw [List.length_append, List.length_replicate]
  omega

-- ## Token counting in the encoders

theorem countCh_append (c : Char) (a b : List Char) :
    countCh c (a ++ b) = countCh c a + countCh c b := List.countP_append _ _ _

theorem countCh_zero (c : Char) (s : List Char) (h : c ∉ s) : countCh c s = 0 := by
  unfold countCh
  rw [List.countP_eq_zero]
  intro a ha
  simp only [beq_eq_false_iff_ne, Bool.not_eq_true]
  exact fun habs => h (habs ▸ ha)

theorem countCh_joinSep (c : Char) (sep : List Char) (parts : List (List Char))
    (hsep : c ∉ sep) :
    countCh c (joinSep sep parts) = (parts.map (countCh c)).sum := by
  induction parts with
  | nil => rfl
  | cons x rest ih =>
    cases rest with
    | nil => simp [joinSep]
    | cons y ys =>
      rw [joinSep_cons2, countCh_append, countCh_append, countCh_zero c sep hsep, ih]
      simp

theorem countCh_tokOf (p : List Char × List Char) (hre : numOk p.1 = true)
    (him : numOk p.2 = true) : countCh '(' (tokOf p) = 1 := by
  rw [tokOf, tokStr]
  show countCh '(' ('(' :: (p.1 ++ ',' :: p.2 ++ [')'])) = 1
  unfold countCh
  rw [List.countP_cons]
  have h0 : List.countP (fun x => x == '(') (p.1 ++ ',' :: p.2 ++ [')']) = 0 := by
    rw [List.countP_eq_zero]
    intro a ha
    simp only [beq_eq_false_iff_ne, Bool.not_eq_true]
    intro habs
    subst habs
    rcases List.mem_append.mp ha with h1 | h1
    · rcases List.mem_append.mp h1 with h2 | h2
      · exact (numOk_mem_ne p.1 hre '(' h2).1 rfl
      · rcases List.mem_cons.mp h2 with h3 | h3
        · exact absurd h3 (by decide)
        · exact (numOk_mem_ne p.2 him '(' h3).1 rfl
    · simp at h1
  rw [h0]
  rfl

theorem sum_map_const {α : Type} (l : List α) (k : Nat) :
    (l.map (fun _ => k)).sum = l.length * k := by
  induction l with
  | nil => simp
  | cons a r ih =>
    simp [ih]
    ring

theorem getD_mem {α : Type} : ∀ (l : List α) (i : Nat) (d : α), i < l.length →
    l.getD i d ∈ l := by
  intro l
  induction l with
  | nil => intro i d h; simp at h
  | cons a r ih =>
    intro i d h
    cases i with
    | zero => exact List.mem_cons_self a r
    | succ i2 => exact List.mem_cons_of_mem a (ih i2 d (by simpa using h))

theorem rowsOf_length : ∀ (front : List Nat) (e : Nat) (x : Nd),
    WF x (front ++ [e]) = true →
    (rowsOf x (front.length + 1)).length = prodL front := by
  intro front
  induction front with
  | nil =>
    intro e x h
    rw [show ([] : List Nat).length + 1 = 1 from rfl, rowsOf_one]
    rfl
  | cons d front2 ihf =>
    intro e x h
    cases x with
    | C re im => exact nomatch h
    | A xs =>
      have h2 : ((xs.length == d) && WFl xs (front2 ++ [e])) = true := h
      rw [Bool.and_eq_true, beq_iff_eq] at h2
      rw [show (d :: front2).length + 1 = front2.length + 2 from rfl,
        show rowsOf (.A xs) (front2.length + 2) = rowsOfL xs (front2.length + 1) from rfl]
      have haux : ∀ ys : List Nd, WFl ys (front2 ++ [e]) = true →
          (rowsOfL ys (front2.length + 1)).length = ys.length * prodL front2 := by
        intro ys
        induction ys with
        | nil => intro _; simp [rowsOfL]
        | cons y ys2 ihy =>
          intro hy
          have hy2 : (WF y (front2 ++ [e]) && WFl ys2 (front2 ++ [e])) = true := hy
          rw [Bool.and_eq_true] at hy2
          show (rowsOf y (front2.length + 1) ++ rowsOfL ys2 (front2.length + 1)).length = _
          rw [List.length_append, ihf e y hy2.1, ihy hy2.2, List.length_cons]
          ring
      rw [haux xs h2.2, h2.1]
      rfl

theorem data1D_count (e : Nat) (row : Nd) (h : WF row [e] = true) :
    countCh '(' (data1D row) = e := by
  rw [data1D_toks e row h, countCh_joinSep '(' [' '] _ (by decide)]
  have hmap : ((ents row).map tokOf).map (countCh '(')
      = (ents row).map (fun _ => 1) := by
    rw [List.map_map]
    apply map_congr_mem
    intro p hp
    have hnum := ents_numOk [e] row h p hp
    simp only [Function.comp]
    exact countCh_tokOf p hnum.1 hnum.2
  rw [hmap, sum_map_const, ents_length [e] row h]
  show prodL [e] * 1 = e
  rw [Nat.mul_one]
  show e * 1 = e
  exact Nat.mul_one e

theorem data2D_count (c d : Nat) (sub : Nd) (h : WF sub [c, d] = true) :
    countCh '(' (data2D sub) = c * d := by
  rw [data2D_rows c d sub h, countCh_joinSep '(' _ _ (by decide)]
  have hmap : ((rowsOf sub 2).map data1D).map (countCh '(')
      = (rowsOf sub 2).map (fun _ => d) := by
    rw [List.map_map]
    apply map_congr_mem
    intro row hrow
    have hwf := rowsOf_WF [c] d sub h row hrow
    simp only [Function.comp]
    exact data1D_count d row hwf
  rw [hmap, sum_map_const]
  have hr := rowsOf_length [c] d sub h
  rw [show ([c] : List Nat).length + 1 = 2 from rfl] at hr
  rw [hr]
  show prodL [c] * d = c * d
  rw [show prodL [c] = c * 1 from rfl, Nat.mul_one]

/-- Token count of pycppqed/data.py's `dataMD`: levels with more than two
remaining axes iterate `range(hi - lo)` (one slice short); the
two-remaining-axes level iterates fully. -/
def pqCount : List Nat → Nat
  | e :: r1 :: r2 :: r3 :: rest => (e - 1) * pqCount (r1 :: r2 :: r3 :: rest)
  | e :: c :: d :: [] => e * (c * d)
  | _ => 0

/-- Token count of src/data.py's `dataMD`: every level iterates
`range(hi - lo)`, one slice short. -/
def srcCount : List Nat → Nat
  | e :: r1 :: r2 :: r3 :: rest => (e - 1) * srcCount (r1 :: r2 :: r3 :: rest)
  | e :: c :: d :: [] => (e - 1) * (c * d)
  | _ => 0

theorem dataMDpq_count : ∀ (n : Nat) (dims : List Nat) (x : Nd), dims.length = n + 3 →
    WF x dims = true →
    countCh '(' (dataMDpq x (dims.map (fun (e : Nat) => ((0 : Int), (e : Int) - 1))))
      = pqCount dims := by
  intro n
  induction n with
  | zero =>
    intro dims x hlen h
    cases dims with
    | nil => simp at hlen
    | cons e rest =>
      cases x with
      | C _ _ => exact nomatch h
      | A xs =>
        have h2 : ((xs.length == e) && WFl xs rest) = true := h
        rw [Bool.and_eq_true, beq_iff_eq] at h2
        have hr : rest.length = 2 := by
          simp only [List.length_cons] at hlen
          omega
        cases rest with
        | nil => simp at hr
        | cons c r2 =>
          cases r2 with
          | nil => simp at hr
          | cons d r3 =>
            cases r3 with
            | cons e4 r4 => simp at hr
            | nil =>
              have hstep : dataMDpq (.A xs)
                  ([e, c, d].map (fun (e : Nat) => ((0 : Int), (e : Int) - 1)))
                  = joinSep (' ' :: '\n' :: ' ' :: ' ' :: [])
                    ((List.range ((e : Int) - 1 - 0 + 1).toNat).map
                      (fun i => data2D (child (.A xs) i))) := rfl
              rw [hstep, show ((e : Int) - 1 - 0 + 1).toNat = e by omega,
                countCh_joinSep '(' _ _ (by decide)]
              have hmap : ((List.range e).map (fun i => data2D (child (.A xs) i))).map
                    (countCh '(')
                  = (List.range e).map (fun _ => c * d) := by
                rw [List.map_map]
                apply map_congr_mem
                intro i hi
                rw [List.mem_range] at hi
                have hmem : xs.getD i (.A []) ∈ xs :=
                  getD_mem xs i (.A []) (by rw [h2.1]; exact hi)
                simp only [Function.comp]
                exact data2D_count c d _ (WFl_mem [c, d] xs h2.2 _ hmem)
              rw [hmap, sum_map_const, List.length_range]
              rfl
  | succ m ih =>
    intro dims x hlen h
    cases dims with
    | nil => simp at hlen
    | cons e rest =>
      cases x with
      | C _ _ => exact nomatch h
      | A xs =>
        have h2 : ((xs.length == e) && WFl xs rest) = true := h
        rw [Bool.and_eq_true, beq_iff_eq] at h2
        have hr : rest.length = m + 3 := by
          simp only [List.length_cons] at hlen
          omega
        have hplen : ((e :: rest).map (fun (e : Nat) => ((0 : Int), (e : Int) - 1))).length
            = m + 4 := by
          simp [hr]
        rw [show dataMDpq (.A xs) ((e :: rest).map (fun (e : Nat) => ((0 : Int), (e : Int) - 1)))
            = dataMDpqF ((e :: rest).map (fun (e : Nat) => ((0 : Int), (e : Int) - 1))).length
              (.A xs) ((e :: rest).map (fun (e : Nat) => ((0 : Int), (e : Int) - 1)))
            from rfl, hplen, List.map_cons]
        have hstep : dataMDpqF (m + 4) (.A xs)
            (((0 : Int), (e : Int) - 1)
              :: rest.map (fun (e : Nat) => ((0 : Int), (e : Int) - 1)))
            = if (rest.map (fun (e : Nat) => ((0 : Int), (e : Int) - 1))).length > 2 then
                joinSep ['\n']
                  ((List.range ((e : Int) - 1 - 0).toNat).map
                    (fun i => dataMDpqF (m + 3) (child (.A xs) i)
                      (rest.map (fun (e : Nat) => ((0 : Int), (e : Int) - 1)))))
              else if (rest.map (fun (e : Nat) => ((0 : Int), (e : Int) - 1))).length = 2 then
                joinSep (' ' :: '\n' :: ' ' :: ' ' :: [])
                  ((List.range ((e : Int) - 1 - 0 + 1).toNat).map
                    (fun i => data2D (child (.A xs) i)))
              else [] := rfl
        rw [hstep, if_pos (by simp only [List.length_map, hr]; omega),
          show ((e : Int) - 1 - 0).toNat = e - 1 by omega,
          countCh_joinSep '(' _ _ (by decide)]
        have hmap : ((List.range (e - 1)).map
              (fun i => dataMDpqF (m + 3) (child (.A xs) i)
                (rest.map (fun (e : Nat) => ((0 : Int), (e : Int) - 1))))).map (countCh '(')
            = (List.range (e - 1)).map (fun _ => pqCount rest) := by
          rw [List.map_map]
          apply map_congr_mem
          intro i hi
          rw [List.mem_range] at hi
          have hmem : xs.getD i (.A []) ∈ xs :=
            getD_mem xs i (.A []) (by rw [h2.1]; omega)
          have hwf := WFl_mem rest xs h2.2 _ hmem
          have hih := ih rest (xs.getD i (.A [])) hr hwf
          have hplen2 : (rest.map (fun (e : Nat) => ((0 : Int), (e : Int) - 1))).length
              = m + 3 := by
            simp [hr]
          rw [show dataMDpq (xs.getD i (.A []))
              (rest.map (fun (e : Nat) => ((0 : Int), (e : Int) - 1)))
              = dataMDpqF (rest.map (fun (e : Nat) => ((0 : Int), (e : Int) - 1))).length
                (xs.getD i (.A []))
                (rest.map (fun (e : Nat) => ((0 : Int), (e : Int) - 1))) from rfl,
            hplen2] at hih
          simp only [Function.comp]
          exact hih
        rw [hmap, sum_map_const, List.length_range]
        have hr3 : 3 ≤ rest.length := by omega
        cases rest with
        | nil => simp at hr3
        | cons r1 rr1 =>
          cases rr1 with
          | nil => simp at hr3
          | cons r2 rr2 =>
            cases rr2 with
            | nil => simp at hr3
            | cons r3 rr3 => rfl

theorem dataMDsrc_count : ∀ (n : Nat) (dims : List Nat) (x : Nd), dims.length = n + 3 →
    WF x dims = true →
    countCh '(' (dataMDsrc x (dims.map (fun (e : Nat) => ((0 : Int), (e : Int) - 1))))
      = srcCount dims := by
  intro n
  induction n with
  | zero =>
    intro dims x hlen h
    cases dims with
    | nil => simp at hlen
    | cons e rest =>
      cases x with
      | C _ _ => exact nomatch h
      | A xs =>
        have h2 : ((xs.length == e) && WFl xs rest) = true := h
        rw [Bool.and_eq_true, beq_iff_eq] at h2
        have hr : rest.length = 2 := by
          simp only [List.length_cons] at hlen
          omega
        cases rest with
        | nil => simp at hr
        | cons c r2 =>
          cases r2 with
          | nil => simp at hr
          | cons d r3 =>
            cases r3 with
            | cons e4 r4 => simp at hr
            | nil =>
              have hstep : dataMDsrc (.A xs)
                  ([e, c, d].map (fun (e : Nat) => ((0 : Int), (e : Int) - 1)))
                  = joinSep (' ' :: '\n' :: ' ' :: ' ' :: [])
                    ((List.range ((e : Int) - 1 - 0).toNat).map
                      (fun i => data2D (child (.A xs) i))) := rfl
              rw [hstep, show ((e : Int) - 1 - 0).toNat = e - 1 by omega,
                countCh_joinSep '(' _ _ (by decide)]
              have hmap : ((List.range (e - 1)).map
                    (fun i => data2D (child (.A xs) i))).map (countCh '(')
                  = (List.range (e - 1)).map (fun _ => c * d) := by
                rw [List.map_map]
                apply map_congr_mem
                intro i hi
                rw [List.mem_range] at hi
                have hmem : xs.getD i (.A []) ∈ xs :=
                  getD_mem xs i (.A []) (by rw [h2.1]; omega)
                simp only [Function.comp]
                exact data2D_count c d _ (WFl_mem [c, d] xs h2.2 _ hmem)
              rw [hmap, sum_map_const, List.length_range]
              rfl
  | succ m ih =>
    intro dims x hlen h
    cases dims with
    | nil => simp at hlen
    | cons e rest =>
      cases x with
      | C _ _ => exact nomatch h
      | A xs =>
        have h2 : ((xs.length == e) && WFl xs rest) = true := h
        rw [Bool.and_eq_true, beq_iff_eq] at h2
        have hr : rest.length = m + 3 := by
          simp only [List.length_cons] at hlen
          omega
        have hplen : ((e :: rest).map (fun (e : Nat) => ((0 : Int), (e : Int) - 1))).length
            = m + 4 := by
          simp [hr]
        rw [show dataMDsrc (.A xs) ((e :: rest).map (fun (e : Nat) => ((0 : Int), (e : Int) - 1)))
            = dataMDsrcF ((e :: rest).map (fun (e : Nat) => ((0 : Int), (e : Int) - 1))).length
              (.A xs) ((e :: rest).map (fun (e : Nat) => ((0 : Int), (e : Int) - 1)))
            from rfl, hplen, List.map_cons]
        have hstep : dataMDsrcF (m + 4) (.A xs)
            (((0 : Int), (e : Int) - 1)
              :: rest.map (fun (e : Nat) => ((0 : Int), (e : Int) - 1)))
            = if (rest.map (fun (e : Nat) => ((0 : Int), (e : Int) - 1))).length > 2 then
                joinSep ['\n']
                  ((List.range ((e : Int) - 1 - 0).toNat).map
                    (fun i => dataMDsrcF (m + 3) (child (.A xs) i)
                      (rest.map (fun (e : Nat) => ((0 : Int), (e : Int) - 1)))))
              else if (rest.map (fun (e : Nat) => ((0 : Int), (e : Int) - 1))).length = 2 then
                joinSep (' ' :: '\n' :: ' ' :: ' ' :: [])
                  ((List.range ((e : Int) - 1 - 0).toNat).map
                    (fun i => data2D (child (.A xs) i)))
              else [] := rfl
        rw [hstep, if_pos (by simp only [List.length_map, hr]; omega),
          show ((e : Int) - 1 - 0).toNat = e - 1 by omega,
          countCh_joinSep '(' _ _ (by decide)]
        have hmap : ((List.range (e - 1)).map
              (fun i => dataMDsrcF (m + 3) (child (.A xs) i)
                (rest.map (fun (e : Nat) => ((0 : Int), (e : Int) - 1))))).map (countCh '(')
            = (List.range (e - 1)).map (fun _ => srcCount rest) := by
          rw [List.map_map]
          apply map_congr_mem
          intro i hi
          rw [List.mem_range] at hi
          have hmem : xs.getD i (.A []) ∈ xs :=
            getD_mem xs i (.A []) (by rw [h2.1]; omega)
          have hwf := WFl_mem rest xs h2.2 _ hmem
          have hih := ih rest (xs.getD i (.A [])) hr hwf
          have hplen2 : (rest.map (fun (e : Nat) => ((0 : Int), (e : Int) - 1))).length
              = m + 3 := by
            simp [hr]
          rw [show dataMDsrc (xs.getD i (.A []))
              (rest.map (fun (e : Nat) => ((0 : Int), (e : Int) - 1)))
              = dataMDsrcF (rest.map (fun (e : Nat) => ((0 : Int), (e : Int) - 1))).length
                (xs.getD i (.A []))
                (rest.map (fun (e : Nat) => ((0 : Int), (e : Int) - 1))) from rfl,
            hplen2] at hih
          simp only [Function.comp]
          exact hih
        rw [hmap, sum_map_const, List.length_range]
        have hr3 : 3 ≤ rest.length := by omega
        cases rest with
        | nil => simp at hr3
        | cons r1 rr1 =>
          cases rr1 with
          | nil => simp at hr3
          | cons r2 rr2 =>
            cases rr2 with
            | nil => simp at hr3
            | cons r3 rr3 => rfl

theorem pqCount_le : ∀ (n : Nat) (dims : List Nat), dims.length = n + 3 →
    pqCount dims ≤ prodL dims := by
  intro n
  induction n with
  | zero =>
    intro dims hlen
    cases dims with
    | nil => simp at hlen
    | cons e rest =>
      have hr : rest.length = 2 := by simp only [List.length_cons] at hlen; omega
      cases rest with
      | nil => simp at hr
      | cons c r2 =>
        cases r2 with
        | nil => simp at hr
        | cons d r3 =>
          cases r3 with
          | cons e4 r4 => simp at hr
          | nil =>
            show e * (c * d) ≤ prodL [e, c, d]
            rw [show prodL [e, c, d] = e * (c * (d * 1)) from rfl, Nat.mul_one]
  | succ m ih =>
    intro dims hlen
    cases dims with
    | nil => simp at hlen
    | cons e rest =>
      have hr : rest.length = m + 3 := by simp only [List.length_cons] at hlen; omega
      have hle := ih rest hr
      have hr3 : 3 ≤ rest.length := by omega
      cases rest with
      | nil => simp at hr3
      | cons r1 rr1 =>
        cases rr1 with
        | nil => simp at hr3
        | cons r2 rr2 =>
          cases rr2 with
          | nil => simp at hr3
          | cons r3 rr3 =>
            show (e - 1) * pqCount (r1 :: r2 :: r3 :: rr3) ≤ e * prodL (r1 :: r2 :: r3 :: rr3)
            calc (e - 1) * pqCount (r1 :: r2 :: r3 :: rr3)
                ≤ (e - 1) * prodL (r1 :: r2 :: r3 :: rr3) := Nat.mul_le_mul_left _ hle
              _ ≤ e * prodL (r1 :: r2 :: r3 :: rr3) :=
                  Nat.mul_le_mul_right _ (Nat.sub_le e 1)

theorem srcCount_le : ∀ (n : Nat) (dims : List Nat), dims.length = n + 3 →
    srcCount dims ≤ prodL dims := by
  intro n
  induction n with
  | zero =>
    intro dims hlen
    cases dims with
    | nil => simp at hlen
    | cons e rest =>
      have hr : rest.length = 2 := by simp only [List.length_cons] at hlen; omega
      cases rest with
      | nil => simp at hr
      | cons c r2 =>
        cases r2 with
        | nil => simp at hr
        | cons d r3 =>
          cases r3 with
          | cons e4 r4 => simp at hr
          | nil =>
            show (e - 1) * (c * d) ≤ prodL [e, c, d]
            rw [show prodL [e, c, d] = e * (c * (d * 1)) from rfl, Nat.mul_one]
            exact Nat.mul_le_mul_right _ (Nat.sub_le e 1)
  | succ m ih =>
    intro dims hlen
    cases dims with
    | nil => simp at hlen
    | cons e rest =>
      have hr : rest.length = m + 3 := by simp only [List.length_cons] at hlen; omega
      have hle := ih rest hr
      have hr3 : 3 ≤ rest.length := by omega
      cases rest with
      | nil => simp at hr3
      | cons r1 rr1 =>
        cases rr1 with
        | nil => simp at hr3
        | cons r2 rr2 =>
          cases rr2 with
          | nil => simp at hr3
          | cons r3 rr3 =>
            show (e - 1) * srcCount (r1 :: r2 :: r3 :: rr3) ≤ e * prodL (r1 :: r2 :: r3 :: rr3)
            calc (e - 1) * srcCount (r1 :: r2 :: r3 :: rr3)
                ≤ (e - 1) * prodL (r1 :: r2 :: r3 :: rr3) := Nat.mul_le_mul_left _ hle
              _ ≤ e * prodL (r1 :: r2 :: r3 :: rr3) :=
                  Nat.mul_le_mul_right _ (Nat.sub_le e 1)

theorem short_mul_lt (e a b : Nat) (he : 1 ≤ e) (hab : a ≤ b) (hb : 1 ≤ b) :
    (e - 1) * a < e * b := by
  have h1 : (e - 1) * a ≤ (e - 1) * b := Nat.mul_le_mul_left _ hab
  have h2 : e * b = (e - 1) * b + b := by
    have he1 : e = (e - 1) + 1 := by omega
    calc e * b = ((e - 1) + 1) * b := by rw [← he1]
      _ = (e - 1) * b + b := Nat.succ_mul _ _
  omega

theorem pqCount_lt : ∀ (n : Nat) (dims : List Nat), dims.length = n + 4 →
    (∀ e ∈ dims, 1 ≤ e) → pqCount dims < prodL dims := by
  intro n dims hlen hext
  cases dims with
  | nil => simp at hlen
  | cons e rest =>
    have hr : rest.length = n + 3 := by simp only [List.length_cons] at hlen; omega
    have hle := pqCount_le n rest hr
    have hpos := prodL_pos rest (fun t ht => hext t (List.mem_cons_of_mem e ht))
    have he : 1 ≤ e := hext e (List.mem_cons_self e rest)
    have hr3 : 3 ≤ rest.length := by omega
    cases rest with
    | nil => simp at hr3
    | cons r1 rr1 =>
      cases rr1 with
      | nil => simp at hr3
      | cons r2 rr2 =>
        cases rr2 with
        | nil => simp at hr3
        | cons r3 rr3 =>
          show (e - 1) * pqCount (r1 :: r2 :: r3 :: rr3) < e * prodL (r1 :: r2 :: r3 :: rr3)
          exact short_mul_lt e _ _ he hle hpos

theorem srcCount_lt : ∀ (n : Nat) (dims : List Nat), dims.length = n + 3 →
    (∀ e ∈ dims, 1 ≤ e) → srcCount dims < prodL dims := by
  intro n
  induction n with
  | zero =>
    intro dims hlen hext
    cases dims with
    | nil => simp at hlen
    | cons e rest =>
      have hr : rest.length = 2 := by simp only [List.length_cons] at hlen; omega
      cases rest with
      | nil => simp at hr
      | cons c r2 =>
        cases r2 with
        | nil => simp at hr
        | cons d r3 =>
          cases r3 with
          | cons e4 r4 => simp at hr
          | nil =>
            show (e - 1) * (c * d) < prodL [e, c, d]
            rw [show prodL [e, c, d] = e * (c * (d * 1)) from rfl, Nat.mul_one]
            apply short_mul_lt e (c * d) (c * d) (hext e (List.mem_cons_self e _))
              (Nat.le_refl _)
            have hc : 1 ≤ c := hext c (by simp)
            have hd : 1 ≤ d := hext d (by simp)
            exact Nat.one_le_iff_ne_zero.mpr (Nat.mul_ne_zero (by omega) (by omega))
  | succ m ih =>
    intro dims hlen hext
    cases dims with
    | nil => simp at hlen
    | cons e rest =>
      have hr : rest.length = m + 3 := by simp only [List.length_cons] at hlen; omega
      have hlt := ih rest hr (fun t ht => hext t (List.mem_cons_of_mem e ht))
      have he : 1 ≤ e := hext e (List.mem_cons_self e rest)
      have hpos := prodL_pos rest (fun t ht => hext t (List.mem_cons_of_mem e ht))
      have hr3 : 3 ≤ rest.length := by omega
      cases rest with
      | nil => simp at hr3
      | cons r1 rr1 =>
        cases rr1 with
        | nil => simp at hr3
        | cons r2 rr2 =>
          cases rr2 with
          | nil => simp at hr3
          | cons r3 rr3 =>
            show (e - 1) * srcCount (r1 :: r2 :: r3 :: rr3) < e * prodL (r1 :: r2 :: r3 :: rr3)
            exact short_mul_lt e _ _ he (Nat.le_of_lt hlt) hpos

-- ## Head properties of rendered data sections

theorem rowsRender_head_props (r0 : List Char) (rs : List (List Char)) (X : List Char)
    (hok : rowOk r0 = true) :
    (rowsRender (r0 :: rs) ++ X) ≠ []
    ∧ ∀ c0, (rowsRender (r0 :: rs) ++ X).head? = some c0 → c0 ≠ '\n' ∧ c0 ≠ '#' := by
  obtain ⟨hne0, hnl, hpar, hhash⟩ := rowOk_props r0 hok
  have hshape : rowsRender (r0 :: rs) ++ X
      = r0 ++ (['\n'] ++ ((rs.map (· ++ ['\n'])).flatten ++ X)) := by
    rw [rowsRender]
    simp
  rw [hshape]
  cases r0 with
  | nil => exact absurd rfl hne0
  | cons c cr =>
    refine ⟨by simp, ?_⟩
    intro c0 hc0
    have hcc : c = c0 := by simpa using hc0
    constructor
    · intro habs
      apply hnl
      rw [hcc, habs]
      exact List.mem_cons_self _ _
    · intro habs
      apply hhash
      rw [hcc, habs]
      exact List.mem_cons_self _ _

theorem renderData_head_props (gs : List Grp) (tl : List (List Char))
    (hg : ∀ g ∈ gs, g.rows ≠ [] ∧ (∀ r ∈ g.rows, rowOk r = true))
    (htl : ∀ r ∈ tl, rowOk r = true) (hne : gs ≠ [] ∨ tl ≠ []) :
    renderData gs tl ≠ []
    ∧ ∀ c0, (renderData gs tl).head? = some c0 → c0 ≠ '\n' ∧ c0 ≠ '#' := by
  rcases gs with _ | ⟨g, gs2⟩
  · cases tl with
    | nil =>
      rcases hne with h | h
      · exact absurd rfl h
      · exact absurd rfl h
    | cons r0 rs =>
      have hk := rowsRender_head_props r0 rs [] (htl r0 (List.mem_cons_self r0 rs))
      rw [show renderData [] (r0 :: rs) = rowsRender (r0 :: rs) ++ [] by
        rw [renderData]
        simp]
      exact hk
  · obtain ⟨hrne, hrok⟩ := hg g (List.mem_cons_self g gs2)
    cases hgr : g.rows with
    | nil => exact absurd hgr hrne
    | cons r0 rs =>
      have hk := rowsRender_head_props r0 rs
        (blockText g.dim g.inner ++ ('\n' :: ((gs2.map renderGroup).flatten
          ++ rowsRender tl)))
        (hrok r0 (by rw [hgr]; exact List.mem_cons_self _ _))
      rw [show renderData (g :: gs2) tl
          = rowsRender (r0 :: rs) ++ (blockText g.dim g.inner
            ++ ('\n' :: ((gs2.map renderGroup).flatten ++ rowsRender tl))) by
        rw [renderData, show (g :: gs2).map renderGroup
          = renderGroup g :: gs2.map renderGroup from rfl, List.flatten_cons,
          renderGroup, hgr]
        simp]
      exact hk

-- ## The claims

/-- Claim C1: for every dense complex array of rank 1 through 5 with
arbitrary positive extents, decoding the result of encoding it
(`_blitz2numpy(_numpy2blitz(a))`) returns an array elementwise equal to the
original. -/
theorem C1_encode_decode_roundtrip (shape : List Nat) (x : Nd)
    (hrank : 1 ≤ shape.length ∧ shape.length ≤ 5)
    (hext : ∀ e ∈ shape, 1 ≤ e) (hwf : WF x shape = true) :
    blitz2numpy (numpy2blitz x shape) = some x :=
  blitz_roundtrip shape x
    (by
      intro habs
      rw [habs] at hrank
      simp at hrank)
    hext hwf

theorem C1_encode_decode_roundtrip_witness :
    ((1 ≤ ([2, 2] : List Nat).length ∧ ([2, 2] : List Nat).length ≤ 5)
      ∧ (∀ e ∈ ([2, 2] : List Nat), 1 ≤ e)
      ∧ WF (.A [.A [.C ['1'] ['2'], .C ['3'] ['4']],
          .A [.C ['5'] ['6'], .C ['7'] ['8']]]) [2, 2] = true)
    ∧ blitz2numpy (numpy2blitz (.A [.A [.C ['1'] ['2'], .C ['3'] ['4']],
          .A [.C ['5'] ['6'], .C ['7'] ['8']]]) [2, 2])
      = some (.A [.A [.C ['1'] ['2'], .C ['3'] ['4']],
          .A [.C ['5'] ['6'], .C ['7'] ['8']]]) :=
  ⟨⟨by decide, by decide, by decide⟩,
    C1_encode_decode_roundtrip [2, 2] _ (by decide) (by decide) (by decide)⟩

/-- Claim C2 (amended): on a body of well-formed `(re,im)` tokens the decoder
returns `none` (the IndexError of writing past the `numpy.empty` buffer)
exactly when there are more tokens than the product of extents; with
missing tokens it succeeds, silently padding with uninitialised entries —
there is no FormatError and a partially filled array is returned. -/
theorem C2_token_count_behaviour (shape : List Nat)
    (toks : List (List Char × List Char)) (hsh : shape ≠ []) (hne : toks ≠ [])
    (hnum : ∀ p ∈ toks, numOk p.1 = true ∧ numOk p.2 = true) :
    (prodL shape < toks.length → blitz2numpy (mkBlitz shape toks) = none)
    ∧ (toks.length ≤ prodL shape →
        (blitz2numpy (mkBlitz shape toks)).isSome = true) := by
  constructor
  · intro hlt
    rw [blitz_count_main shape toks hsh hne hnum,
      if_pos (show (toks.length : Int) > ((prodL shape : Nat) : Int) by omega)]
  · intro hle
    rw [blitz_count_main shape toks hsh hne hnum,
      if_neg (show ¬ (toks.length : Int) > ((prodL shape : Nat) : Int) by omega)]
    exact npReshapeI_pad_isSome shape toks hsh hle

theorem C2_token_count_behaviour_witness :
    (([2] : List Nat) ≠ []
      ∧ ([((['1'] : List Char), (['2'] : List Char))] : List (List Char × List Char)) ≠ []
      ∧ (∀ p ∈ ([((['1'] : List Char), (['2'] : List Char))]
          : List (List Char × List Char)), numOk p.1 = true ∧ numOk p.2 = true))
    ∧ ((prodL [2] < 1 → blitz2numpy (mkBlitz [2] [(['1'], ['2'])]) = none)
      ∧ (1 ≤ prodL [2] → (blitz2numpy (mkBlitz [2] [(['1'], ['2'])])).isSome = true)) :=
  ⟨⟨by decide, by decide, by decide⟩,
    C2_token_count_behaviour [2] [(['1'], ['2'])] (by decide) (by decide) (by decide)⟩

/-- Claim C2 counterexample: a one-token body against a two-element header
decodes successfully to an array padded with an uninitialised entry — no
error at all on too few tokens, and a partially filled array is returned. -/
theorem C2_too_few_tokens_counterexample :
    blitz2numpy (cs ("(0,1)\n[ (1,2) ]"))
      = some (.A [.C ['1'] ['2'], .C ['?'] ['?']]) := by rfl

/-- Claim C3 (amended): for a buffer of a `'#'`-led header (with no interior
blank line) followed by a blank line and a data section in which every array
block is preceded by at least one numeric row, the reader returns exactly
the header as comment text and dispatches the rows and blocks in file
order — `k` row dispatches and `m` block dispatches for `k` rows and `m`
blocks so grouped. -/
theorem C3_scan_ordering (hdr : List Char) (gs : List Grp) (tl : List (List Char))
    (hh : hdr.head? = some '#')
    (hnn : findSub (hdr ++ ['\n']) ('\n' :: '\n' :: []) = none)
    (hg : ∀ g ∈ gs, g.rows ≠ [] ∧ (∀ r ∈ g.rows, rowOk r = true)
      ∧ '\n' ∉ g.dim ∧ ']' ∉ g.dim ∧ ']' ∉ g.inner)
    (htl : ∀ r ∈ tl, rowOk r = true)
    (hne : gs ≠ [] ∨ tl ≠ []) :
    readerScan (hdr ++ '\n' :: '\n' :: renderData gs tl) = some (hdr, eventsOf gs tl)
    ∧ evRows (eventsOf gs tl) = (gs.map (fun g => g.rows.length)).sum + tl.length
    ∧ evBlks (eventsOf gs tl) = gs.length := by
  have hcounts := eventsOf_counts gs tl
  have hprops := renderData_head_props gs tl
    (fun g hg2 => ⟨(hg g hg2).1, (hg g hg2).2.1⟩) htl hne
  have hrr := readerRead_split hdr (renderData gs tl) hh hnn hprops.1 hprops.2
  have hsg := scanD_groups gs tl hg htl
  refine ⟨?_, hcounts.1, hcounts.2⟩
  simp only [readerScan, hrr, hsg, Option.map_some']

theorem C3_scan_ordering_witness :
    ((cs ("# h")).head? = some '#'
      ∧ findSub (cs ("# h") ++ ['\n']) ('\n' :: '\n' :: []) = none
      ∧ (∀ g ∈ [Grp.mk [cs ("1.0 2.0")] (cs ("0,1)")) (cs ("(1,2) (3,4)"))],
          g.rows ≠ [] ∧ (∀ r ∈ g.rows, rowOk r = true)
            ∧ '\n' ∉ g.dim ∧ ']' ∉ g.dim ∧ ']' ∉ g.inner)
      ∧ (∀ r ∈ [cs ("0.5 0.5")], rowOk r = true))
    ∧ readerScan (cs ("# h") ++ '\n' :: '\n'
          :: renderData [Grp.mk [cs ("1.0 2.0")] (cs ("0,1)")) (cs ("(1,2) (3,4)"))]
            [cs ("0.5 0.5")])
        = some (cs ("# h"),
            eventsOf [Grp.mk [cs ("1.0 2.0")] (cs ("0,1)")) (cs ("(1,2) (3,4)"))]
              [cs ("0.5 0.5")])
    ∧ evRows (eventsOf [Grp.mk [cs ("1.0 2.0")] (cs ("0,1)")) (cs ("(1,2) (3,4)"))]
          [cs ("0.5 0.5")])
        = ([Grp.mk [cs ("1.0 2.0")] (cs ("0,1)")) (cs ("(1,2) (3,4)"))].map
            (fun g => g.rows.length)).sum + [cs ("0.5 0.5")].length
    ∧ evBlks (eventsOf [Grp.mk [cs ("1.0 2.0")] (cs ("0,1)")) (cs ("(1,2) (3,4)"))]
          [cs ("0.5 0.5")])
        = [Grp.mk [cs ("1.0 2.0")] (cs ("0,1)")) (cs ("(1,2) (3,4)"))].length := by
  refine ⟨⟨rfl, rfl, by decide, by decide⟩, ?_⟩
  exact C3_scan_ordering (cs ("# h"))
    [Grp.mk [cs ("1.0 2.0")] (cs ("0,1)")) (cs ("(1,2) (3,4)"))] [cs ("0.5 0.5")]
    rfl rfl (by decide) (by decide) (by simp)

/-- Claim C3 counterexample: a data section that is a lone array block with
no preceding numeric row is dispatched as two numeric rows — the block
handler is never invoked, because `"\n("` needs a preceding newline. -/
theorem C3_lone_block_counterexample :
    scanD (cs ("(0,1)\n[ (1,2) (3,4) ]\n"))
      = some [Ev.row (cs ("(0,1)")), Ev.row (cs ("[ (1,2) (3,4) ]"))] := by rfl

/-- Claim C4 (amended): when the first `"\n("` marker of the data section
has no `"]"` at or after it, `_parsedatastr` fails its
`assert arrayendpos != -1` (an AssertionError — the spec's
TruncatedInputError/FormatError classes do not exist) and no dispatch list
is produced. -/
theorem C4_truncated_first_block (buf : List Char) (a : Nat)
    (h1 : findSub buf ('\n' :: '(' :: []) = some a)
    (h2 : findSubFrom buf [']'] a = none) :
    scanD buf = none :=
  scanD_no_close buf a h1 h2

theorem C4_truncated_first_block_witness :
    (findSub (cs ("r\n(A")) ('\n' :: '(' :: []) = some 1
      ∧ findSubFrom (cs ("r\n(A")) [']'] 1 = none)
    ∧ scanD (cs ("r\n(A")) = none :=
  ⟨⟨rfl, rfl⟩, C4_truncated_first_block (cs ("r\n(A")) 1 rfl rfl⟩

/-- Claim C4 counterexample: a buffer containing a later `"\n("` with no
subsequent `"]"` scans successfully — the missing-terminator check applies
only to markers the cursor actually reaches, and text after the last closed
block is dispatched as rows. -/
theorem C4_unterminated_marker_counterexample :
    scanD (cs ("r\n(A\n]\n(B"))
      = some [Ev.row (cs ("r")), Ev.blk (cs ("(A\n]")), Ev.row (cs ("(B"))]
    ∧ findSubFrom (cs ("r\n(A\n]\n(B")) ('\n' :: '(' :: []) 6 = some 6
    ∧ findSubFrom (cs ("r\n(A\n]\n(B")) [']'] 6 = none :=
  ⟨rfl, rfl, rfl⟩

/-- Claim C5 (amended): io.py's `_numpy2blitz` joins the blocks of every
extra axis — the deepest included — with `" \n  "` (newline plus two-space
indent); equivalently the whole rank-`r` body is the `" \n  "`-join of all
rank-1 row strings, and no level uses a bare `"\n"` separator. -/
theorem C5_io_separator_uniform (n : Nat) (dims : List Nat) (x : Nd)
    (hlen : dims.length = n + 3) (hext : ∀ e ∈ dims, 1 ≤ e)
    (hwf : WF x dims = true) :
    dataMDio x (dims.map (fun (e : Nat) => ((0 : Int), (e : Int) - 1)))
      = joinSep (' ' :: '\n' :: ' ' :: ' ' :: []) ((rowsOf x dims.length).map data1D) :=
  dataMDio_rows n dims x hlen hext hwf

theorem C5_io_separator_uniform_witness :
    (([1, 2, 1] : List Nat).length = 0 + 3 ∧ (∀ e ∈ ([1, 2, 1] : List Nat), 1 ≤ e)
      ∧ WF (.A [.A [.A [.C ['1'] ['2']], .A [.C ['3'] ['4']]]]) [1, 2, 1] = true)
    ∧ dataMDio (.A [.A [.A [.C ['1'] ['2']], .A [.C ['3'] ['4']]]])
        (([1, 2, 1] : List Nat).map (fun (e : Nat) => ((0 : Int), (e : Int) - 1)))
      = joinSep (' ' :: '\n' :: ' ' :: ' ' :: [])
          ((rowsOf (.A [.A [.A [.C ['1'] ['2']], .A [.C ['3'] ['4']]]])
            ([1, 2, 1] : List Nat).length).map data1D) :=
  ⟨⟨rfl, by decide, by decide⟩,
    C5_io_separator_uniform 0 [1, 2, 1] _ rfl (by decide) (by decide)⟩

/-- Claim C5 counterexample: encoding a 1×2×1×1 array with io.py's encoder
separates the two deepest-extra-axis blocks with `" \n  "`, not with the
single `"\n"` the claim requires. -/
theorem C5_deep_separator_counterexample :
    numpy2blitz (.A [.A [.A [.A [.C ['1'] ['2']]], .A [.A [.C ['3'] ['4']]]]])
        [1, 2, 1, 1]
      = cs ("(0,0) x (0,1) x (0,0) x (0,0) \n[ (1,2) \n  (3,4) ]\n\n") := by rfl

/-- Claim C6: every array block dispatched by the scanner is paired by
`load_cppqed`'s handlers with `evs[-1][0]`, the first numeric field of the
most recently dispatched numeric row. -/
theorem C6_block_time_pairing (buf : List Char) (events : List Ev)
    (res : List (List (List Char)) × List (Nd × List Char))
    (hscan : scanD buf = some events)
    (hload : loadPairs events = some res) :
    res.2.map (fun p => some p.2) = specTimes none events := by
  have h := loadGo_times events [] [] res hload
  simpa using h

theorem C6_block_time_pairing_witness :
    (scanD (cs ("1.0 2.0\n(0,1)\n[ (1,2) (3,4) ]\n0.5 0.5\n"))
      = some [Ev.row (cs ("1.0 2.0")), Ev.blk (cs ("(0,1)\n[ (1,2) (3,4) ]")),
          Ev.row (cs ("0.5 0.5"))]
      ∧ loadPairs [Ev.row (cs ("1.0 2.0")), Ev.blk (cs ("(0,1)\n[ (1,2) (3,4) ]")),
          Ev.row (cs ("0.5 0.5"))]
        = some ([[cs ("1.0"), cs ("2.0")], [cs ("0.5"), cs ("0.5")]],
            [(.A [.C ['1'] ['2'], .C ['3'] ['4']], cs ("1.0"))]))
    ∧ ([(Nd.A [.C ['1'] ['2'], .C ['3'] ['4']], cs ("1.0"))].map
        (fun p => some p.2))
      = specTimes none [Ev.row (cs ("1.0 2.0")),
          Ev.blk (cs ("(0,1)\n[ (1,2) (3,4) ]")), Ev.row (cs ("0.5 0.5"))] :=
  ⟨⟨rfl, rfl⟩,
    C6_block_time_pairing (cs ("1.0 2.0\n(0,1)\n[ (1,2) (3,4) ]\n0.5 0.5\n"))
      [Ev.row (cs ("1.0 2.0")), Ev.blk (cs ("(0,1)\n[ (1,2) (3,4) ]")),
        Ev.row (cs ("0.5 0.5"))]
      ([[cs ("1.0"), cs ("2.0")], [cs ("0.5"), cs ("0.5")]],
        [(.A [.C ['1'] ['2'], .C ['3'] ['4']], cs ("1.0"))]) rfl rfl⟩

/-- Claim C7: dimension string `"(0,1) x (0,1)"` with the given 2×2 body
decodes to `[[1+2i, 3+4i], [5+6i, 7+8i]]`, and re-encoding that array
reproduces the dimension string and the same four tokens in row-major
order. -/
theorem C7_concrete_roundtrip :
    blitz2numpy (cs ("(0,1) x (0,1)\n[ (1,2) (3,4) \n  (5,6) (7,8) ]"))
      = some (.A [.A [.C ['1'] ['2'], .C ['3'] ['4']],
          .A [.C ['5'] ['6'], .C ['7'] ['8']]])
    ∧ numpy2blitz (.A [.A [.C ['1'] ['2'], .C ['3'] ['4']],
          .A [.C ['5'] ['6'], .C ['7'] ['8']]]) [2, 2]
      = cs ("(0,1) x (0,1) \n[ (1,2) (3,4) \n  (5,6) (7,8) ]\n\n") :=
  ⟨rfl, rfl⟩

/-- Claim C8 (amended): the `eval`-based dimension parse performs no
validation: every rendered `" x "`-joined tuple of integer pairs — pairs
with hi < lo included — parses successfully to its list of integer tuples
(segments with other arities parse too; nothing raises FormatError). -/
theorem C8_dim_parse_no_validation (dims : List (Int × Int)) (hne : dims ≠ [])
    (k : Nat) :
    strToDim (dimStrOf dims ++ List.replicate k ' ')
      = some (dims.map (fun d => [d.1, d.2])) :=
  strToDim_render dims hne k

theorem C8_dim_parse_no_validation_witness :
    (([((5 : Int), (2 : Int))] : List (Int × Int)) ≠ [])
    ∧ strToDim (dimStrOf [((5 : Int), (2 : Int))] ++ List.replicate 0 ' ')
      = some [[(5 : Int), (2 : Int)]] :=
  ⟨by decide, C8_dim_parse_no_validation [((5 : Int), (2 : Int))] (by decide) 0⟩

/-- Claim C8 counterexample: a three-integer segment and a hi < lo segment
both parse successfully — `_str2dim` raises nothing for them. -/
theorem C8_no_arity_check_counterexample :
    strToDim (cs ("(0,1,2) x (0,3)")) = some [[0, 1, 2], [0, 3]]
    ∧ strToDim (cs ("(5,2)")) = some [[5, 2]] :=
  ⟨rfl, rfl⟩

/-- Claim C9 (amended): at levels with more than two remaining axes both
`_data2str` variants iterate `hi - lo` times, but pycppqed/data.py's
two-remaining-axes level iterates fully (`hi - lo + 1`) while src/data.py
is short there as well; for rank ≥ 4 both serialise strictly fewer `(re,im)`
tokens than the array has elements. -/
theorem C9_token_deficit (n : Nat) (dims : List Nat) (x : Nd)
    (hlen : dims.length = n + 4) (hext : ∀ e ∈ dims, 1 ≤ e)
    (hwf : WF x dims = true) :
    countCh '(' (dataMDpq x (dims.map (fun (e : Nat) => ((0 : Int), (e : Int) - 1))))
      = pqCount dims
    ∧ countCh '(' (dataMDsrc x (dims.map (fun (e : Nat) => ((0 : Int), (e : Int) - 1))))
      = srcCount dims
    ∧ pqCount dims < prodL dims
    ∧ srcCount dims < prodL dims
    ∧ (ents x).length = prodL dims :=
  ⟨dataMDpq_count (n + 1) dims x (by omega) hwf,
    dataMDsrc_count (n + 1) dims x (by omega) hwf,
    pqCount_lt n dims hlen hext,
    srcCount_lt (n + 1) dims (by omega) hext,
    ents_length dims x hwf⟩

theorem C9_token_deficit_witness :
    (([2, 2, 1, 1] : List Nat).length = 0 + 4
      ∧ (∀ e ∈ ([2, 2, 1, 1] : List Nat), 1 ≤ e)
      ∧ WF (.A [.A [.A [.A [.C ['1'] ['2']]], .A [.A [.C ['3'] ['4']]]],
          .A [.A [.A [.C ['5'] ['6']]], .A [.A [.C ['7'] ['8']]]]]) [2, 2, 1, 1] = true)
    ∧ (countCh '(' (dataMDpq (.A [.A [.A [.A [.C ['1'] ['2']]], .A [.A [.C ['3'] ['4']]]],
            .A [.A [.A [.C ['5'] ['6']]], .A [.A [.C ['7'] ['8']]]]])
          (([2, 2, 1, 1] : List Nat).map (fun (e : Nat) => ((0 : Int), (e : Int) - 1))))
        = pqCount [2, 2, 1, 1]
      ∧ countCh '(' (dataMDsrc (.A [.A [.A [.A [.C ['1'] ['2']]], .A [.A [.C ['3'] ['4']]]],
            .A [.A [.A [.C ['5'] ['6']]], .A [.A [.C ['7'] ['8']]]]])
          (([2, 2, 1, 1] : List Nat).map (fun (e : Nat) => ((0 : Int), (e : Int) - 1))))
        = srcCount [2, 2, 1, 1]
      ∧ pqCount [2, 2, 1, 1] < prodL [2, 2, 1, 1]
      ∧ srcCount [2, 2, 1, 1] < prodL [2, 2, 1, 1]
      ∧ (ents (.A [.A [.A [.A [.C ['1'] ['2']]], .A [.A [.C ['3'] ['4']]]],
          .A [.A [.A [.C ['5'] ['6']]], .A [.A [.C ['7'] ['8']]]]])).length
        = prodL [2, 2, 1, 1]) :=
  ⟨⟨rfl, by decide, by decide⟩,
    C9_token_deficit 0 [2, 2, 1, 1] _ rfl (by decide) (by decide)⟩

/-- Claim C9 counterexample: for a 2×2×1×1 array, pycppqed/data.py's
`_data2str` emits both slices of the second axis (the axis directly above
the trailing two), so that axis is not iterated `hi - lo` times: the body
keeps 2 tokens where the claim's per-axis-short rule would leave only 1. -/
theorem C9_second_axis_full_counterexample :
    data2strPq (.A [.A [.A [.A [.C ['1'] ['2']]], .A [.A [.C ['3'] ['4']]]],
        .A [.A [.A [.C ['5'] ['6']]], .A [.A [.C ['7'] ['8']]]]])
      ([((0 : Int), (1 : Int)), ((0 : Int), (1 : Int)), ((0 : Int), (0 : Int)),
        ((0 : Int), (0 : Int))] : List (Int × Int))
      = cs ("[ (1,2) \n  (3,4) ]") := by rfl

/-- Claim C10: when the data section opens with an array block before any
numeric row has been dispatched, `split_cppqed`'s state-vector handler
raises ValueError ("Can't find timestamps in given file.") and no
state-vector file is written. -/
theorem C10_block_before_rows (lines hdr : List (List Char)) (line : List Char)
    (rest : List (List Char)) (blk : List Char) (rest2 : List (List Char))
    (hhead : headLines lines [] = some (hdr, line, rest))
    (hpar : leadsWith ['('] line = true)
    (hcol : collectBlock rest line = some (blk, rest2)) :
    splitCpq lines = (⟨[], []⟩, some PErr.valueError) :=
  splitCpq_early_block lines hdr line rest blk rest2 hhead hpar hcol

theorem C10_block_before_rows_witness :
    (headLines [cs ("# c\n"), cs ("\n"), cs ("(0,1)\n"), cs ("[ (1,2) ]\n")] []
      = some ([cs ("# c\n"), cs ("\n")], cs ("(0,1)\n"), [cs ("[ (1,2) ]\n")])
      ∧ leadsWith ['('] (cs ("(0,1)\n")) = true
      ∧ collectBlock [cs ("[ (1,2) ]\n")] (cs ("(0,1)\n"))
        = some (cs ("(0,1)\n[ (1,2) ]\n"), []))
    ∧ splitCpq [cs ("# c\n"), cs ("\n"), cs ("(0,1)\n"), cs ("[ (1,2) ]\n")]
      = (⟨[], []⟩, some PErr.valueError) :=
  ⟨⟨rfl, rfl, rfl⟩,
    C10_block_before_rows [cs ("# c\n"), cs ("\n"), cs ("(0,1)\n"), cs ("[ (1,2) ]\n")]
      [cs ("# c\n"), cs ("\n")] (cs ("(0,1)\n")) [cs ("[ (1,2) ]\n")]
      (cs ("(0,1)\n[ (1,2) ]\n")) [] rfl rfl rfl⟩

end PQ
